import Mathlib

/-!
Verification of the selfies-js library (TypeScript port of the SELFIES
molecular-string codec) against its natural-language specification.

The development shallowly embeds the relevant source files:

  src/grammar-rules.ts   : symbol parsing, derivation state rules, index codec
  src/bond-constraints.ts: default semantic constraints, robust alphabet
  src/mol-graph.ts       : Atom / DirectedBond / MolecularGraph and kekulize
  src/decoder.ts         : tokenizer, derivation engine, ring formation
  src/utils/selfies-utils.ts : splitSelfies
  src/utils/smiles-utils.ts  : molToSmiles
  matching-based MolecularGraph.kekulize and findPerfectMatching
    (present in the repository as an alternative mol-graph implementation)
  the encoder's kekulization gate

Strings are modelled as `List Char` (the sources only manipulate ASCII
text), JavaScript numbers as `Nat`/`Int`/`Rat` (bond orders can be the
aromatic 1.5, so graph bond orders and bond counts are rationals; all
other quantities are integral), JavaScript `Map`s as insertion-ordered
association lists, and code paths that `throw` return `Except`.
Attribution bookkeeping (the optional side channel mapping output tokens
to input symbols) is omitted: it does not influence the molecular graph
or the emitted strings, and no claim below mentions it.
-/

/-- A SELFIES/SMILES symbol or string fragment, as a list of characters. -/
abbrev Chars := List Char

/-- Errors surfaced by the decoder (`DecoderError` in src/exceptions.ts).
`fuel` marks recursion-fuel exhaustion in the embedding; every theorem
below either supplies sufficient fuel or is conditioned on a successful
run, so the marker never influences a result. -/
inductive DecErr where
  | hangingBracket : DecErr
  | invalidSymbol (symbol : Chars) : DecErr
  | graphOp (msg : List Char) : DecErr
  | fuel : DecErr
deriving DecidableEq, Repr

/-- Insertion-ordered association list update, mirroring JavaScript
`Map.prototype.set`: an existing key is overwritten in place, a new key
is appended at the end. -/
def assocSet {α β : Type} [DecidableEq α] (k : α) (v : β) :
    List (α × β) → List (α × β)
  | [] => [(k, v)]
  | (k', v') :: rest =>
    if k' = k then (k, v) :: rest else (k', v') :: assocSet k v rest

/-- Association-list lookup, mirroring `Map.prototype.get`. -/
def assocGet {α β : Type} [DecidableEq α] (k : α) : List (α × β) → Option β
  | [] => none
  | (k', v') :: rest => if k' = k then some v' else assocGet k rest

/-- List update at an index (no-op when out of range), mirroring
JavaScript `arr[i] = v` for an in-range index. -/
def listSet {α : Type} (l : List α) (i : Nat) (v : α) : List α :=
  l.set i v

/-- Modify a list element in place (no-op when out of range). -/
def listModify {α : Type} (l : List α) (i : Nat) (f : α → α) : List α :=
  match l.get? i with
  | none => l
  | some x => l.set i (f x)

/-- Insertion into a JavaScript array at position `pos` via
`splice(pos, 0, x)`; a position at or past the end appends. -/
def insertAtLoc {α : Type} (l : List α) (pos : Nat) (x : α) : List α :=
  if pos ≥ l.length then l ++ [x]
  else l.take pos ++ x :: l.drop pos

/-! ## Constants

The repository's `src/constants.ts` is imported by the sources but is not
part of the provided tree; the constant tables below are modelled from
the specification (§4.1: symbol families and the index codec over a fixed
`INDEX_ALPHABET`; §2: bond-constraints table) and restricted to the
elements that the semantic-constraints table mentions.  All claims below
either quantify over inputs built from these tables or are conditioned on
successful parses, so enlarging the element set would not change any
verdict. -/

/-- Modelled from the spec: the organic subset `{B, C, N, O, P, S, F, Cl,
Br, I}` (§4.1), recognised for unbracketed SMILES atoms and for bare
SELFIES atom bodies. -/
def ORGANIC_SUBSET : List Chars :=
  ["B".toList, "C".toList, "N".toList, "O".toList, "P".toList,
   "S".toList, "F".toList, "Cl".toList, "Br".toList, "I".toList]

/-- Modelled from the spec: the fixed periodic-table element set (§3);
`src/constants.ts` is not in the provided tree, so only the elements
reachable from the semantic-constraints table and the test corpus are
listed. -/
def ELEMENTS : List Chars :=
  ["H".toList, "B".toList, "C".toList, "N".toList, "O".toList,
   "F".toList, "P".toList, "S".toList, "Cl".toList, "Br".toList,
   "I".toList, "Se".toList, "Si".toList, "As".toList, "Te".toList,
   "Al".toList]

/-- Modelled from the spec: `INDEX_ALPHABET`, the fixed list of sixteen
SELFIES symbols used as digits of the self-referencing index codec
(§4.1), most-significant digit first in encodings. -/
def INDEX_ALPHABET : List Chars :=
  ["[C]".toList, "[Ring1]".toList, "[Ring2]".toList,
   "[Branch1]".toList, "[=Branch1]".toList, "[#Branch1]".toList,
   "[Branch2]".toList, "[=Branch2]".toList, "[#Branch2]".toList,
   "[O]".toList, "[N]".toList, "[=N]".toList, "[=C]".toList,
   "[#C]".toList, "[S]".toList, "[P]".toList]

/-- Modelled from the spec: `INDEX_CODE`, mapping each symbol of
`INDEX_ALPHABET` to its digit (its position in the list). -/
def INDEX_CODE : List (Chars × Nat) :=
  INDEX_ALPHABET.enum.map (fun p => (p.2, p.1))

/-- The `DEFAULT_CONSTRAINTS` table of src/bond-constraints.ts, as an
insertion-ordered association list from atom key to bonding capacity. -/
def DEFAULT_CONSTRAINTS : List (Chars × Int) :=
  [("H".toList, 1), ("F".toList, 1), ("Cl".toList, 1), ("Br".toList, 1),
   ("I".toList, 1),
   ("B".toList, 3), ("B+1".toList, 2), ("B-1".toList, 4),
   ("O".toList, 2), ("O+1".toList, 3), ("O-1".toList, 1),
   ("N".toList, 3), ("N+1".toList, 4), ("N-1".toList, 2),
   ("C".toList, 4), ("C+1".toList, 3), ("C-1".toList, 3),
   ("P".toList, 5), ("P+1".toList, 4), ("P-1".toList, 6),
   ("S".toList, 6), ("S+1".toList, 5), ("S-1".toList, 5),
   ("?".toList, 8)]

/-- Decimal digit characters of a natural number (MSB first), modelling
JavaScript `Number.prototype.toString` for non-negative integers.  The
auxiliary fuel equals the number itself, which bounds the digit count. -/
def natDigitsAux : Nat → Nat → List Char
  | _, 0 => []
  | 0, _ => []
  | fuel + 1, n + 1 =>
    natDigitsAux fuel ((n + 1) / 10) ++
      [Char.ofNat (48 + (n + 1) % 10)]

/-- Decimal representation of a natural number as characters. -/
def natToChars (n : Nat) : List Char :=
  if n = 0 then ['0'] else natDigitsAux (n + 1) n

/-- Decimal representation of an integer as characters (sign included),
modelling JavaScript number-to-string conversion for integers. -/
def intToChars (z : Int) : List Char :=
  if z < 0 then '-' :: natToChars z.natAbs else natToChars z.natAbs

/-- The `key` used by `getBondingCapacity` in src/bond-constraints.ts:
the element, suffixed by the signed charge when the charge is nonzero
(`'+' + charge` for positive charges, `charge.toString()` otherwise). -/
def capacityKey (element : Chars) (charge : Int) : Chars :=
  if charge = 0 then element
  else if charge > 0 then element ++ '+' :: natToChars charge.natAbs
  else element ++ intToChars charge

/-- The bonding capacity looked up by `getBondingCapacity`
(src/bond-constraints.ts) under the default semantic constraints:
`currentConstraints[key] ?? currentConstraints["?"]`. -/
def getBondingCapacity (element : Chars) (charge : Int) : Int :=
  match assocGet (capacityKey element charge) DEFAULT_CONSTRAINTS with
  | some v => v
  | none =>
    match assocGet ("?".toList) DEFAULT_CONSTRAINTS with
    | some v => v
    | none => 0


/-- Half-integer rationals: every numeric quantity on the molecular
graph (bond orders, bond counts, free capacities, electron counts) is an
integer multiple of 1/2 — orders are 1, 1.5, 2 or 3 and everything else
is built from them by addition, subtraction, `min` and integer casts.
`HQ` stores twice the value as an integer, which keeps all arithmetic
kernel-computable; `⟨3⟩` is the source's literal `1.5`. -/
structure HQ where
  twice : Int
deriving DecidableEq, Repr

instance : OfNat HQ n := ⟨⟨2 * n⟩⟩

instance : Add HQ := ⟨fun a b => ⟨a.twice + b.twice⟩⟩

instance : Sub HQ := ⟨fun a b => ⟨a.twice - b.twice⟩⟩

instance : LE HQ := ⟨fun a b => a.twice ≤ b.twice⟩

instance : LT HQ := ⟨fun a b => a.twice < b.twice⟩

instance (a b : HQ) : Decidable (a ≤ b) :=
  inferInstanceAs (Decidable (a.twice ≤ b.twice))

instance (a b : HQ) : Decidable (a < b) :=
  inferInstanceAs (Decidable (a.twice < b.twice))

/-- JavaScript `Math.min` on half-integers. -/
instance : Min HQ := ⟨fun a b => if a.twice ≤ b.twice then a else b⟩

/-- The aromatic bond-order literal `1.5`. -/
def HQ.aromatic : HQ := ⟨3⟩

/-- Embed an integer. -/
def HQ.ofInt (z : Int) : HQ := ⟨2 * z⟩

/-- Embed a natural number. -/
def HQ.ofNat (n : Nat) : HQ := ⟨2 * n⟩

/-- JavaScript `Math.round` (half-up, exact on half-integers). -/
def HQ.round (a : HQ) : HQ :=
  if a.twice % 2 = 0 then a else ⟨a.twice + 1⟩

/-! ## Molecular graph (src/mol-graph.ts) -/

/-- An atom with associated specifications, from `class Atom` in
src/mol-graph.ts.  The mutable `index` field of the source is not stored
on the atom: in this functional embedding an atom's index is its position
in the graph's atom list, and contexts that track a possibly-unset index
(the decoder's `prevAtom`) carry it separately. -/
structure Atom where
  element : Chars
  isAromatic : Bool
  isotope : Option Nat := none
  chirality : Option Chars := none
  hCount : Option Nat := none
  charge : Int := 0
deriving DecidableEq, Repr

/-- The memoised `bondingCapacity` getter of `class Atom`: the
constraint-table lookup minus the explicit hydrogen count (if any). -/
def Atom.bondingCapacity (a : Atom) : Int :=
  getBondingCapacity a.element a.charge -
    (match a.hCount with | none => 0 | some h => (h : Int))

/-- An atom's bonding capacity as a rational, for comparison against
bond-count sums. -/
def Atom.capQ (a : Atom) : HQ := HQ.ofInt a.bondingCapacity

/-- A bond that contains directional information, from
`class DirectedBond` in src/mol-graph.ts. -/
structure DirectedBond where
  src : Nat
  dst : Nat
  order : HQ
  stereo : Option Char
  ringBond : Bool
deriving DecidableEq, Repr

/-- A molecular graph, from `class MolecularGraph` in src/mol-graph.ts.
`bondDict` models the `Map` keyed by `"src,dst"` strings; in the source
the same bond object is referenced from both the dictionary and the
adjacency lists, so the mutation helpers below update both views. -/
structure MolecularGraph where
  roots : List Nat := []
  atoms : List Atom := []
  bondDict : List ((Nat × Nat) × DirectedBond) := []
  adjList : List (List DirectedBond) := []
  bondCounts : List HQ := []
  ringBondFlags : List Bool := []
  delocalSubgraph : List (Nat × List Nat) := []
deriving DecidableEq, Repr

/-- The `length` getter: number of atoms. -/
def MolecularGraph.length (mol : MolecularGraph) : Nat := mol.atoms.length

/-- The `hasBond` query (key order normalised to `(min, max)`). -/
def MolecularGraph.hasBond (mol : MolecularGraph) (a b : Nat) : Bool :=
  let p := if a > b then (b, a) else (a, b)
  (assocGet p mol.bondDict).isSome

/-- The `getAtom` accessor; out-of-range indices (impossible in the
verified flows) yield a default atom. -/
def MolecularGraph.getAtom (mol : MolecularGraph) (idx : Nat) : Atom :=
  mol.atoms.getD idx { element := "C".toList, isAromatic := false }

/-- The `getBondCount` accessor (`this._bondCounts[idx] || 0`). -/
def MolecularGraph.getBondCount (mol : MolecularGraph) (idx : Nat) : HQ :=
  mol.bondCounts.getD idx 0

/-- The `getDirBond` accessor of src/mol-graph.ts, which looks up the
stored orientation only (the named source file does not synthesise the
reverse direction) and throws when the bond is absent. -/
def MolecularGraph.getDirBond (mol : MolecularGraph) (src dst : Nat) :
    Except DecErr DirectedBond :=
  match assocGet (src, dst) mol.bondDict with
  | some bond => .ok bond
  | none => .error (.graphOp ("bond not found".toList))

/-- The `getOutDirBonds` accessor. -/
def MolecularGraph.getOutDirBonds (mol : MolecularGraph) (src : Nat) :
    List DirectedBond :=
  mol.adjList.getD src []

/-- The `addAtom` mutation: appends the atom, extends the per-atom
arrays, optionally records a fragment root, and registers an aromatic
atom in the delocalisation subgraph.  Returns the new atom's index. -/
def MolecularGraph.addAtom (mol : MolecularGraph) (atom : Atom)
    (markRoot : Bool := false) : MolecularGraph × Nat :=
  let idx := mol.atoms.length
  ({ mol with
      roots := if markRoot then mol.roots ++ [idx] else mol.roots
      atoms := mol.atoms ++ [atom]
      adjList := mol.adjList ++ [[]]
      bondCounts := mol.bondCounts ++ [0]
      ringBondFlags := mol.ringBondFlags ++ [false]
      delocalSubgraph :=
        if atom.isAromatic then assocSet idx [] mol.delocalSubgraph
        else mol.delocalSubgraph },
   idx)

/-- The private `_addBondAtLoc` helper: records the bond under its
`(src, dst)` key and inserts it into the source's adjacency list at
`pos` (`none` models the `-1` append). -/
def MolecularGraph.addBondAtLoc (mol : MolecularGraph)
    (bond : DirectedBond) (pos : Option Nat) : MolecularGraph :=
  { mol with
      bondDict := assocSet (bond.src, bond.dst) bond mol.bondDict
      adjList :=
        listModify mol.adjList bond.src (fun edges =>
          match pos with
          | none => edges ++ [bond]
          | some p => insertAtLoc edges p bond) }

/-- Record an undirected edge in the delocalisation subgraph (the
`order === 1.5` branches of `addBond` / `addRingBond`). -/
def MolecularGraph.addDelocalEdge (mol : MolecularGraph) (a b : Nat) :
    MolecularGraph :=
  let ds := mol.delocalSubgraph
  let ds := match assocGet a ds with
    | none => assocSet a [b] ds
    | some l => assocSet a (l ++ [b]) ds
  let ds := match assocGet b ds with
    | none => assocSet b [a] ds
    | some l => assocSet b (l ++ [a]) ds
  { mol with delocalSubgraph := ds }

/-- The `addBond` mutation: requires `src < dst`, appends a non-ring
directed bond, charges the order to both endpoints' bond counts, and
tracks aromatic (order 1.5) edges in the delocalisation subgraph. -/
def MolecularGraph.addBond (mol : MolecularGraph) (src dst : Nat)
    (order : HQ) (stereo : Option Char) : Except DecErr MolecularGraph :=
  if src ≥ dst then .error (.graphOp ("src must be less than dst".toList))
  else
    let bond : DirectedBond :=
      { src := src, dst := dst, order := order, stereo := stereo,
        ringBond := false }
    let mol := mol.addBondAtLoc bond none
    let mol := { mol with
      bondCounts :=
        listModify (listModify mol.bondCounts src (· + order)) dst
          (· + order) }
    .ok (if order = HQ.aromatic then mol.addDelocalEdge src dst else mol)

/-- The `addRingBond` mutation: inserts both orientations at the given
adjacency positions, charges both endpoints once each, and sets the
ring-bond flags. -/
def MolecularGraph.addRingBond (mol : MolecularGraph) (a b : Nat)
    (order : HQ) (aStereo bStereo : Option Char)
    (aPos bPos : Option Nat) : MolecularGraph :=
  let aBond : DirectedBond :=
    { src := a, dst := b, order := order, stereo := aStereo,
      ringBond := true }
  let bBond : DirectedBond :=
    { src := b, dst := a, order := order, stereo := bStereo,
      ringBond := true }
  let mol := mol.addBondAtLoc aBond aPos
  let mol := mol.addBondAtLoc bBond bPos
  let mol := { mol with
    bondCounts :=
      listModify (listModify mol.bondCounts a (· + order)) b (· + order)
    ringBondFlags :=
      listSet (listSet mol.ringBondFlags a true) b true }
  if order = HQ.aromatic then mol.addDelocalEdge a b else mol

/-- Overwrite the order of every stored view of the `(a, b)` bond: the
dictionary entry and the adjacency-list entry alias the same object in
the source, so both are rewritten. -/
def MolecularGraph.setBondOrderRaw (mol : MolecularGraph) (a b : Nat)
    (newOrder : HQ) : MolecularGraph :=
  { mol with
      bondDict := mol.bondDict.map (fun e =>
        if e.1 = (a, b) then (e.1, { e.2 with order := newOrder }) else e)
      adjList := mol.adjList.enum.map (fun ae =>
        if ae.1 = a then
          ae.2.map (fun bond =>
            if bond.src = a ∧ bond.dst = b then
              { bond with order := newOrder }
            else bond)
        else ae.2) }

/-- The `updateBondOrder` mutation: validates `1 ≤ newOrder ≤ 3`,
normalises the key to `(min, max)`, is a no-op when the order is
unchanged, updates both orientations of a ring bond, and adjusts both
endpoints' bond counts by the delta. -/
def MolecularGraph.updateBondOrder (mol : MolecularGraph) (a b : Nat)
    (newOrder : HQ) : Except DecErr MolecularGraph :=
  if ¬(1 ≤ newOrder ∧ newOrder ≤ 3) then
    .error (.graphOp ("invalid bond order".toList))
  else
    let p := if a > b then (b, a) else (a, b)
    match assocGet p mol.bondDict with
    | none => .error (.graphOp ("bond not found".toList))
    | some aToB =>
      if newOrder = aToB.order then .ok mol
      else
        if aToB.ringBond then
          match assocGet (p.2, p.1) mol.bondDict with
          | none => .error (.graphOp ("reverse bond not found".toList))
          | some _ =>
            let oldOrder := aToB.order
            let mol := mol.setBondOrderRaw p.1 p.2 newOrder
            let mol := mol.setBondOrderRaw p.2 p.1 newOrder
            .ok { mol with
              bondCounts :=
                listModify
                  (listModify mol.bondCounts p.1 (· + (newOrder - oldOrder)))
                  p.2 (· + (newOrder - oldOrder)) }
        else
          let oldOrder := aToB.order
          let mol := mol.setBondOrderRaw p.1 p.2 newOrder
          .ok { mol with
            bondCounts :=
              listModify
                (listModify mol.bondCounts p.1 (· + (newOrder - oldOrder)))
                p.2 (· + (newOrder - oldOrder)) }

/-- The `isKekulized` query: the delocalisation subgraph is empty. -/
def MolecularGraph.isKekulized (mol : MolecularGraph) : Bool :=
  mol.delocalSubgraph.isEmpty

/-! ## Grammar rules (src/grammar-rules.ts) -/

/-- The `smilesToBond` table: bond character to (order, stereo). -/
def smilesToBond (bondChar : Chars) : Nat × Option Char :=
  if bondChar = [] then (1, none)
  else if bondChar = ['='] then (2, none)
  else if bondChar = ['#'] then (3, none)
  else if bondChar = ['/'] then (1, some '/')
  else if bondChar = ['\\'] then (1, some '\\')
  else if bondChar = ['-'] then (1, none)
  else (1, none)

/-- Digits to a natural number (JavaScript `parseInt` on a digit run). -/
def digitsToNat (ds : Chars) : Nat :=
  ds.foldl (fun acc c => acc * 10 + (c.toNat - 48)) 0

/-- Greedy match of `SELFIES_ATOM_PATTERN`
(`^\[([=#/\\]?)(\d*)([A-Z][a-z]?)([@]{0,2})((?:[H]\d)?)((?:[+-]\d+)?)\]$`),
returning the six capture groups.  The pattern's groups consume disjoint
character classes in sequence, so greedy left-to-right matching without
backtracking is exact. -/
def matchAtomPattern (symbol : Chars) :
    Option (Chars × Chars × Chars × Chars × Chars × Chars) :=
  match symbol with
  | '[' :: rest =>
    let (bondChar, rest) :=
      match rest with
      | c :: rest' =>
        if c = '=' ∨ c = '#' ∨ c = '/' ∨ c = '\\' then ([c], rest')
        else ([], rest)
      | [] => ([], rest)
    let isotope := rest.takeWhile (·.isDigit)
    let rest := rest.drop isotope.length
    match rest with
    | c :: rest =>
      if ('A' ≤ c ∧ c ≤ 'Z') then
        let (element, rest) :=
          match rest with
          | c2 :: rest' =>
            if ('a' ≤ c2 ∧ c2 ≤ 'z') then ([c, c2], rest') else ([c], rest)
          | [] => ([c], rest)
        let chirality := (rest.takeWhile (· = '@')).take 2
        let rest := rest.drop chirality.length
        if (rest.takeWhile (· = '@')) ≠ [] then none
        else
          let (hGroup, rest) :=
            match rest with
            | 'H' :: d :: rest' =>
              if d.isDigit then (['H', d], rest') else (['H'] ++ [d], rest')
            | _ => ([], rest)
          if hGroup.length = 2 ∧ ¬(hGroup.getD 1 ' ').isDigit then none
          else
            let (chargeGroup, rest) :=
              match rest with
              | c :: rest' =>
                if c = '+' ∨ c = '-' then
                  let ds := rest'.takeWhile (fun ch : Char => ch.isDigit)
                  (c :: ds, rest'.drop ds.length)
                else ([], c :: rest')
              | [] => ([], rest)
            if chargeGroup.length = 1 then none
            else if rest = [']'] then
              some (bondChar, isotope, element, chirality, hGroup,
                chargeGroup)
            else none
      else none
    | [] => none
  | _ => none

/-- The uncached part of atom-symbol processing
(`processAtomSelfiesNoCache`): match the pattern, recognise the organic
subset (bare element between the bond prefix and the closing bracket),
otherwise validate the element and build the fully specified atom. -/
def processAtomSelfiesNoCache (symbol : Chars) :
    Option ((Nat × Option Char) × Atom) :=
  match matchAtomPattern symbol with
  | none => none
  | some (bondChar, isotope, element, chirality, hGroup, chargeGroup) =>
    let innerSymbol := (symbol.drop (1 + bondChar.length)).dropLast
    if ORGANIC_SUBSET.contains innerSymbol then
      some (smilesToBond bondChar, { element := element, isAromatic := false })
    else if ¬ ELEMENTS.contains element then none
    else
      let isotopeNum : Option Nat :=
        if isotope = [] then none else some (digitsToNat isotope)
      let chiralityStr : Option Chars :=
        if chirality = [] then none else some chirality
      let hCountNum : Nat :=
        if hGroup = [] then 0 else digitsToNat (hGroup.drop 1)
      let chargeNum : Int :=
        if chargeGroup = [] then 0
        else
          let v : Int := (digitsToNat (chargeGroup.drop 1) : Int)
          if chargeGroup.getD 0 ' ' = '+' then v else -v
      some (smilesToBond bondChar,
        { element := element, isAromatic := false, isotope := isotopeNum,
          chirality := chiralityStr, hCount := some hCountNum,
          charge := chargeNum })

/-- The `processAtomSymbol` entry point: parse (the cache of the source
is pure memoisation) and reject atoms of negative bonding capacity. -/
def processAtomSymbol (symbol : Chars) :
    Option ((Nat × Option Char) × Atom) :=
  match processAtomSelfiesNoCache symbol with
  | none => none
  | some (bondInfo, atom) =>
    if atom.bondingCapacity < 0 then none else some (bondInfo, atom)

/-- The branch-symbol cache built by `buildBranchCache`: for each level
`L ∈ {1,2,3}` and bond character in `{"", "=", "#"}`, the symbol
`[<bond>BranchL]` maps to (bond order, L). -/
def branchCacheEntries : List (Chars × (Nat × Nat)) :=
  (List.range' 1 3).flatMap (fun L =>
    let dL := Char.ofNat (48 + L)
    [('[' :: ("Branch".toList ++ [dL, ']']), ((smilesToBond []).1, L)),
     ('[' :: '=' :: ("Branch".toList ++ [dL, ']']), ((smilesToBond ['=']).1, L)),
     ('[' :: '#' :: ("Branch".toList ++ [dL, ']']), ((smilesToBond ['#']).1, L))])

/-- The `processBranchSymbol` lookup (`null` for unknown symbols). -/
def processBranchSymbol (symbol : Chars) : Option (Nat × Nat) :=
  assocGet symbol branchCacheEntries

/-- The ring-symbol cache built by `buildRingCache`: plain
`[<bond>RingL]` symbols and the stereo pairs `[<l><r>RingL]` over
`{-, /, \}` (excluding the all-dash pair). -/
def ringCacheBase (L : Nat) :
    List (Chars × (Nat × Nat × (Option Char × Option Char))) :=
  let dL := Char.ofNat (48 + L)
  [('[' :: ("Ring".toList ++ [dL, ']']),
    ((smilesToBond []).1, L, ((smilesToBond []).2, (smilesToBond []).2))),
   ('[' :: '=' :: ("Ring".toList ++ [dL, ']']),
    ((smilesToBond ['=']).1, L,
     ((smilesToBond ['=']).2, (smilesToBond ['=']).2))),
   ('[' :: '#' :: ("Ring".toList ++ [dL, ']']),
    ((smilesToBond ['#']).1, L,
     ((smilesToBond ['#']).2, (smilesToBond ['#']).2)))]

/-- The stereo ring entries of `buildRingCache` for a given level. -/
def ringCacheStereo (L : Nat) :
    List (Chars × (Nat × Nat × (Option Char × Option Char))) :=
  let dL := Char.ofNat (48 + L)
  ['-', '/', '\\'].flatMap (fun lChar =>
    ['-', '/', '\\'].filterMap (fun rChar =>
      if lChar = '-' ∧ rChar = '-' then none
      else some ('[' :: lChar :: rChar :: ("Ring".toList ++ [dL, ']']),
        (1, L, ((smilesToBond [lChar]).2, (smilesToBond [rChar]).2)))))

/-- The full ring-symbol cache of `buildRingCache`. -/
def ringCacheEntries :
    List (Chars × (Nat × Nat × (Option Char × Option Char))) :=
  (List.range' 1 3).flatMap (fun L => ringCacheBase L ++ ringCacheStereo L)

/-- The `processRingSymbol` lookup (`null` for unknown symbols). -/
def processRingSymbol (symbol : Chars) :
    Option (Nat × Nat × (Option Char × Option Char)) :=
  assocGet symbol ringCacheEntries

/-- The derivation state: remaining bonds on the current atom, `none`
modelling the saturated `null` state. -/
abbrev DState := Option Nat

/-- JavaScript `state || 0` (both `null` and `0` collapse to `0`). -/
def stOr0 : DState → Nat
  | none => 0
  | some k => k

/-- The `nextAtomState` rule: clamp the bond order against the state and
the capacity, and report the bonds left on the new atom (0 becomes
`null`). -/
def nextAtomState (bondOrder bondCap : Nat) (state : DState) :
    Nat × DState :=
  let bondOrder := if state = some 0 then 0 else bondOrder
  let bondOrder := min (min bondOrder (stOr0 state)) bondCap
  let bondsLeft := bondCap - bondOrder
  (bondOrder, if bondsLeft = 0 then none else some bondsLeft)

/-- The `nextBranchState` rule (the source throws unless
`1 ≤ branchType ≤ 3` and `state ≥ 2`; the decoder establishes both
before calling, so the embedding is total on the guarded domain). -/
def nextBranchState (branchType state : Nat) : Nat × DState :=
  let branchInitState := min (state - 1) branchType
  let nextState := state - branchInitState
  (branchInitState, if nextState = 0 then none else some nextState)

/-- The `nextRingState` rule (guarded by `state ≥ 1` at the call site). -/
def nextRingState (ringType state : Nat) : Nat × DState :=
  let bondOrder := min ringType state
  let bondsLeft := state - bondOrder
  (bondOrder, if bondsLeft = 0 then none else some bondsLeft)

/-- The `INDEX_CODE[symbol] || 0` lookup: unknown symbols read as 0. -/
def indexCodeLookup (symbol : Chars) : Nat :=
  (assocGet symbol INDEX_CODE).getD 0

/-- The `getIndexFromSelfies` codec: positional base-|INDEX_CODE|
arithmetic over the reversed symbol list. -/
def getIndexFromSelfies (symbols : List Chars) : Nat :=
  (symbols.reverse.enum).foldl
    (fun acc p => acc + indexCodeLookup p.2 * INDEX_CODE.length ^ p.1) 0

/-- The digit loop of `getSelfiesFromIndex` (little-endian digits). -/
def idxDigits : Nat → List Chars
  | 0 => []
  | m + 1 =>
    INDEX_ALPHABET.getD ((m + 1) % INDEX_ALPHABET.length) [] ::
      idxDigits ((m + 1) / INDEX_ALPHABET.length)
decreasing_by
  exact Nat.div_lt_self (Nat.succ_pos m) (by decide)

/-- The `getSelfiesFromIndex` codec: most-significant digit first; the
index 0 encodes as the single symbol `INDEX_ALPHABET[0]`. -/
def getSelfiesFromIndex (index : Nat) : List Chars :=
  if index = 0 then [INDEX_ALPHABET.getD 0 []]
  else (idxDigits index).reverse

/-! ## Tokenisation (src/utils/selfies-utils.ts and decoder.ts) -/

/-- JavaScript `selfies.split('.')`: split a character list on the dot
separator, keeping empty pieces. -/
def splitOnDot : List Char → List (List Char)
  | [] => [[]]
  | c :: rest =>
    if c = '.' then [] :: splitOnDot rest
    else
      match splitOnDot rest with
      | [] => [[c]]
      | f :: fs => (c :: f) :: fs

/-- The `splitSelfies` generator of src/utils/selfies-utils.ts: scan to
the next `[`, take everything up to the matching `]` as one symbol
(throwing on a hanging bracket), yield a lone `.` that immediately
follows a symbol, and repeat.  `fuel` bounds the recursion; any value
above the input length is sufficient. -/
def splitSelfies : Nat → List Char → Except DecErr (List Chars)
  | 0, _ => .error .fuel
  | fuel + 1, s =>
    let s1 := s.dropWhile (· ≠ '[')
    if s1 = [] then .ok []
    else
      let rest := s1.tail
      let body := rest.takeWhile (· ≠ ']')
      let s2 := rest.dropWhile (· ≠ ']')
      if s2 = [] then .error .hangingBracket
      else
        let rest2 := s2.tail
        let tok := '[' :: (body ++ [']'])
        if rest2.head? = some '.' then
          (splitSelfies fuel rest2.tail).map (fun ts => tok :: ['.'] :: ts)
        else
          (splitSelfies fuel rest2).map (fun ts => tok :: ts)

/-- The `[nop]` symbol. -/
def nopSym : Chars := "[nop]".toList

/-- The `tokenizeSelfies` generator of src/decoder.ts (with the
backward-compatibility option off, its default): split into symbols and
filter out `[nop]`. -/
def tokenizeSelfies (fragment : List Char) : Except DecErr (List Chars) :=
  match splitSelfies (fragment.length + 1) fragment with
  | .error e => .error e
  | .ok ts => .ok (ts.filter (· ≠ nopSym))

/-! ## The derivation engine (src/decoder.ts) -/

/-- The decoder's `prevAtom` variable: the most recent atom together
with its graph index (`none` when the atom was never inserted). -/
structure PrevAtom where
  atom : Atom
  idx : Option Nat
deriving DecidableEq, Repr

/-- A deferred ring entry: left and right endpoint indices and the
`(order, stereo)` bond info.  The source stores the two atom objects;
since decoder atoms are immutable once pushed, storing their indices is
equivalent (the stored atom is `mol.atoms[idx]`). -/
structure RingEntry where
  left : Nat
  right : Nat
  order : Nat
  stereo : Option Char
deriving DecidableEq, Repr

/-- The result of `deriveMolFromSymbols`: the updated graph and ring
queue, the unconsumed remainder of the shared symbol stream, and the
number of symbols derived (the source's return value). -/
structure DeriveRes where
  mol : MolecularGraph
  rings : List RingEntry
  rest : List Chars
  nDerived : Nat
deriving DecidableEq, Repr

/-- Has the symbol budget been reached (`nDerived < maxDerive` with
`maxDerive = Infinity` modelled as `none`)? -/
def budgetReached (maxDerive : Option Nat) (nDerived : Nat) : Bool :=
  match maxDerive with
  | none => false
  | some m => nDerived ≥ m

/-- Substring containment, modelling `String.prototype.includes`. -/
def containsSub (s pat : Chars) : Bool :=
  (List.range (s.length + 1)).any (fun i => (s.drop i).take pat.length = pat)

/-- One atom-symbol step of the derivation (the body of Case 4 in
`deriveMolFromSymbols`): clamp the order, insert the atom (as a root
when the state is an exhausted 0, silently dropped when the clamped
order is 0 with a non-zero state), add the bond from the previous atom
when both ends are indexed, and move `prevAtom`/`state` forward. -/
def deriveAtomStep (mol : MolecularGraph) (state : DState)
    (prevAtom : Option PrevAtom) (bondInfo : Nat × Option Char)
    (atom : Atom) :
    Except DecErr (MolecularGraph × DState × Option PrevAtom) :=
  let bondOrder := bondInfo.1
  let stereo := bondInfo.2
  let cap := atom.bondingCapacity.toNat
  let res := nextAtomState bondOrder cap state
  let finalBondOrder := res.1
  let nextState := res.2
  if finalBondOrder = 0 then
    if state = some 0 then
      let added := mol.addAtom atom true
      .ok (added.1, nextState, some ⟨atom, some added.2⟩)
    else
      .ok (mol, nextState, some ⟨atom, none⟩)
  else
    let added := mol.addAtom atom
    let mol := added.1
    let addedIdx := added.2
    match prevAtom with
    | some p =>
      match p.idx with
      | some srcIdx =>
        match mol.addBond (min srcIdx addedIdx) (max srcIdx addedIdx)
            (HQ.ofNat finalBondOrder) stereo with
        | .error e => .error e
        | .ok mol => .ok (mol, nextState, some ⟨atom, some addedIdx⟩)
      | none => .ok (mol, nextState, some ⟨atom, some addedIdx⟩)
    | none => .ok (mol, nextState, some ⟨atom, some addedIdx⟩)

/-- The `deriveMolFromSymbols` loop of src/decoder.ts.  The shared
forward-only symbol stream is the explicit list `syms`; a branch
recursion consumes from the same list and returns the remainder.  `fuel`
bounds the recursion depth; since every recursive call operates on a
strictly shorter stream, any fuel above the stream length is enough. -/
def deriveMol : Nat → List Chars → Option Nat → Nat → DState →
    Option PrevAtom → MolecularGraph → List RingEntry →
    Except DecErr DeriveRes
  | 0, _, _, _, _, _, _, _ => .error .fuel
  | fuel + 1, syms, maxDerive, nDerived, state, prevAtom, mol, rings =>
    if budgetReached maxDerive nDerived then
      .ok ⟨mol, rings, syms, nDerived⟩
    else
    match syms with
    | [] => .ok ⟨mol, rings, [], nDerived⟩
    | symbol :: rest =>
      let nDerived := nDerived + 1
      if containsSub symbol ("Branch".toList) then
        match processBranchSymbol symbol with
        | none => .error (.invalidSymbol symbol)
        | some (btype, n) =>
          match state with
          | none => deriveMol fuel rest maxDerive nDerived state prevAtom mol rings
          | some st =>
            if st ≤ 1 then
              deriveMol fuel rest maxDerive nDerived state prevAtom mol rings
            else
              let bres := nextBranchState btype st
              let binitState := bres.1
              let nextState := bres.2
              let Q := getIndexFromSelfies (rest.take n)
              let rest := rest.drop n
              match deriveMol fuel rest (some (Q + 1)) 0 (some binitState)
                  prevAtom mol rings with
              | .error e => .error e
              | .ok inner =>
                deriveMol fuel inner.rest maxDerive
                  (nDerived + n + inner.nDerived) nextState prevAtom
                  inner.mol inner.rings
      else if containsSub symbol ("Ring".toList) then
        match processRingSymbol symbol with
        | none => .error (.invalidSymbol symbol)
        | some (ringType, n, stereo) =>
          match state with
          | none => deriveMol fuel rest maxDerive nDerived state prevAtom mol rings
          | some st =>
            if st = 0 then
              deriveMol fuel rest maxDerive nDerived state prevAtom mol rings
            else
              let rres := nextRingState ringType st
              let ringOrder := rres.1
              let nextState := rres.2
              let Q := getIndexFromSelfies (rest.take n)
              let rest' := rest.drop n
              let nDerived := nDerived + n
              let rings :=
                match prevAtom with
                | some p =>
                  match p.idx with
                  | some pidx =>
                    let lidx := pidx - (Q + 1)
                    rings ++ [⟨lidx, pidx, ringOrder, stereo.1⟩]
                  | none => rings
                | none => rings
              deriveMol fuel rest' maxDerive nDerived nextState prevAtom mol
                rings
      else if containsSub symbol ("eps".toList) then
        let state' : DState := if state = some 0 then some 0 else none
        deriveMol fuel rest maxDerive nDerived state' prevAtom mol rings
      else
        match processAtomSymbol symbol with
        | none => .error (.invalidSymbol symbol)
        | some (bondInfo, atom) =>
          match deriveAtomStep mol state prevAtom bondInfo atom with
          | .error e => .error e
          | .ok (mol, nextState, prevAtom) =>
            deriveMol fuel rest maxDerive nDerived nextState prevAtom mol
              rings

/-! ## Deferred ring formation (src/decoder.ts, `formRingsBilocally`) -/

/-- The `ringPairCounts` map of `formRingsBilocally`: occurrences of
each normalised `(min, max)` endpoint pair in the ring queue. -/
def ringPairCounts (rings : List RingEntry) : List ((Nat × Nat) × Nat) :=
  rings.foldl (fun m e =>
    let key := (min e.left e.right, max e.left e.right)
    assocSet key ((assocGet key m).getD 0 + 1) m) []

/-- The `hasInvalidRings` test: some endpoint pair occurs an odd number
of times. -/
def hasInvalidRings (rings : List RingEntry) : Bool :=
  (ringPairCounts rings).any (fun kv => kv.2 % 2 ≠ 0)

/-- One iteration of the ring-formation loop, carried over the state
`(mol, ringsMade)`: skip self-loops and exhausted endpoints, clamp the
order to both free capacities, then either raise an existing bond's
order (capped at 3) or add a fresh ring bond at the tracked adjacency
positions. -/
def formRingStep (st : MolecularGraph × List Nat) (e : RingEntry) :
    Except DecErr (MolecularGraph × List Nat) :=
  let mol := st.1
  let ringsMade := st.2
  let lidx := e.left
  let ridx := e.right
  if lidx = ridx then .ok st
  else
    let leftFree := (mol.getAtom lidx).capQ - mol.getBondCount lidx
    let rightFree := (mol.getAtom ridx).capQ - mol.getBondCount ridx
    if leftFree ≤ 0 ∨ rightFree ≤ 0 then .ok st
    else
      let finalOrder := min (min (HQ.ofNat e.order) leftFree) rightFree
      if mol.hasBond lidx ridx then
        match mol.getDirBond lidx ridx with
        | .error err => .error err
        | .ok existingBond =>
          let newOrder := min (finalOrder + existingBond.order) 3
          match mol.updateBondOrder lidx ridx newOrder with
          | .error err => .error err
          | .ok mol => .ok (mol, ringsMade)
      else
        let mol := mol.addRingBond lidx ridx finalOrder e.stereo e.stereo
          (some (ringsMade.getD lidx 0)) (some (ringsMade.getD ridx 0))
        .ok (mol, listModify (listModify ringsMade lidx (· + 1)) ridx (· + 1))

/-- The ring-formation loop without the odd-count gate: each recorded
triple is processed independently, exactly as the specification's
"lenient (per-pair)" description of deferred ring resolution. -/
def formRingsLenient (mol : MolecularGraph) (rings : List RingEntry) :
    Except DecErr MolecularGraph :=
  let ringsMade := List.replicate mol.length 0
  match rings.foldlM formRingStep (mol, ringsMade) with
  | .error e => .error e
  | .ok st => .ok st.1

/-- The `formRingsBilocally` procedure of src/decoder.ts: if any
endpoint pair occurs an odd number of times in the queue, skip ALL ring
formation (the "PYTHON-EXACT LOGIC" branch); otherwise run the per-pair
loop. -/
def formRingsBilocally (mol : MolecularGraph) (rings : List RingEntry) :
    Except DecErr MolecularGraph :=
  if hasInvalidRings rings then .ok mol
  else formRingsLenient mol rings

/-! ## The decoder pipeline (src/decoder.ts, `decoder`) -/

/-- Decode one (non-empty) dot-separated fragment into the shared graph
and ring queue: tokenize (filtering `[nop]`) and run the derivation
engine with an unbounded budget, initial state 0 and no previous atom. -/
def decodeFragment (acc : MolecularGraph × List RingEntry)
    (fragment : List Char) :
    Except DecErr (MolecularGraph × List RingEntry) :=
  match tokenizeSelfies fragment with
  | .error e => .error e
  | .ok toks =>
    match deriveMol (toks.length + 1) toks none 0 (some 0) none acc.1
        acc.2 with
    | .error e => .error e
    | .ok r => .ok (r.mol, r.rings)

/-- Process the fragment list of `decoder`, skipping empty fragments
(`if (fragment)`). -/
def decodeFragments (acc : MolecularGraph × List RingEntry) :
    List (List Char) → Except DecErr (MolecularGraph × List RingEntry)
  | [] => .ok acc
  | f :: fs =>
    if f = [] then decodeFragments acc fs
    else
      match decodeFragment acc f with
      | .error e => .error e
      | .ok acc' => decodeFragments acc' fs

/-- The decoder up to (and including) deferred ring formation: the
molecular graph produced for a non-empty input string. -/
def decoderCore (s : List Char) : Except DecErr MolecularGraph :=
  match decodeFragments ({}, []) (splitOnDot s) with
  | .error e => .error e
  | .ok acc => formRingsBilocally acc.1 acc.2

/-! ## Graph to SMILES (src/utils/smiles-utils.ts) -/

/-- The `RingContext` class: allocates ring-closure numbers, remembering
each unordered atom pair under both key orders. -/
structure RingCtx where
  nextRingNumber : Nat := 1
  table : List ((Nat × Nat) × Nat) := []
deriving Repr

/-- The `getRingNumber` method. -/
def RingCtx.getRingNumber (ctx : RingCtx) (a b : Nat) : Nat × RingCtx :=
  match assocGet (a, b) ctx.table with
  | some n => (n, ctx)
  | none =>
    match assocGet (b, a) ctx.table with
    | some n => (n, ctx)
    | none =>
      (ctx.nextRingNumber,
       { nextRingNumber := ctx.nextRingNumber + 1,
         table := assocSet (b, a) ctx.nextRingNumber
           (assocSet (a, b) ctx.nextRingNumber ctx.table) })

/-- The `formatAtomForSmiles` helper: organic-subset shorthand when the
atom carries no decorations, bracketed notation otherwise. -/
def formatAtomForSmiles (atom : Atom) : Chars :=
  if ORGANIC_SUBSET.contains atom.element ∧ atom.charge = 0 ∧
      atom.chirality = none ∧ atom.isotope = none ∧
      (atom.hCount = none ∨ atom.hCount = some 0) then
    atom.element
  else
    let iso := match atom.isotope with
      | none => ([] : Chars)
      | some i => natToChars i
    let chir := (atom.chirality).getD []
    let hPart : Chars := match atom.hCount with
      | none => []
      | some 0 => []
      | some 1 => ['H']
      | some h => 'H' :: natToChars h
    let chargePart : Chars :=
      if atom.charge = 0 then []
      else if atom.charge > 0 then '+' :: natToChars atom.charge.natAbs
      else intToChars atom.charge
    '[' :: (iso ++ atom.element ++ chir ++ hPart ++ chargePart ++ [']'])

/-- The `moleculeBondToSmiles` helper: the bond-character prefix of a
bond (single bonds show only their stereo marker; aromatic 1.5 bonds
print nothing). -/
def moleculeBondToSmiles (bond : DirectedBond) : Chars :=
  if bond.order = 1 then
    match bond.stereo with
    | some '/' => ['/']
    | some '\\' => ['\\']
    | _ => []
  else if bond.order = 2 then ['=']
  else if bond.order = 3 then ['#']
  else []

/-- The recursive `moleculeAtomToSmiles` walk: emit the atom, ring
closure digits for its outgoing ring bonds, then each regular bond to an
unvisited atom in adjacency order, parenthesising all but the last
("last bond wins").  The visited set and ring context thread through the
recursion as in the source's shared mutable state; `fuel` bounds the
depth (any value above the atom count suffices, as each recursive call
strictly grows the visited set). -/
def molAtomToSmiles : Nat → MolecularGraph → Nat → List Nat → RingCtx →
    Chars × List Nat × RingCtx
  | 0, _, _, visited, ctx => ([], visited, ctx)
  | fuel + 1, mol, atomIdx, visited, ctx =>
    if visited.contains atomIdx then ([], visited, ctx)
    else
      let visited := visited ++ [atomIdx]
      let atomStr := formatAtomForSmiles (mol.getAtom atomIdx)
      let outBonds := mol.getOutDirBonds atomIdx
      let ringBonds := outBonds.filter
        (fun b => b.dst ≠ atomIdx ∧ b.ringBond)
      let regularBonds := outBonds.filter
        (fun b => b.dst ≠ atomIdx ∧ ¬b.ringBond ∧ ¬visited.contains b.dst)
      let ringPart := ringBonds.foldl
        (fun (acc : Chars × RingCtx) bond =>
          let r := acc.2.getRingNumber atomIdx bond.dst
          (acc.1 ++ natToChars r.1, r.2))
        ([], ctx)
      let n := regularBonds.length
      let reg := regularBonds.enum.foldl
        (fun (acc : Chars × List Nat × RingCtx) p =>
          let bond := p.2
          let child := molAtomToSmiles fuel mol bond.dst acc.2.1 acc.2.2
          let frag := moleculeBondToSmiles bond ++ child.1
          let frag := if p.1 < n - 1 then '(' :: (frag ++ [')']) else frag
          (acc.1 ++ frag, child.2.1, child.2.2))
        ([], visited, ringPart.2)
      (atomStr ++ ringPart.1 ++ reg.1, reg.2.1, reg.2.2)

/-- The `molToSmiles` conversion: render each fragment root depth-first
(with a fresh visited set and ring context per root, as in the source)
and join the fragments with dots; the empty graph renders as the empty
string. -/
def molToSmiles (mol : MolecularGraph) : Chars :=
  if mol.length = 0 then []
  else
    let frags := mol.roots.map (fun rootIdx =>
      (molAtomToSmiles (mol.length + 1) mol rootIdx [] {}).1)
    (frags.intersperse ['.']).flatten

/-- The full `decoder` of src/decoder.ts (options at their defaults):
empty input returns the string `"C"`; otherwise decode the fragments,
form the deferred rings, and serialise the graph to SMILES. -/
def decodeStr (s : List Char) : Except DecErr Chars :=
  if s = [] then .ok ("C".toList)
  else
    match decoderCore s with
    | .error e => .error e
    | .ok mol => .ok (molToSmiles mol)

/-! ## Kekulization, named source variant (src/mol-graph.ts) -/

/-- The inner neighbor loop of `kekulize` in src/mol-graph.ts, threading
the graph, the visited set and the alternating bond order (the source
mutates `bond.order` directly, so only the stored orientation is
rewritten and bond counts are untouched).  Each unvisited neighbor is
marked visited whether or not a bond was rewritten. -/
def kekulizeSimpleNeighbor (atom : Nat)
    (acc : MolecularGraph × List Nat × Nat) (neighbor : Nat) :
    MolecularGraph × List Nat × Nat :=
  let mol := acc.1
  let visited := acc.2.1
  let bondOrder := acc.2.2
  if visited.contains neighbor then acc
  else
    let a := min atom neighbor
    let b := max atom neighbor
    let updated :=
      match assocGet (a, b) mol.bondDict with
      | some bond =>
        if bond.order = HQ.aromatic then
          (mol.setBondOrderRaw a b (HQ.ofNat bondOrder),
           if bondOrder = 1 then 2 else 1)
        else (mol, bondOrder)
      | none => (mol, bondOrder)
    (updated.1, visited ++ [neighbor], updated.2)

/-- The `kekulize` method of the named src/mol-graph.ts: walk the
delocalisation subgraph assigning alternating orders 1/2 to still-1.5
bonds between unvisited atoms, clear the subgraph, and unconditionally
report success.  Aromatic flags and bond counts are not touched. -/
def MolecularGraph.kekulize (mol : MolecularGraph) :
    Bool × MolecularGraph :=
  if mol.isKekulized then (true, mol)
  else
    let final := mol.delocalSubgraph.foldl
      (fun (st : MolecularGraph × List Nat) entry =>
        if st.2.contains entry.1 then st
        else
          let inner := entry.2.foldl (kekulizeSimpleNeighbor entry.1)
            (st.1, st.2, 1)
          (inner.1, inner.2.1 ++ [entry.1]))
      (mol, [])
    (true, { final.1 with delocalSubgraph := [] })

/-! ## Perfect matching (the repository's matching-utils implementation) -/

/-- A matching array: `matching[i] = some j` when nodes `i` and `j` are
recorded as matched. -/
abbrev Matching := List (Option Nat)

/-- Stable insertion sort by node degree, modelling the stable
`Array.prototype.sort((a, b) => a.degree - b.degree)` over the
`{degree, node}` queue. -/
def insertByDegree (x : Int × Nat) : List (Int × Nat) → List (Int × Nat)
  | [] => [x]
  | y :: rest =>
    if y.1 ≤ x.1 then y :: insertByDegree x rest else x :: y :: rest

/-- Stable sort of the greedy queue. -/
def sortByDegree (l : List (Int × Nat)) : List (Int × Nat) :=
  l.foldl (fun acc x => insertByDegree x acc) []

/-- The best-neighbor scan of `greedyMatching`: the first unmatched
neighbor of strictly smallest free degree (`bestDegree` starts at
Infinity, modelled as `none`). -/
def bestNeighborScan (matching : Matching) (freeDegrees : List Int)
    (neighbors : List Nat) : Option Nat :=
  (neighbors.foldl
    (fun (acc : Option Nat × Option Int) nb =>
      let better := match acc.2 with
        | none => true
        | some d => freeDegrees.getD nb 0 < d
      if (matching.getD nb none) = none ∧ better = true then
        (some nb, some (freeDegrees.getD nb 0))
      else acc)
    (none, none)).1

/-- One node step of `greedyMatching`: skip matched or exhausted nodes,
otherwise match with the best neighbor and decrement the free degrees of
both endpoints' neighborhoods. -/
def greedyStep (graph : List (List Nat))
    (st : Matching × List Int) (node : Nat) : Matching × List Int :=
  let matching := st.1
  let freeDegrees := st.2
  if (matching.getD node none) ≠ none ∨ freeDegrees.getD node 0 = 0 then st
  else
    match bestNeighborScan matching freeDegrees (graph.getD node []) with
    | none => st
    | some bn =>
      let matching := listSet (listSet matching node (some bn)) bn (some node)
      let freeDegrees := (graph.getD node []).foldl
        (fun fd nb => listModify fd nb (· - 1)) freeDegrees
      let freeDegrees := (graph.getD bn []).foldl
        (fun fd nb => listModify fd nb (· - 1)) freeDegrees
      (matching, freeDegrees)

/-- The `greedyMatching` phase: visit nodes in ascending free-degree
order (stable on ties) and pair greedily. -/
def greedyMatching (graph : List (List Nat)) : Matching :=
  let matching : Matching := List.replicate graph.length none
  let freeDegrees : List Int := graph.map (fun nbs => (nbs.length : Int))
  let queue := sortByDegree (graph.enum.map (fun p =>
    ((freeDegrees.getD p.1 0), p.1)))
  (queue.foldl (fun st dn => greedyStep graph st dn.2)
    (matching, freeDegrees)).1

/-- Reconstruct the augmenting path by following parent pointers from
`current` back to the root (`fuel` bounds the walk; parents form a
forest, so the graph size suffices). -/
def rebuildPath : Nat → List (Option Nat) → Nat → List Nat → List Nat
  | 0, _, _, acc => acc
  | fuel + 1, parent, current, acc =>
    match parent.getD current none with
    | none => acc
    | some p => rebuildPath fuel parent p (p :: acc)

/-- The BFS loop of `findAugmentingPath`, processing the explicit queue;
`fuel` bounds the iterations (each enqueue marks a newly visited node,
so twice the node count suffices). -/
def augmentBFS : Nat → List (List Nat) → Matching → List (Option Nat) →
    List Nat → List Nat → Option (List Nat)
  | 0, _, _, _, _, _ => none
  | fuel + 1, graph, matching, parent, visited, queue =>
    match queue with
    | [] => none
    | node :: queue =>
      let scan := (graph.getD node []).foldl
        (fun (acc : (List (Option Nat) × List Nat × List Nat) ⊕
            List Nat) neighbor =>
          match acc with
          | .inr path => .inr path
          | .inl st =>
            let parent := st.1
            let visited := st.2.1
            let queue := st.2.2
            if visited.contains neighbor then .inl st
            else
              let visited := visited ++ [neighbor]
              let parent := listSet parent neighbor (some node)
              match matching.getD neighbor none with
              | none =>
                .inr (rebuildPath (parent.length + 1) parent neighbor
                  [neighbor])
              | some m =>
                if ¬ visited.contains m then
                  .inl (listSet parent m (some neighbor),
                    visited ++ [m], queue ++ [m])
                else .inl (parent, visited, queue))
        (.inl (parent, visited, queue))
      match scan with
      | .inr path => some path
      | .inl st => augmentBFS fuel graph matching st.1 st.2.1 st.2.2

/-- The `findAugmentingPath` BFS from an unmatched root: an alternating
walk to another unmatched node, or `none`. -/
def findAugmentingPath (graph : List (List Nat)) (root : Nat)
    (matching : Matching) : Option (List Nat) :=
  augmentBFS (2 * graph.length + 2) graph matching
    (List.replicate graph.length none) [root] [root]

/-- The `flipAugmentingPath` update: write `matching[u] = v` and
`matching[v] = u` for every consecutive pair along the path, in order
(later writes overwrite earlier ones, as in the source). -/
def flipAugmentingPath (matching : Matching) (path : List Nat) :
    Matching :=
  (path.zip path.tail).foldl
    (fun m uv => listSet (listSet m uv.1 (some uv.2)) uv.2 (some uv.1))
    matching

/-- The augmenting loop of `findPerfectMatching`: pull the first
unmatched root, search for an augmenting path, flip it and drop its
endpoints; fail if no path exists. -/
def fpmLoop : Nat → List (List Nat) → Matching → List Nat →
    Option Matching
  | 0, _, _, _ => none
  | _ + 1, _, matching, [] => some matching
  | fuel + 1, graph, matching, root :: unmatched =>
    match findAugmentingPath graph root matching with
    | none => none
    | some path =>
      let matching := flipAugmentingPath matching path
      let unmatched := unmatched.erase (path.headD root)
      let unmatched := unmatched.erase (path.getLastD root)
      fpmLoop fuel graph matching unmatched

/-- The `findPerfectMatching` routine of the repository's matching
utilities: greedy maximal matching followed by augmenting-path repair;
`none` when some root cannot be augmented. -/
def findPerfectMatching (graph : List (List Nat)) : Option Matching :=
  let matching := greedyMatching graph
  let unmatched := (matching.enum.filter (fun p => p.2 = none)).map
    (fun p => p.1)
  fpmLoop (unmatched.length + 1) graph matching unmatched

/-! ## Kekulization, matching-based variant

The repository also contains a mol-graph implementation whose
`kekulize` prunes the delocalisation subgraph, runs `findPerfectMatching`
on the induced subgraph, and reports failure when no perfect matching
exists (the behaviour §4.2/§4.4 of the specification describe). -/

/-- Modelled from the spec: the fixed per-element table of allowed
aromatic valences used by the pruning test (§4.4.1); the constants
module is not in the provided tree. -/
def AROMATIC_VALENCES : List (Chars × List Int) :=
  [("B".toList, [3]), ("C".toList, [4]), ("N".toList, [3, 5]),
   ("O".toList, [2]), ("P".toList, [3, 5]), ("S".toList, [2, 4, 6]),
   ("As".toList, [3, 5]), ("Se".toList, [2, 4, 6]),
   ("Te".toList, [2, 4, 6])]

/-- Modelled from the spec: the fixed per-element total valence-electron
table used by the pruning test (§4.4.1). -/
def VALENCE_ELECTRONS : List (Chars × Int) :=
  [("H".toList, 1), ("B".toList, 3), ("C".toList, 4), ("N".toList, 5),
   ("O".toList, 6), ("F".toList, 7), ("P".toList, 5), ("S".toList, 6),
   ("Cl".toList, 7), ("Br".toList, 7), ("I".toList, 7),
   ("Se".toList, 6), ("As".toList, 5), ("Te".toList, 6)]

/-- Insertion into an ascending list of node indices. -/
def insertSortedNat (x : Nat) : List Nat → List Nat
  | [] => [x]
  | y :: rest =>
    if y ≤ x then y :: insertSortedNat x rest else x :: y :: rest

/-- Ascending numeric sort (`[...nodes].sort((a, b) => a - b)`). -/
def sortNats (l : List Nat) : List Nat :=
  l.foldl (fun acc x => insertSortedNat x acc) []

/-- The `_pruneFromDs` test of the matching-based mol-graph: `true`
means the vertex is pruned from the aromatic subgraph.  A vertex is kept
when some allowed aromatic valence is achievable given its non-aromatic
bond orders, hydrogens, charge and aromatic neighbor count, or when one
of the common-atom special cases applies. -/
def pruneFromDs (mol : MolecularGraph) (node : Nat) : Bool :=
  let adjNodes := (assocGet node mol.delocalSubgraph).getD []
  if adjNodes = [] then true
  else if node ≥ mol.atoms.length then true
  else
    let atom := mol.getAtom node
    match assocGet atom.element AROMATIC_VALENCES with
    | none => true
    | some aromaticValences =>
      let valenceElectrons := (assocGet atom.element VALENCE_ELECTRONS).getD 0
      let hCount : Nat := (atom.hCount).getD 0
      let scanned := (mol.getOutDirBonds node).foldl
        (fun (acc : HQ × Nat) bond =>
          if bond.dst < mol.atoms.length then
            let dstAtom := mol.getAtom bond.dst
            if dstAtom.isAromatic ∧
                (assocGet bond.dst mol.delocalSubgraph).isSome then
              (acc.1, acc.2 + 1)
            else (acc.1 + bond.order, acc.2)
          else acc)
        (0, 0)
      let usedElectrons : HQ := scanned.1 + HQ.ofNat hCount
      let aromaticBonds := scanned.2
      let availableElectrons : HQ :=
        HQ.ofInt valenceElectrons - HQ.ofInt atom.charge - usedElectrons
      let canBeAromatic := aromaticValences.any (fun av =>
        let requiredElectrons := HQ.ofInt av - usedElectrons
        decide (HQ.ofNat aromaticBonds ≤ requiredElectrons ∧
          HQ.ofNat aromaticBonds ≤ availableElectrons ∧
          availableElectrons ≤ requiredElectrons))
      let canBeAromatic :=
        if ¬ canBeAromatic ∧ aromaticBonds > 0 then
          if atom.element = "C".toList ∧ aromaticBonds = 2 ∧
              availableElectrons ≥ 2 then true
          else if atom.element = "N".toList ∧ aromaticBonds ≤ 2 ∧
              availableElectrons ≥ 1 then true
          else if (atom.element = "O".toList ∨ atom.element = "S".toList) ∧
              aromaticBonds ≤ 2 ∧ availableElectrons ≥ 2 then true
          else false
        else canBeAromatic
      ¬ canBeAromatic

/-- The de-aromatisation pass of the matching-based `kekulize`: set
every delocalisation-subgraph edge to order 1 (via `updateBondOrder`,
which adjusts bond counts), clear the aromatic flag of every subgraph
atom and round its bond count. -/
def kekulizePMDearomatize (mol : MolecularGraph) :
    Except DecErr MolecularGraph :=
  mol.delocalSubgraph.foldlM
    (fun m entry =>
      match entry.2.foldlM (fun m2 adj =>
          MolecularGraph.updateBondOrder m2 entry.1 adj 1) m with
      | .error e => .error e
      | .ok m =>
        if entry.1 < m.atoms.length then
          .ok { m with
            atoms := listModify m.atoms entry.1
              (fun a => { a with isAromatic := false })
            bondCounts := listModify m.bondCounts entry.1
              (fun c => HQ.round c) }
        else .ok m)
    mol

/-- The matching-based `kekulize`: prune, relabel the kept vertices,
find a perfect matching of the induced subgraph (reporting failure with
the graph untouched when none is found), then set all aromatic bonds to
single, clear flags, and raise each matched pair to a double bond. -/
def kekulizePM (mol : MolecularGraph) :
    Except DecErr (Bool × MolecularGraph) :=
  if mol.isKekulized then .ok (true, mol)
  else
    let ds := mol.delocalSubgraph
    let keptNodes := (ds.map (fun e => e.1)).filter
      (fun n => ¬ pruneFromDs mol n)
    let labelToNode := sortNats keptNodes
    let nodeToLabel := fun n => (labelToNode.indexOf n)
    let prunedDs := keptNodes.foldl
      (fun pd node =>
        let label := nodeToLabel node
        let adjLabels := ((assocGet node ds).getD []).filterMap
          (fun adj =>
            if keptNodes.contains adj then some (nodeToLabel adj) else none)
        listModify pd label (fun l => l ++ adjLabels))
      (List.replicate keptNodes.length ([] : List Nat))
    match findPerfectMatching prunedDs with
    | none => .ok (false, mol)
    | some matching =>
      match kekulizePMDearomatize mol with
      | .error e => .error e
      | .ok mol =>
        match matching.enum.foldlM
            (fun (m : MolecularGraph) (p : Nat × Option Nat) =>
              match p.2 with
              | none => (.ok m : Except DecErr MolecularGraph)
              | some matchedLabel =>
                if p.1 < matchedLabel then
                  MolecularGraph.updateBondOrder m
                    (labelToNode.getD p.1 0) (labelToNode.getD matchedLabel 0)
                    2
                else .ok m)
            mol with
        | .error e => .error e
        | .ok mol => .ok (true, { mol with delocalSubgraph := [] })

/-- The encoder's kekulization gate (`if (!mol.kekulize()) throw new
EncoderError(...)` in the repository's encoder), parametrised by the
kekulize implementation in use. -/
def encoderKekulizeGate (kek : MolecularGraph → Bool × MolecularGraph)
    (mol : MolecularGraph) : Except Chars MolecularGraph :=
  let r := kek mol
  if r.1 then .ok r.2
  else .error ("Kekulization failed".toList)

/-- The encoder's kekulization gate over the matching-based
implementation. -/
def encoderKekulizeGatePM (mol : MolecularGraph) :
    Except Chars MolecularGraph :=
  match kekulizePM mol with
  | .error _ => .error ("internal error".toList)
  | .ok (true, m) => .ok m
  | .ok (false, _) => .error ("Kekulization failed".toList)

/-! ## Theorems: the index codec (claim C8) -/

/-- Little-endian value of a digit list under the index code. -/
def idxValue : List Chars → Nat
  | [] => 0
  | d :: rest => indexCodeLookup d + INDEX_CODE.length * idxValue rest

/-- Folding the positional sum over an enumerated digit list computes
the little-endian value, shifted by the starting position. -/
theorem enumFrom_foldl_idxValue (ds : List Chars) :
    ∀ (k : Nat) (acc : Nat),
      (List.foldl
        (fun acc p => acc + indexCodeLookup p.2 * INDEX_CODE.length ^ p.1)
        acc (ds.enumFrom k)) =
      acc + INDEX_CODE.length ^ k * idxValue ds := by
  induction ds with
  | nil => intro k acc; simp [idxValue]
  | cons d rest ih =>
    intro k acc
    simp only [List.enumFrom, List.foldl_cons, idxValue]
    rw [ih (k + 1)]
    ring

/-- The index read of a symbol list is the little-endian value of its
reversal. -/
theorem getIndexFromSelfies_eq (syms : List Chars) :
    getIndexFromSelfies syms = idxValue syms.reverse := by
  unfold getIndexFromSelfies
  have h := enumFrom_foldl_idxValue syms.reverse 0 0
  simpa [List.enum] using h

/-- Each digit of the index alphabet reads back as itself. -/
theorem indexCodeLookup_alphabet (d : Nat) (h : d < 16) :
    indexCodeLookup (INDEX_ALPHABET.getD d []) = d := by
  interval_cases d <;> decide

/-- The little-endian digit expansion evaluates back to the number. -/
theorem idxValue_idxDigits (m : Nat) : idxValue (idxDigits m) = m := by
  induction m using Nat.strong_induction_on with
  | _ m ih =>
    match m with
    | 0 => rw [idxDigits]; rfl
    | m + 1 =>
      rw [idxDigits]
      have hlt : (m + 1) % INDEX_ALPHABET.length < 16 := by
        have : INDEX_ALPHABET.length = 16 := by decide
        rw [this]
        exact Nat.mod_lt _ (by decide)
      have hdiv : (m + 1) / INDEX_ALPHABET.length < m + 1 :=
        Nat.div_lt_self (Nat.succ_pos m) (by decide)
      simp only [idxValue, indexCodeLookup_alphabet _ hlt, ih _ hdiv]
      have h16 : INDEX_CODE.length = 16 := by decide
      have h16' : INDEX_ALPHABET.length = 16 := by decide
      rw [h16, h16']
      omega

/-- Claim C8: index-codec round trip.  For every natural number `n`,
reading back the symbol sequence produced by `getSelfiesFromIndex n`
with `getIndexFromSelfies` returns `n`.  (Source numbers are modelled as
exact naturals; IEEE doubles are exact on this codec's range of use.) -/
theorem claim_C8_index_roundtrip (n : Nat) :
    getIndexFromSelfies (getSelfiesFromIndex n) = n := by
  unfold getSelfiesFromIndex
  by_cases h : n = 0
  · subst h; decide
  · simp only [h, if_false]
    rw [getIndexFromSelfies_eq, List.reverse_reverse, idxValue_idxDigits]

/-! ## Theorems: deferred ring resolution (claim C3) -/

theorem assocGet_assocSet_self {α β : Type} [DecidableEq α] (k : α)
    (v : β) (m : List (α × β)) : assocGet k (assocSet k v m) = some v := by
  induction m with
  | nil => simp [assocSet, assocGet]
  | cons kv rest ih =>
    by_cases h : kv.1 = k <;> simp [assocSet, assocGet, h, ih]

theorem assocGet_assocSet_ne {α β : Type} [DecidableEq α] {k k' : α}
    (v : β) (m : List (α × β)) (h : k' ≠ k) :
    assocGet k' (assocSet k v m) = assocGet k' m := by
  have hne : k ≠ k' := fun hh => h hh.symm
  induction m with
  | nil => simp [assocSet, assocGet, hne]
  | cons kv rest ih =>
    by_cases hk : kv.1 = k
    · have hk' : kv.1 ≠ k' := hk ▸ hne
      simp [assocSet, assocGet, hk, hne, hk']
    · by_cases hk' : kv.1 = k' <;>
        simp [assocSet, assocGet, hk, hk', ih, h, hne]

theorem mem_of_assocGet {α β : Type} [DecidableEq α] {k : α} {v : β}
    {m : List (α × β)} (h : assocGet k m = some v) : (k, v) ∈ m := by
  induction m with
  | nil => simp [assocGet] at h
  | cons kv rest ih =>
    simp only [assocGet] at h
    by_cases hk : kv.1 = k
    · rw [if_pos hk] at h
      have hv : kv.2 = v := Option.some.inj h
      have he : kv = (k, v) := Prod.ext hk hv
      rw [← he]
      exact List.mem_cons_self _ _
    · rw [if_neg hk] at h
      exact List.mem_cons_of_mem _ (ih h)

theorem assocGet_of_mem_nodup {α β : Type} [DecidableEq α] {k : α}
    {v : β} {m : List (α × β)} (hnd : (m.map Prod.fst).Nodup)
    (h : (k, v) ∈ m) : assocGet k m = some v := by
  induction m with
  | nil => simp at h
  | cons kv rest ih =>
    simp only [List.map_cons, List.nodup_cons] at hnd
    rcases List.mem_cons.mp h with h1 | h1
    · cases h1
      simp [assocGet]
    · have hk : kv.1 ≠ k := by
        intro he
        exact hnd.1 (he ▸ (List.mem_map.mpr ⟨(k, v), h1, rfl⟩))
      simp [assocGet, hk, ih hnd.2 h1]

theorem assocSet_keys {α β : Type} [DecidableEq α] (k : α) (v : β)
    (m : List (α × β)) :
    (assocSet k v m).map Prod.fst =
      if k ∈ m.map Prod.fst then m.map Prod.fst
      else m.map Prod.fst ++ [k] := by
  induction m with
  | nil => simp [assocSet]
  | cons kv rest ih =>
    by_cases hk : kv.1 = k
    · simp [assocSet, hk]
    · have hne : ¬ k = kv.1 := fun hh => hk hh.symm
      by_cases hmem : k ∈ rest.map Prod.fst <;>
        simp [assocSet, hk, ih, hmem, hne]

theorem assocSet_keys_nodup {α β : Type} [DecidableEq α] (k : α) (v : β)
    (m : List (α × β)) (hnd : (m.map Prod.fst).Nodup) :
    (((assocSet k v m).map Prod.fst)).Nodup := by
  rw [assocSet_keys]
  by_cases hmem : k ∈ m.map Prod.fst
  · simpa [hmem] using hnd
  · simpa [hmem, List.nodup_append] using hnd

/-- Number of occurrences of a normalised endpoint pair in a ring
queue. -/
def pairCount (rings : List RingEntry) (p : Nat × Nat) : Nat :=
  rings.countP (fun e => (min e.left e.right, max e.left e.right) == p)

/-- The `ringPairCounts` fold computes exactly the per-pair occurrence
counts. -/
theorem ringPairCounts_fold (rings : List RingEntry) :
    ∀ (m : List ((Nat × Nat) × Nat)) (p : Nat × Nat),
      (assocGet p (rings.foldl (fun m e =>
        let key := (min e.left e.right, max e.left e.right)
        assocSet key ((assocGet key m).getD 0 + 1) m) m)).getD 0 =
      (assocGet p m).getD 0 + pairCount rings p := by
  induction rings with
  | nil => intro m p; simp [pairCount]
  | cons e rest ih =>
    intro m p
    simp only [List.foldl_cons]
    rw [ih]
    by_cases hp : (min e.left e.right, max e.left e.right) = p
    · rw [hp, assocGet_assocSet_self]
      simp [pairCount, List.countP_cons, hp]
      ring
    · rw [assocGet_assocSet_ne _ _ (fun hh => hp hh.symm)]
      simp [pairCount, List.countP_cons, hp]

/-- The keys of `ringPairCounts` are duplicate-free. -/
theorem ringPairCounts_nodup (rings : List RingEntry) :
    ((ringPairCounts rings).map Prod.fst).Nodup := by
  suffices h : ∀ (m : List ((Nat × Nat) × Nat)),
      (m.map Prod.fst).Nodup →
      ((rings.foldl (fun m e =>
        let key := (min e.left e.right, max e.left e.right)
        assocSet key ((assocGet key m).getD 0 + 1) m) m).map
          Prod.fst).Nodup by
    exact h [] (by simp)
  induction rings with
  | nil => intro m hm; simpa using hm
  | cons e rest ih =>
    intro m hm
    exact ih _ (assocSet_keys_nodup _ _ _ hm)

/-- Lookup form of the pair-count correspondence. -/
theorem ringPairCounts_get (rings : List RingEntry) (p : Nat × Nat) :
    (assocGet p (ringPairCounts rings)).getD 0 = pairCount rings p := by
  have h := ringPairCounts_fold rings [] p
  simpa [ringPairCounts, assocGet] using h

/-- The `hasInvalidRings` gate fires exactly when some endpoint pair
occurs an odd number of times. -/
theorem hasInvalidRings_iff (rings : List RingEntry) :
    hasInvalidRings rings = true ↔
      ∃ p : Nat × Nat, pairCount rings p % 2 = 1 := by
  unfold hasInvalidRings
  rw [List.any_eq_true]
  constructor
  · rintro ⟨kv, hmem, hodd⟩
    have hget : assocGet kv.1 (ringPairCounts rings) = some kv.2 :=
      assocGet_of_mem_nodup (ringPairCounts_nodup rings)
        (by cases kv; exact hmem)
    have hcount := ringPairCounts_get rings kv.1
    rw [hget] at hcount
    simp only [Option.getD_some] at hcount
    have hodd' : kv.2 % 2 ≠ 0 := by simpa using hodd
    exact ⟨kv.1, by omega⟩
  · rintro ⟨p, hodd⟩
    have hcount := ringPairCounts_get rings p
    match hget : assocGet p (ringPairCounts rings) with
    | some v =>
      rw [hget] at hcount
      simp only [Option.getD_some] at hcount
      refine ⟨(p, v), mem_of_assocGet hget, ?_⟩
      simp only [decide_eq_true_eq]
      omega
    | none =>
      rw [hget] at hcount
      simp only [Option.getD_none] at hcount
      omega

/-- A plain (non-aromatic) carbon atom. -/
def plainC : Atom := { element := "C".toList, isAromatic := false }

/-- A two-carbon graph with no bonds (the decoder state after
`"[C].[C]"`-style input), used as a concrete ring-formation input. -/
def twoCMol : MolecularGraph :=
  ((({} : MolecularGraph).addAtom plainC true).1.addAtom plainC true).1

/-- Claim C3, counterexample.  A ring queue holding a single triple
(0, 1, order 1) has an odd pair count, so `formRingsBilocally` skips all
ring formation and leaves the two carbons unbonded — while the claim's
per-pair processing (the lenient loop, which clamps the order and adds a
ring bond) would bond them. -/
theorem claim_C3_counterexample :
    (formRingsBilocally twoCMol [⟨0, 1, 1, none⟩]).map
      (fun m => m.hasBond 0 1) = .ok false ∧
    (formRingsLenient twoCMol [⟨0, 1, 1, none⟩]).map
      (fun m => m.hasBond 0 1) = .ok true := by
  constructor <;> rfl

/-- Equality on decoder results is decidable (used by the concrete
evaluations below). -/
instance {e a : Type} [DecidableEq e] [DecidableEq a] :
    DecidableEq (Except e a)
  | .error x, .error y =>
    if h : x = y then isTrue (by rw [h]) else
      isFalse (by intro hh; cases hh; exact h rfl)
  | .error _, .ok _ => isFalse (by intro hh; cases hh)
  | .ok _, .error _ => isFalse (by intro hh; cases hh)
  | .ok x, .ok y =>
    if h : x = y then isTrue (by rw [h]) else
      isFalse (by intro hh; cases hh; exact h rfl)

/-- Claim C3, amended.  Deferred ring resolution is per-pair and lenient
only when every endpoint pair occurs an even number of times in the ring
queue: in that case `formRingsBilocally` coincides with the independent
per-triple loop (skip self-loops and exhausted endpoints, clamp to
`min(order, freeA, freeB)`, raise an existing bond capped at 3 or add a
ring bond).  When some pair has an odd occurrence count, ALL ring
formation is skipped and the graph is returned unchanged. -/
theorem claim_C3_amended (mol : MolecularGraph)
    (rings : List RingEntry) :
    ((∀ p : Nat × Nat, pairCount rings p % 2 = 0) →
      formRingsBilocally mol rings = formRingsLenient mol rings) ∧
    ((∃ p : Nat × Nat, pairCount rings p % 2 = 1) →
      formRingsBilocally mol rings = .ok mol) := by
  constructor
  · intro h
    unfold formRingsBilocally
    have hfalse : hasInvalidRings rings = false := by
      cases hb : hasInvalidRings rings with
      | false => rfl
      | true =>
        exfalso
        rcases (hasInvalidRings_iff rings).mp hb with ⟨p, hp⟩
        have := h p
        omega
    simp [hfalse]
  · intro h
    unfold formRingsBilocally
    rw [if_pos ((hasInvalidRings_iff rings).mpr h)]

/-- Claim C3, witness for the amended theorem: on the concrete
single-triple queue the odd-count branch applies and the graph is
returned unchanged. -/
theorem claim_C3_amended_witness :
    formRingsBilocally twoCMol [⟨0, 1, 1, none⟩] = .ok twoCMol :=
  (claim_C3_amended twoCMol [⟨0, 1, 1, none⟩]).2 ⟨(0, 1), by decide⟩

/-! ## Theorems: kekulization (claims C4 and C5) -/

/-- An aromatic carbon atom, as the SMILES parser creates for `c`. -/
def aromaticC : Atom := { element := "C".toList, isAromatic := true }

/-- Add an aromatic (order 1.5) chain bond; the endpoints used below are
always in range and ordered, so the error branch is unreachable. -/
def addAromaticBond (m : MolecularGraph) (a b : Nat) : MolecularGraph :=
  match m.addBond a b HQ.aromatic none with
  | .ok m' => m'
  | .error _ => m

/-- The parsed graph of the SMILES `"c1cc1"`: an aromatic 3-cycle
(odd-membered aromatic ring, the specification's own example of an
unkekulizable system). -/
def aromaticTriangle : MolecularGraph :=
  let m := ((({} : MolecularGraph).addAtom aromaticC true).1.addAtom
    aromaticC).1
  let m := (m.addAtom aromaticC).1
  let m := addAromaticBond (addAromaticBond m 0 1) 1 2
  m.addRingBond 0 2 HQ.aromatic none none none none

/-- The parsed graph of the SMILES `"c1ccccc1"` (benzene): an aromatic
6-cycle, which has a perfect matching. -/
def aromaticBenzene : MolecularGraph :=
  let m := (({} : MolecularGraph).addAtom aromaticC true).1
  let m := (((((m.addAtom aromaticC).1.addAtom aromaticC).1.addAtom
    aromaticC).1.addAtom aromaticC).1.addAtom aromaticC).1
  let m := addAromaticBond (addAromaticBond (addAromaticBond
    (addAromaticBond (addAromaticBond m 0 1) 1 2) 2 3) 3 4) 4 5
  m.addRingBond 0 5 HQ.aromatic none none none none

/-- Sum of the incident bond orders at an atom: a non-ring bond (stored
once, `src < dst`) contributes its order to both endpoints; a ring bond
(stored once per direction) contributes through its source copy. -/
def incidentOrderSum (mol : MolecularGraph) (i : Nat) : HQ :=
  mol.bondDict.foldl (fun acc e =>
    if e.2.ringBond then
      if e.1.1 = i then acc + e.2.order else acc
    else
      let acc := if e.1.1 = i then acc + e.2.order else acc
      if e.1.2 = i then acc + e.2.order else acc) 0

/-- Claim C4, code evaluation at the failing input.  On the aromatic
3-cycle (SMILES `"c1cc1"`, an odd-membered aromatic subgraph, which has
no perfect matching), the `kekulize` of the named src/mol-graph.ts
returns success, so the encoder's kekulization gate passes and no
`EncoderError` is raised — against the claim.  The repository's
matching-based `kekulize` (which the specification describes) does
report failure on the same graph, making that encoder raise. -/
theorem claim_C4_code_eval :
    aromaticTriangle.delocalSubgraph.length % 2 = 1 ∧
    (MolecularGraph.kekulize aromaticTriangle).1 = true ∧
    (encoderKekulizeGate MolecularGraph.kekulize aromaticTriangle).isOk
      = true ∧
    (kekulizePM aromaticTriangle).map Prod.fst = .ok false ∧
    (encoderKekulizeGatePM aromaticTriangle).isOk = false := by
  refine ⟨by decide, by decide, by decide, by decide, by decide⟩

/-- Claim C5, code evaluation at the failing input.  On benzene the
`kekulize` of the named src/mol-graph.ts reports success yet leaves an
order-1.5 bond in the graph, leaves every aromatic flag set, and leaves
an atom whose stored bond count differs from the sum of its incident
bond orders — violating all three postconditions of the claim.  The
matching-based `kekulize` establishes every postcondition on the same
graph. -/
theorem claim_C5_code_eval :
    (MolecularGraph.kekulize aromaticBenzene).1 = true ∧
    ((MolecularGraph.kekulize aromaticBenzene).2.bondDict.any
      (fun e => e.2.order = HQ.aromatic)) = true ∧
    ((MolecularGraph.kekulize aromaticBenzene).2.atoms.any
      (fun a => a.isAromatic)) = true ∧
    (MolecularGraph.kekulize aromaticBenzene).2.getBondCount 1 ≠
      incidentOrderSum (MolecularGraph.kekulize aromaticBenzene).2 1 ∧
    (kekulizePM aromaticBenzene).map (fun p =>
      (p.1,
       p.2.bondDict.all (fun e => e.2.order ≠ HQ.aromatic),
       p.2.atoms.all (fun a => ¬ a.isAromatic),
       (List.range p.2.length).all (fun i =>
         p.2.getBondCount i = incidentOrderSum p.2 i))) =
      .ok (true, true, true, true) := by
  refine ⟨by decide, by decide, by decide, by decide, by decide⟩

/-! ## Theorems: branch symbols in low states (claim C6) -/

/-- Claim C6, counterexample.  After `"[O][O]"` the state is 1; the
claim says the following `[Branch1]` still consumes its one index
symbol, which would make `"[O][O][Branch1][C][C]"` decode like
`"[O][O][C]"` (three atoms, `"OOC"`).  The decoder instead skips only
the branch symbol and interprets both `[C]` symbols as derivation
symbols, producing `"OOCC"`. -/
theorem claim_C6_counterexample :
    decodeStr ("[O][O][Branch1][C][C]".toList) = .ok ("OOCC".toList) ∧
    decodeStr ("[O][O][C]".toList) = .ok ("OOC".toList) ∧
    decodeStr ("[O][O][Branch1][C][C]".toList) ≠
      decodeStr ("[O][O][C]".toList) := by
  refine ⟨by decide, by decide, by decide⟩

/-- Claim C6, amended.  When the derivation engine meets a parseable
branch symbol while the state is `null`, 0 or 1, the branch symbol is
consumed (counting toward the budget) but produces no atoms AND its
index tail is NOT read: derivation continues with the remaining stream
untouched, so the next `L` symbols are interpreted as ordinary
derivation symbols. -/
theorem claim_C6_amended (fuel : Nat) (syms : List Chars)
    (maxDerive : Option Nat) (nDerived : Nat) (state : DState)
    (prevAtom : Option PrevAtom) (mol : MolecularGraph)
    (rings : List RingEntry) (sym : Chars)
    (hB : containsSub sym ("Branch".toList) = true)
    (hP : (processBranchSymbol sym).isSome)
    (hState : state = none ∨ state = some 0 ∨ state = some 1)
    (hBudget : budgetReached maxDerive nDerived = false) :
    deriveMol (fuel + 1) (sym :: syms) maxDerive nDerived state prevAtom
      mol rings =
    deriveMol fuel syms maxDerive (nDerived + 1) state prevAtom mol
      rings := by
  rcases Option.isSome_iff_exists.mp hP with ⟨⟨btype, n⟩, hp⟩
  have hB2 : containsSub sym ['B', 'r', 'a', 'n', 'c', 'h'] = true := hB
  rcases hState with h | h | h <;>
    subst h <;>
    simp [deriveMol, hBudget, hB2, hp]

/-- Claim C6, witness for the amended theorem: with state 1, a
`[Branch1]` at the head of the stream is skipped without consuming its
index tail. -/
theorem claim_C6_amended_witness :
    deriveMol 4 ["[Branch1]".toList, "[C]".toList] none 0 (some 1) none
      {} [] =
    deriveMol 3 ["[C]".toList] none 1 (some 1) none {} [] :=
  claim_C6_amended 3 ["[C]".toList] none 0 (some 1) none {} []
    ("[Branch1]".toList) (by decide) (by decide) (Or.inr (Or.inr rfl))
    (by decide)

/-! ## Theorems: the atom-symbol transition (claim C7) -/

/-- Claim C7, counterexample.  `[CH4]` parses to a carbon of bonding
capacity 0, so after `[C]` (state 4) the clamped order is
`min(1, 4, 0) = 0` with state `4 ≠ 0`.  The claim's "otherwise the atom
is inserted and a bond prev→atom of order finalOrder is added" would
leave two atoms in the graph; the decoder inserts nothing, leaving one
atom. -/
theorem claim_C7_counterexample :
    (decoderCore ("[C][CH4]".toList)).map (fun m => m.length) = .ok 1 ∧
    (decoderCore ("[C][CH4]".toList)).map (fun m => m.length) ≠
      .ok 2 := by
  refine ⟨by decide, by decide⟩

/-- The atom-symbol transition as the amended claim words it: compute
`finalOrder = min(b, state, capacity)` (state = null clamps to 0); if
`finalOrder = 0` the atom is inserted (as a fresh root) exactly when
`state = 0` and is dropped otherwise; if `finalOrder > 0` the atom is
inserted and, when the previous atom exists in the graph, a bond
`prev → atom` of order `finalOrder` is added; in every case `prev`
becomes the new atom and the state becomes `capacity − finalOrder`,
normalised so 0 maps to null. -/
def atomStepSpec (mol : MolecularGraph) (state : DState)
    (prevAtom : Option PrevAtom) (bondInfo : Nat × Option Char)
    (atom : Atom) :
    Except DecErr (MolecularGraph × DState × Option PrevAtom) :=
  let cap := atom.bondingCapacity.toNat
  let finalOrder := min (min bondInfo.1 (stOr0 state)) cap
  let nextState : DState :=
    if cap - finalOrder = 0 then none else some (cap - finalOrder)
  if finalOrder = 0 then
    if state = some 0 then
      .ok ((mol.addAtom atom true).1, nextState,
        some ⟨atom, some mol.length⟩)
    else .ok (mol, nextState, some ⟨atom, none⟩)
  else
    let added := mol.addAtom atom
    match prevAtom with
    | some p =>
      match p.idx with
      | some srcIdx =>
        match added.1.addBond (min srcIdx added.2) (max srcIdx added.2)
            (HQ.ofNat finalOrder) bondInfo.2 with
        | .error e => .error e
        | .ok m => .ok (m, nextState, some ⟨atom, some added.2⟩)
      | none => .ok (added.1, nextState, some ⟨atom, some added.2⟩)
    | none => .ok (added.1, nextState, some ⟨atom, some added.2⟩)

/-- Claim C7, amended: the decoder's atom step implements exactly the
corrected transition rule (`atomStepSpec`).  In particular the clamped
order equals the plain `min(b, state||0, capacity)` even in the
`state = 0` guard path of `nextAtomState`, and the atom is dropped — not
inserted with a 0-order bond — when `finalOrder = 0` with a non-zero
state. -/
theorem claim_C7_amended (mol : MolecularGraph) (state : DState)
    (prevAtom : Option PrevAtom) (bondInfo : Nat × Option Char)
    (atom : Atom) :
    deriveAtomStep mol state prevAtom bondInfo atom =
      atomStepSpec mol state prevAtom bondInfo atom := by
  unfold deriveAtomStep atomStepSpec nextAtomState
  by_cases h0 : state = some 0
  · subst h0
    simp [stOr0, MolecularGraph.addAtom, MolecularGraph.length]
  · simp only [h0, if_false]

/-! ## Theorems: dot separators (claim C10) -/

theorem splitOnDot_ne_nil (s : List Char) : splitOnDot s ≠ [] := by
  cases s with
  | nil => simp [splitOnDot]
  | cons c rest =>
    by_cases h : c = '.'
    · simp [splitOnDot, h]
    · simp only [splitOnDot, h, if_false]
      cases splitOnDot rest <;> simp

theorem splitOnDot_append_dot (a b : List Char) :
    splitOnDot (a ++ '.' :: b) = splitOnDot a ++ splitOnDot b := by
  induction a with
  | nil => simp [splitOnDot]
  | cons c a' ih =>
    by_cases h : c = '.'
    · simp [splitOnDot, h, ih]
    · simp only [List.cons_append, splitOnDot, h, if_false,
        List.append_eq, ih]
      match ha : splitOnDot a' with
      | [] => exact absurd ha (splitOnDot_ne_nil a')
      | f :: fs => simp

theorem decodeFragments_append (acc : MolecularGraph × List RingEntry)
    (xs ys : List (List Char)) :
    decodeFragments acc (xs ++ ys) =
      match decodeFragments acc xs with
      | .error e => .error e
      | .ok acc' => decodeFragments acc' ys := by
  induction xs generalizing acc with
  | nil => simp [decodeFragments]
  | cons f fs ih =>
    simp only [List.cons_append, decodeFragments]
    by_cases hf : f = []
    · simp [hf, ih]
    · simp only [hf, if_false]
      cases decodeFragment acc f <;> simp [ih]

/-- Claim C10, counterexample.  The decoder returns `"C"` for the empty
string (the deliberate total-function fallback) but `""` for the string
`"."` — whose two fragments are both empty — so `decoder('.' + s) =
decoder(s)` fails at `s = ""`. -/
theorem claim_C10_counterexample :
    decodeStr ['.'] = .ok [] ∧
    decodeStr [] = .ok ("C".toList) ∧
    decodeStr ['.'] ≠ decodeStr [] := by
  refine ⟨by decide, by decide, by decide⟩

/-- Claim C10, amended.  Dot separators delimiting an empty fragment
are ignored for every NON-EMPTY string: `decoder('.' + s) = decoder(s)`
and `decoder(s + '.') = decoder(s)` whenever `s` is non-empty (the
empty string instead triggers the decoder's `"C"` fallback), and
consecutive dots behave as a single separator unconditionally. -/
theorem claim_C10_amended (s a b : List Char) (hs : s ≠ []) :
    decodeStr ('.' :: s) = decodeStr s ∧
    decodeStr (s ++ ['.']) = decodeStr s ∧
    decodeStr (a ++ '.' :: '.' :: b) = decodeStr (a ++ '.' :: b) := by
  refine ⟨?_, ?_, ?_⟩
  · unfold decodeStr decoderCore
    simp only [hs, if_false, List.cons_ne_nil, splitOnDot]
    simp [decodeFragments]
  · unfold decodeStr decoderCore
    have hne : s ++ ['.'] ≠ [] := by simp
    simp only [hs, hne, if_false]
    have : ('.' : Char) :: ([] : List Char) = '.' :: [] := rfl
    rw [show (s ++ ['.']) = s ++ '.' :: [] from rfl, splitOnDot_append_dot]
    rw [decodeFragments_append]
    cases decodeFragments ({}, []) (splitOnDot s) <;>
      simp [splitOnDot, decodeFragments]
  · have hne1 : a ++ '.' :: '.' :: b ≠ [] := by
      cases a <;> simp
    have hne2 : a ++ '.' :: b ≠ [] := by
      cases a <;> simp
    unfold decodeStr decoderCore
    simp only [hne1, hne2, if_false]
    rw [show a ++ '.' :: '.' :: b = a ++ '.' :: ('.' :: b) from rfl,
      splitOnDot_append_dot, splitOnDot_append_dot,
      show ('.' :: b : List Char) = [] ++ '.' :: b from rfl,
      splitOnDot_append_dot]
    rw [decodeFragments_append, decodeFragments_append]
    cases decodeFragments ({}, []) (splitOnDot a) <;>
      simp [decodeFragments_append, splitOnDot, decodeFragments]

/-- Claim C10, witness for the amended theorem at `s = "[C]"`,
`a = b = ""`. -/
theorem claim_C10_amended_witness :
    decodeStr ('.' :: ("[C]".toList)) = decodeStr ("[C]".toList) :=
  (claim_C10_amended ("[C]".toList) [] [] (by decide)).1

/-! ## Token-level structure of SELFIES strings

To reason about inserting or removing symbols at symbol boundaries, a
string is viewed as the flattening of a list of items, each either a
complete bracket symbol or a dot separator. -/

/-- An item of a SELFIES string: a complete symbol or a dot. -/
inductive TokItem where
  | sym (t : Chars)
  | dot
deriving DecidableEq, Repr

/-- The characters an item contributes to the string. -/
def TokItem.flat : TokItem → Chars
  | .sym t => t
  | .dot => ['.']

/-- Flatten an item list back into a string. -/
def flattenToks (w : List TokItem) : Chars :=
  (w.map TokItem.flat).flatten

/-- A body without brackets or dots. -/
def CleanBody (body : Chars) : Prop :=
  ∀ c ∈ body, ¬(c = '[' ∨ c = ']' ∨ c = '.')

/-- A well-formed bracket symbol: `[` body `]` with a clean body. -/
def WFSymP (t : Chars) : Prop :=
  ∃ body, t = '[' :: (body ++ [']']) ∧ CleanBody body

/-- Every symbol item of the list is a well-formed bracket symbol. -/
def WFToks (w : List TokItem) : Prop :=
  ∀ t, TokItem.sym t ∈ w → WFSymP t

/-- The symbol groups between the dots of an item list (the token lists
of the string's dot-separated fragments). -/
def symGroups : List TokItem → List (List Chars)
  | [] => [[]]
  | .dot :: w => [] :: symGroups w
  | .sym t :: w =>
    match symGroups w with
    | [] => [[t]]
    | g :: gs => (t :: g) :: gs

theorem symGroups_ne_nil (w : List TokItem) : symGroups w ≠ [] := by
  match w with
  | [] => simp [symGroups]
  | .dot :: w' => simp [symGroups]
  | .sym t :: w' =>
    simp only [symGroups]
    cases symGroups w' <;> simp

/-- Splitting on dots after prepending dot-free characters grows the
first fragment. -/
theorem splitOnDot_dotfree_prepend (t s : List Char)
    (h : ∀ c ∈ t, c ≠ '.') :
    splitOnDot (t ++ s) =
      ((t ++ (splitOnDot s).headI) :: (splitOnDot s).tail) := by
  induction t with
  | nil =>
    simp only [List.nil_append]
    match hs : splitOnDot s with
    | [] => exact absurd hs (splitOnDot_ne_nil s)
    | f :: fs => simp
  | cons c t' ih =>
    have hc : c ≠ '.' := h c (List.mem_cons_self _ _)
    have ht' : ∀ c ∈ t', c ≠ '.' := fun c hc => h c (List.mem_cons_of_mem _ hc)
    simp only [List.cons_append, splitOnDot, hc, if_false,
      List.append_eq]
    rw [ih ht']

/-- The dot-split of a flattened item list is the flattening of its
symbol groups. -/
theorem splitOnDot_flattenToks (w : List TokItem) (hwf : WFToks w) :
    splitOnDot (flattenToks w) = (symGroups w).map (fun g => g.flatten) := by
  induction w with
  | nil => simp [flattenToks, symGroups, splitOnDot]
  | cons item w' ih =>
    have hwf' : WFToks w' := fun t ht => hwf t (List.mem_cons_of_mem _ ht)
    cases item with
    | dot =>
      simp only [flattenToks, List.map_cons, List.flatten_cons,
        TokItem.flat, symGroups]
      simp only [List.singleton_append, splitOnDot, if_pos,
        List.append_eq, List.nil_append]
      simpa [flattenToks] using ih hwf'
    | sym t =>
      rcases hwf t (List.mem_cons_self _ _) with ⟨body, hbody, hclean⟩
      have hdotfree : ∀ c ∈ t, c ≠ '.' := by
        intro c hct
        rw [hbody] at hct
        rcases List.mem_cons.mp hct with h1 | h1
        · subst h1; decide
        · rcases List.mem_append.mp h1 with h2 | h2
          · intro hdot
            exact hclean c h2 (Or.inr (Or.inr hdot))
          · rcases List.mem_singleton.mp h2 with rfl
            decide
      simp only [flattenToks, List.map_cons, List.flatten_cons,
        TokItem.flat]
      rw [show (w'.map TokItem.flat).flatten = flattenToks w' from rfl,
        splitOnDot_dotfree_prepend t _ hdotfree, ih hwf']
      simp only [symGroups]
      match hg : symGroups w' with
      | [] => exact absurd hg (symGroups_ne_nil w')
      | g :: gs => simp

theorem takeWhile_clean_body (body rest : Chars)
    (h : ∀ c ∈ body, c ≠ ']') :
    (body ++ ']' :: rest).takeWhile (· ≠ ']') = body := by
  induction body with
  | nil =>
    rw [List.nil_append, List.takeWhile_cons_of_neg (by simp)]
  | cons c b ih =>
    have hc : c ≠ ']' := h c (List.mem_cons_self _ _)
    rw [List.cons_append, List.takeWhile_cons_of_pos (by simp [hc]),
      ih (fun x hx => h x (List.mem_cons_of_mem _ hx))]

theorem dropWhile_clean_body (body rest : Chars)
    (h : ∀ c ∈ body, c ≠ ']') :
    (body ++ ']' :: rest).dropWhile (· ≠ ']') = ']' :: rest := by
  induction body with
  | nil =>
    rw [List.nil_append, List.dropWhile_cons_of_neg (by simp)]
  | cons c b ih =>
    have hc : c ≠ ']' := h c (List.mem_cons_self _ _)
    rw [List.cons_append, List.dropWhile_cons_of_pos (by simp [hc]),
      ih (fun x hx => h x (List.mem_cons_of_mem _ hx))]

/-- Tokenising the flattening of a list of well-formed symbols recovers
exactly those symbols, for any sufficient fuel. -/
theorem splitSelfies_group : ∀ (g : List Chars),
    (∀ t ∈ g, WFSymP t) → ∀ fuel, (g.flatten).length < fuel →
    splitSelfies fuel g.flatten = .ok g := by
  intro g
  induction g with
  | nil =>
    intro _ fuel hfuel
    match fuel with
    | f + 1 => simp [splitSelfies]
  | cons t g' ih =>
    intro hwf fuel hfuel
    rcases hwf t (List.mem_cons_self _ _) with ⟨body, hbody, hclean⟩
    have hwf' : ∀ t ∈ g', WFSymP t :=
      fun t ht => hwf t (List.mem_cons_of_mem _ ht)
    have hnb : ∀ c ∈ body, c ≠ ']' := by
      intro c hcb heq
      exact hclean c hcb (Or.inr (Or.inl heq))
    have hflat : (t :: g').flatten =
        '[' :: (body ++ ']' :: g'.flatten) := by
      rw [List.flatten_cons, hbody]
      simp
    match fuel with
    | f + 1 =>
      have hlen2 : (g'.flatten).length < f := by
        have := hfuel
        rw [List.flatten_cons, hbody] at this
        simp only [List.length_append, List.length_cons] at this
        omega
    
      rw [hflat]
      simp only [splitSelfies]
      rw [List.dropWhile_cons_of_neg (by simp)]
      simp only [List.tail_cons, reduceCtorEq, if_false,
        List.cons_ne_nil]
      rw [takeWhile_clean_body _ _ hnb, dropWhile_clean_body _ _ hnb]
      simp only [List.tail_cons, reduceCtorEq, if_false,
        List.cons_ne_nil]
      have hbt : ('[' : Char) :: (body ++ [']']) = t := hbody.symm
      match hg' : g' with
      | [] =>
        simp only [List.flatten_nil, List.head?_nil]
        rw [if_neg (by simp)]
        match f, hlen2 with
        | ff + 1, _ => simp [splitSelfies, hbt, Except.map]
      | t' :: g'' =>
        rcases hwf' t' (List.mem_cons_self _ _) with ⟨b', hb', _⟩
        have hhead : (t' :: g'').flatten.head? ≠ some '.' := by
          rw [List.flatten_cons, hb']
          simp
        rw [if_neg (by simpa using hhead)]
        rw [ih (hg' ▸ hwf') f (hg' ▸ hlen2)]
        simp [hbt, Except.map]

theorem tokenizeSelfies_group (g : List Chars)
    (hwf : ∀ t ∈ g, WFSymP t) :
    tokenizeSelfies g.flatten = .ok (g.filter (· ≠ nopSym)) := by
  unfold tokenizeSelfies
  rw [splitSelfies_group g hwf _ (Nat.lt_succ_self _)]

/-- The `[nop]` symbol is a well-formed bracket symbol. -/
theorem wf_nopSym : WFSymP nopSym :=
  ⟨['n', 'o', 'p'], rfl, by
    intro c hc
    rcases List.mem_cons.mp hc with rfl | hc
    · decide
    rcases List.mem_cons.mp hc with rfl | hc
    · decide
    rcases List.mem_cons.mp hc with rfl | hc
    · decide
    · simp at hc⟩

/-- A well-formed symbol is non-empty, so a non-empty group flattens to
a non-empty fragment. -/
theorem flatten_group_ne_nil (g : List Chars)
    (hwf : ∀ t ∈ g, WFSymP t) (hne : g ≠ []) : g.flatten ≠ [] := by
  match g, hne with
  | t :: g', _ =>
    rcases hwf t (List.mem_cons_self _ _) with ⟨body, hbody, _⟩
    rw [List.flatten_cons, hbody]
    simp

/-- Every symbol occurring in a symbol group of `w` is a symbol item of
`w`. -/
theorem symGroups_mem (w : List TokItem) (g : List Chars)
    (hg : g ∈ symGroups w) (t : Chars) (ht : t ∈ g) :
    TokItem.sym t ∈ w := by
  induction w generalizing g with
  | nil =>
    simp only [symGroups, List.mem_singleton] at hg
    subst hg
    simp at ht
  | cons item w' ih =>
    cases item with
    | dot =>
      simp only [symGroups, List.mem_cons] at hg
      rcases hg with hg | hg
      · subst hg; simp at ht
      · exact List.mem_cons_of_mem _ (ih g hg ht)
    | sym t' =>
      simp only [symGroups] at hg
      match hgr : symGroups w' with
      | [] => exact absurd hgr (symGroups_ne_nil w')
      | g0 :: gs =>
        rw [hgr] at hg
        simp only [List.mem_cons] at hg
        rcases hg with hg | hg
        · subst hg
          rcases List.mem_cons.mp ht with h1 | h1
          · subst h1; exact List.mem_cons_self _ _
          · exact List.mem_cons_of_mem _
              (ih g0 (hgr ▸ List.mem_cons_self _ _) h1)
        · exact List.mem_cons_of_mem _
            (ih g (hgr ▸ List.mem_cons_of_mem _ hg) ht)

/-- Inserting one symbol item between `w₁` and `w₂` inserts that symbol
into exactly one symbol group, leaving all other groups unchanged. -/
theorem symGroups_insert (x : Chars) (w₁ w₂ : List TokItem) :
    ∃ gs1 g1 g2 gs2,
      symGroups (w₁ ++ w₂) = gs1 ++ (g1 ++ g2) :: gs2 ∧
      symGroups (w₁ ++ TokItem.sym x :: w₂) =
        gs1 ++ (g1 ++ x :: g2) :: gs2 := by
  induction w₁ with
  | nil =>
    match hg : symGroups w₂ with
    | [] => exact absurd hg (symGroups_ne_nil w₂)
    | g :: gs =>
      refine ⟨[], [], g, gs, by simp [hg], ?_⟩
      simp only [List.nil_append, symGroups, hg]
  | cons item w₁' ih =>
    rcases ih with ⟨gs1, g1, g2, gs2, h1, h2⟩
    cases item with
    | dot =>
      exact ⟨[] :: gs1, g1, g2, gs2, by simp [symGroups, h1],
        by simp [symGroups, h2]⟩
    | sym t =>
      match gs1, h1, h2 with
      | [], h1, h2 =>
        refine ⟨[], t :: g1, g2, gs2, ?_, ?_⟩
        · rw [List.cons_append]
          simp only [symGroups]
          rw [h1]
          simp
        · rw [List.cons_append]
          simp only [symGroups]
          rw [h2]
          simp
      | h :: hs, h1, h2 =>
        refine ⟨(t :: h) :: hs, g1, g2, gs2, ?_, ?_⟩
        · rw [List.cons_append]
          simp only [symGroups]
          rw [h1]
          simp
        · rw [List.cons_append]
          simp only [symGroups]
          rw [h2]
          simp

theorem deriveMol_nil_syms (fuel nD : Nat) (state : DState)
    (prev : Option PrevAtom) (mol : MolecularGraph)
    (rings : List RingEntry) :
    deriveMol (fuel + 1) [] none nD state prev mol rings =
      .ok ⟨mol, rings, [], nD⟩ := by
  simp [deriveMol, budgetReached]

/-- Processing a fragment whose token list gains one `[nop]` at a
symbol boundary is indistinguishable from processing it without: the
tokenizer filters the `[nop]` away, and an all-`[nop]` fragment behaves
like a skipped empty fragment. -/
theorem decodeFragments_junction (acc : MolecularGraph × List RingEntry)
    (g1 g2 : List Chars) (Y : List (List Char))
    (hwf : ∀ t ∈ g1 ++ g2, WFSymP t) :
    decodeFragments acc ((g1 ++ nopSym :: g2).flatten :: Y) =
      decodeFragments acc ((g1 ++ g2).flatten :: Y) := by
  have hwfL : ∀ t ∈ g1 ++ nopSym :: g2, WFSymP t := by
    intro t ht
    rcases List.mem_append.mp ht with h | h
    · exact hwf t (List.mem_append.mpr (Or.inl h))
    · rcases List.mem_cons.mp h with rfl | h
      · exact wf_nopSym
      · exact hwf t (List.mem_append.mpr (Or.inr h))
  have hLne : (g1 ++ nopSym :: g2).flatten ≠ [] :=
    flatten_group_ne_nil _ hwfL (by simp)
  have hfilter : (g1 ++ nopSym :: g2).filter (· ≠ nopSym) =
      (g1 ++ g2).filter (· ≠ nopSym) := by
    simp [List.filter_append, List.filter_cons]
  by_cases h2 : (g1 ++ g2).flatten = []
  · have hnil : g1 ++ g2 = [] := by
      by_contra hne
      exact flatten_group_ne_nil _ hwf hne h2
    have hg1 : g1 = [] := by
      cases g1 with
      | nil => rfl
      | cons a b => simp at hnil
    have hg2 : g2 = [] := by
      rw [hg1] at hnil
      simpa using hnil
    subst hg1
    subst hg2
    have hfilt : ([nopSym] : List Chars).filter (· ≠ nopSym) = [] := by
      decide
    have hfrag : decodeFragment acc (([nopSym] : List Chars).flatten) =
        .ok acc := by
      unfold decodeFragment
      rw [tokenizeSelfies_group _ (by simpa using hwfL), hfilt]
      simp only [List.length_nil, deriveMol_nil_syms, Prod.mk.eta]
    have hLne2 : ([nopSym] : List Chars).flatten ≠ [] := by
      simpa using hLne
    simp only [List.nil_append, decodeFragments]
    rw [if_neg hLne2, hfrag]
    simp
  · simp only [decodeFragments]
    rw [if_neg hLne, if_neg h2]
    have e1 : decodeFragment acc ((g1 ++ nopSym :: g2).flatten) =
        decodeFragment acc ((g1 ++ g2).flatten) := by
      unfold decodeFragment
      rw [tokenizeSelfies_group _ hwfL, tokenizeSelfies_group _ hwf,
        hfilter]
    rw [e1]

/-- Inserting `[nop]` at an item boundary leaves the decoder's graph
pipeline unchanged. -/
theorem decoderCore_nop (u v : List TokItem) (hu : WFToks u)
    (hv : WFToks v) :
    decoderCore (flattenToks (u ++ TokItem.sym nopSym :: v)) =
      decoderCore (flattenToks (u ++ v)) := by
  have huv : WFToks (u ++ v) := by
    intro t ht
    rcases List.mem_append.mp ht with h | h
    · exact hu t h
    · exact hv t h
  have huvN : WFToks (u ++ TokItem.sym nopSym :: v) := by
    intro t ht
    rcases List.mem_append.mp ht with h | h
    · exact hu t h
    · rcases List.mem_cons.mp h with h | h
      · cases h; exact wf_nopSym
      · exact hv t h
  unfold decoderCore
  rw [splitOnDot_flattenToks _ huvN, splitOnDot_flattenToks _ huv]
  rcases symGroups_insert nopSym u v with ⟨gs1, g1, g2, gs2, hA, hB⟩
  rw [hA, hB]
  simp only [List.map_append, List.map_cons]
  rw [decodeFragments_append, decodeFragments_append]
  have hwfMid : ∀ t ∈ g1 ++ g2, WFSymP t := by
    intro t ht
    refine huv t (symGroups_mem (u ++ v) (g1 ++ g2) ?_ t ht)
    rw [hA]
    exact List.mem_append.mpr (Or.inr (List.mem_cons_self _ _))
  cases decodeFragments ({}, []) (gs1.map (fun g => g.flatten)) with
  | error e => rfl
  | ok acc' =>
    simp only [decodeFragments_junction acc' g1 g2
      (List.map (fun g => g.flatten) gs2) hwfMid]

/-- Claim C9, counterexample.  Inserting `"[nop]"` at position 1 of the
SELFIES string `"[C]"` (inside the bracket token) yields `"[[nop]C]"`,
whose first token `"[[nop]"` is not a valid symbol: the decoder raises
instead of returning `decoder("[C]") = "C"`, so `[nop]` insertion at an
arbitrary position changes the output. -/
theorem claim_C9_counterexample :
    decodeStr ("[C]".toList) = .ok ("C".toList) ∧
    (decodeStr ("[[nop]C]".toList)).isOk = false ∧
    ('[' :: ("[nop]".toList ++ "C]".toList)) = "[[nop]C]".toList := by
  refine ⟨by decide, by decide, by decide⟩

/-- Claim C9, amended.  For every non-empty SELFIES string made of
well-formed bracket symbols and dots, inserting `"[nop]"` at any SYMBOL
BOUNDARY (prepending and appending included) leaves the decoder output
unchanged: `decoder(u + "[nop]" + v) = decoder(u + v)` whenever `u` and
`v` are item sequences and `u + v` is non-empty.  (Insertion inside a
bracket token, or into the empty string, changes the output.) -/
theorem claim_C9_amended (u v : List TokItem) (hu : WFToks u)
    (hv : WFToks v) (hne : flattenToks (u ++ v) ≠ []) :
    decodeStr (flattenToks u ++ nopSym ++ flattenToks v) =
      decodeStr (flattenToks (u ++ v)) := by
  have hflatL : flattenToks u ++ nopSym ++ flattenToks v =
      flattenToks (u ++ TokItem.sym nopSym :: v) := by
    simp [flattenToks, TokItem.flat]
  have hLne : flattenToks (u ++ TokItem.sym nopSym :: v) ≠ [] := by
    intro h
    have := congrArg List.length h
    rw [← hflatL] at this
    simp [nopSym] at this
  rw [hflatL]
  unfold decodeStr
  rw [if_neg hLne, if_neg hne, decoderCore_nop u v hu hv]

/-- Claim C9, witness for the amended theorem: appending `"[nop]"` to
`"[C]"` leaves the output unchanged. -/
theorem claim_C9_amended_witness :
    decodeStr ("[C]".toList ++ nopSym ++ []) =
      decodeStr ("[C]".toList) :=
  claim_C9_amended [TokItem.sym ("[C]".toList)] []
    (by
      intro t ht
      rcases List.mem_singleton.mp ht with h
      cases h
      exact ⟨['C'], rfl, by
        intro c hc
        rcases List.mem_singleton.mp hc with rfl
        decide⟩)
    (by intro t ht; simp at ht)
    (by decide)

/-! ## Claim C2: the bonding-capacity invariant -/

/-- The graph index the derivation loop would bond next: the previous
atom's index, when that atom was actually inserted. -/
def touchedIdx : Option PrevAtom → Option Nat
  | none => none
  | some p => p.idx

/-- Basic well-formedness of the decoder's graph: the bond-count array
covers the atom array, and every atom's bond count is within its bonding
capacity. -/
structure CapInv (mol : MolecularGraph) : Prop where
  len_eq : mol.bondCounts.length = mol.atoms.length
  cap_le : ∀ i, i < mol.length → mol.getBondCount i ≤ (mol.getAtom i).capQ

/-- The derivation-loop invariant tying the state to the previous atom:
the previous atom is in range and the state never exceeds its free
capacity. -/
def PrevInv (state : DState) (prevAtom : Option PrevAtom)
    (mol : MolecularGraph) : Prop :=
  ∀ k, touchedIdx prevAtom = some k →
    k < mol.length ∧
    mol.getBondCount k + HQ.ofNat (stOr0 state) ≤ (mol.getAtom k).capQ

/-- What one stretch of derivation does to the graph: the invariant is
kept, atoms are only appended, and bond counts change only at the
previous atom, by at most the state. -/
def CapPost (prevAtom : Option PrevAtom) (n : Nat)
    (m1 m2 : MolecularGraph) : Prop :=
  CapInv m2 ∧ m1.length ≤ m2.length ∧
  (∀ i, i < m1.length → m2.getAtom i = m1.getAtom i) ∧
  (∀ j, j < m1.length → touchedIdx prevAtom ≠ some j →
      m2.getBondCount j = m1.getBondCount j) ∧
  (∀ k, touchedIdx prevAtom = some k →
      m2.getBondCount k ≤ m1.getBondCount k + HQ.ofNat n)

theorem HQ.le_iff (a b : HQ) : a ≤ b ↔ a.twice ≤ b.twice := Iff.rfl

theorem HQ.add_twice (a b : HQ) : (a + b).twice = a.twice + b.twice := rfl

theorem HQ.sub_twice (a b : HQ) : (a - b).twice = a.twice - b.twice := rfl

theorem HQ.ofNat_twice (n : Nat) : (HQ.ofNat n).twice = 2 * n := rfl

theorem HQ.ofInt_twice (z : Int) : (HQ.ofInt z).twice = 2 * z := rfl

theorem HQ.zero_twice : (0 : HQ).twice = 0 := by decide

theorem HQ.min_def (a b : HQ) :
    min a b = if a.twice ≤ b.twice then a else b := rfl

theorem capPost_refl (prevAtom : Option PrevAtom) (n : Nat)
    (m : MolecularGraph) (h : CapInv m) : CapPost prevAtom n m m := by
  refine ⟨h, le_refl _, fun i _ => rfl, fun j _ _ => rfl, fun k _ => ?_⟩
  rw [HQ.le_iff, HQ.add_twice, HQ.ofNat_twice]
  omega

theorem capPost_mono (prevAtom : Option PrevAtom) (n n' : Nat)
    (m1 m2 : MolecularGraph) (hn : n ≤ n')
    (h : CapPost prevAtom n m1 m2) : CapPost prevAtom n' m1 m2 := by
  obtain ⟨h1, h2, h3, h4, h5⟩ := h
  refine ⟨h1, h2, h3, h4, fun k hk => ?_⟩
  have := h5 k hk
  rw [HQ.le_iff, HQ.add_twice, HQ.ofNat_twice] at this ⊢
  omega

theorem capPost_comp (prevAtom : Option PrevAtom) (n1 n2 n : Nat)
    (m1 m2 m3 : MolecularGraph) (hn : n1 + n2 ≤ n)
    (h1 : CapPost prevAtom n1 m1 m2) (h2 : CapPost prevAtom n2 m2 m3) :
    CapPost prevAtom n m1 m3 := by
  obtain ⟨a1, a2, a3, a4, a5⟩ := h1
  obtain ⟨b1, b2, b3, b4, b5⟩ := h2
  refine ⟨b1, le_trans a2 b2, ?_, ?_, ?_⟩
  · intro i hi
    rw [b3 i (lt_of_lt_of_le hi a2), a3 i hi]
  · intro j hj htj
    rw [b4 j (lt_of_lt_of_le hj a2) htj, a4 j hj htj]
  · intro k hk
    have ha := a5 k hk
    have hb := b5 k hk
    rw [HQ.le_iff, HQ.add_twice, HQ.ofNat_twice] at ha hb ⊢
    omega

theorem capPost_comp_shift (pa1 pa2 : Option PrevAtom) (n1 n2 : Nat)
    (m1 m2 m3 : MolecularGraph)
    (hk0 : ∀ k, touchedIdx pa1 = some k → k < m1.length)
    (hshift : ∀ m, touchedIdx pa2 = some m → m1.length ≤ m)
    (h1 : CapPost pa1 n1 m1 m2) (h2 : CapPost pa2 n2 m2 m3) :
    CapPost pa1 n1 m1 m3 := by
  obtain ⟨a1, a2, a3, a4, a5⟩ := h1
  obtain ⟨b1, b2, b3, b4, b5⟩ := h2
  refine ⟨b1, le_trans a2 b2, ?_, ?_, ?_⟩
  · intro i hi
    rw [b3 i (lt_of_lt_of_le hi a2), a3 i hi]
  · intro j hj htj
    have hj2 : touchedIdx pa2 ≠ some j := by
      intro hc
      exact absurd (hshift j hc) (Nat.not_le.mpr hj)
    rw [b4 j (lt_of_lt_of_le hj a2) hj2, a4 j hj htj]
  · intro k hk
    have hklt := hk0 k hk
    have hk2 : touchedIdx pa2 ≠ some k := by
      intro hc
      exact absurd (hshift k hc) (Nat.not_le.mpr hklt)
    rw [b4 k (lt_of_lt_of_le hklt a2) hk2]
    exact a5 k hk

theorem listModify_length {α : Type} (l : List α) (i : Nat) (f : α → α) :
    (listModify l i f).length = l.length := by
  unfold listModify
  cases h : l.get? i <;> simp

theorem listSet_length {α : Type} (l : List α) (i : Nat) (v : α) :
    (listSet l i v).length = l.length := by
  simp [listSet]

theorem listModify_getD_ne {α : Type} (l : List α) (i j : Nat) (f : α → α)
    (d : α) (h : j ≠ i) : (listModify l i f).getD j d = l.getD j d := by
  unfold listModify
  cases hg : l.get? i with
  | none => rfl
  | some x =>
    simp [List.getD_eq_getElem?_getD, List.getElem?_set_ne (Ne.symm h)]

theorem listModify_getD_lt {α : Type} (l : List α) (i : Nat) (f : α → α)
    (d : α) (h : i < l.length) :
    (listModify l i f).getD i d = f (l.getD i d) := by
  unfold listModify
  cases hg : l.get? i with
  | none =>
    rw [List.get?_eq_getElem?] at hg
    rw [List.getElem?_eq_none_iff] at hg
    omega
  | some x =>
    have hx : l.getD i d = x := by
      rw [List.get?_eq_getElem?] at hg
      simp [List.getD_eq_getElem?_getD, hg]
    rw [hx]
    simp [List.getD_eq_getElem?_getD, List.getElem?_set_self, h]

theorem getD_append_lt {α : Type} (l m : List α) (i : Nat) (d : α)
    (h : i < l.length) : (l ++ m).getD i d = l.getD i d := by
  simp [List.getD_eq_getElem?_getD, List.getElem?_append_left h]

theorem getD_append_len {α : Type} (l : List α) (x d : α) :
    (l ++ [x]).getD l.length d = x := by
  simp [List.getD_eq_getElem?_getD]

theorem stOr0_ite (n : Nat) : stOr0 (if n = 0 then none else some n) = n := by
  by_cases h : n = 0 <;> simp [h, stOr0]

theorem addDelocalEdge_atoms (mol : MolecularGraph) (a b : Nat) :
    (mol.addDelocalEdge a b).atoms = mol.atoms := rfl

theorem addDelocalEdge_bondCounts (mol : MolecularGraph) (a b : Nat) :
    (mol.addDelocalEdge a b).bondCounts = mol.bondCounts := rfl

theorem setBondOrderRaw_atoms (mol : MolecularGraph) (a b : Nat) (o : HQ) :
    (mol.setBondOrderRaw a b o).atoms = mol.atoms := rfl

theorem setBondOrderRaw_bondCounts (mol : MolecularGraph) (a b : Nat)
    (o : HQ) : (mol.setBondOrderRaw a b o).bondCounts = mol.bondCounts :=
  rfl

theorem addAtom_atoms (mol : MolecularGraph) (atom : Atom) (mk : Bool) :
    (mol.addAtom atom mk).1.atoms = mol.atoms ++ [atom] := rfl

theorem addAtom_bondCounts (mol : MolecularGraph) (atom : Atom)
    (mk : Bool) : (mol.addAtom atom mk).1.bondCounts =
      mol.bondCounts ++ [0] := rfl

theorem addAtom_idx (mol : MolecularGraph) (atom : Atom) (mk : Bool) :
    (mol.addAtom atom mk).2 = mol.atoms.length := rfl

theorem getDirBond_ok (mol : MolecularGraph) (s d : Nat)
    (bond : DirectedBond) (h : mol.getDirBond s d = .ok bond) :
    assocGet (s, d) mol.bondDict = some bond := by
  unfold MolecularGraph.getDirBond at h
  cases hg : assocGet (s, d) mol.bondDict with
  | none => rw [hg] at h; simp at h
  | some b0 => rw [hg] at h; rw [Except.ok.inj h]

theorem addBond_ok_spec (mol : MolecularGraph) (src dst : Nat) (order : HQ)
    (stereo : Option Char) (mol' : MolecularGraph)
    (h : mol.addBond src dst order stereo = .ok mol') :
    mol'.atoms = mol.atoms ∧
    mol'.bondCounts =
      listModify (listModify mol.bondCounts src (· + order)) dst
        (· + order) := by
  simp only [MolecularGraph.addBond] at h
  by_cases hge : src ≥ dst
  · rw [if_pos hge] at h
    simp at h
  · rw [if_neg hge] at h
    by_cases har : order = HQ.aromatic
    · rw [if_pos har] at h
      rw [← Except.ok.inj h]
      exact ⟨rfl, rfl⟩
    · rw [if_neg har] at h
      rw [← Except.ok.inj h]
      exact ⟨rfl, rfl⟩

theorem addRingBond_spec (mol : MolecularGraph) (a b : Nat) (order : HQ)
    (s1 s2 : Option Char) (p1 p2 : Option Nat) :
    (mol.addRingBond a b order s1 s2 p1 p2).atoms = mol.atoms ∧
    (mol.addRingBond a b order s1 s2 p1 p2).bondCounts =
      listModify (listModify mol.bondCounts a (· + order)) b
        (· + order) := by
  simp only [MolecularGraph.addRingBond]
  by_cases har : order = HQ.aromatic
  · rw [if_pos har]
    exact ⟨rfl, rfl⟩
  · rw [if_neg har]
    exact ⟨rfl, rfl⟩


theorem HQ.min_le_left (a b : HQ) : min a b ≤ a := by
  rw [HQ.min_def, HQ.le_iff]
  split <;> omega

theorem HQ.min_le_right (a b : HQ) : min a b ≤ b := by
  rw [HQ.min_def, HQ.le_iff]
  split <;> omega

theorem HQ.le_trans' (a b c : HQ) (h1 : a ≤ b) (h2 : b ≤ c) : a ≤ c := by
  rw [HQ.le_iff] at h1 h2 ⊢
  omega

theorem updateBondOrder_ok_spec (mol : MolecularGraph) (a b : Nat)
    (newOrder : HQ) (mol' : MolecularGraph)
    (h : mol.updateBondOrder a b newOrder = .ok mol') :
    mol'.atoms = mol.atoms ∧
    ∃ bond, assocGet (if a > b then ((b, a) : Nat × Nat) else (a, b))
        mol.bondDict = some bond ∧
      (mol'.bondCounts = mol.bondCounts ∨
       mol'.bondCounts =
         listModify
           (listModify mol.bondCounts
             ((if a > b then ((b, a) : Nat × Nat) else (a, b)).1)
             (· + (newOrder - bond.order)))
           ((if a > b then ((b, a) : Nat × Nat) else (a, b)).2)
           (· + (newOrder - bond.order))) := by
  by_cases hv : ¬(1 ≤ newOrder ∧ newOrder ≤ 3)
  · simp only [MolecularGraph.updateBondOrder, if_pos hv] at h
    simp at h
  · cases hg : assocGet (if a > b then ((b, a) : Nat × Nat) else (a, b))
        mol.bondDict with
    | none =>
      simp only [MolecularGraph.updateBondOrder, if_neg hv, hg] at h
      simp at h
    | some aToB =>
      by_cases heq : newOrder = aToB.order
      · simp only [MolecularGraph.updateBondOrder, if_neg hv, hg,
          if_pos heq] at h
        rw [← Except.ok.inj h]
        exact ⟨rfl, aToB, rfl, Or.inl rfl⟩
      · by_cases hrb : aToB.ringBond = true
        · cases hg2 : assocGet
              ((if a > b then ((b, a) : Nat × Nat) else (a, b)).2,
               (if a > b then ((b, a) : Nat × Nat) else (a, b)).1)
              mol.bondDict with
          | none =>
            simp only [MolecularGraph.updateBondOrder, if_neg hv, hg,
              if_neg heq, if_pos hrb, hg2] at h
            simp at h
          | some rev =>
            simp only [MolecularGraph.updateBondOrder, if_neg hv, hg,
              if_neg heq, if_pos hrb, hg2] at h
            rw [← Except.ok.inj h]
            exact ⟨rfl, aToB, rfl, Or.inr rfl⟩
        · simp only [MolecularGraph.updateBondOrder, if_neg hv, hg,
            if_neg heq, if_neg hrb] at h
          rw [← Except.ok.inj h]
          exact ⟨rfl, aToB, rfl, Or.inr rfl⟩

theorem capInv_congr (mol mol' : MolecularGraph)
    (hatoms : mol'.atoms = mol.atoms)
    (hbc : mol'.bondCounts = mol.bondCounts)
    (hinv : CapInv mol) : CapInv mol' := by
  constructor
  · rw [hbc, hatoms]
    exact hinv.len_eq
  · intro i hi
    have hi' : i < mol.length := by
      simpa [MolecularGraph.length, hatoms] using hi
    have := hinv.cap_le i hi'
    simpa [MolecularGraph.getAtom, MolecularGraph.getBondCount, hatoms,
      hbc] using this

theorem capInv_modify2 (mol mol' : MolecularGraph) (x y : Nat) (d : HQ)
    (hxy : x ≠ y)
    (hatoms : mol'.atoms = mol.atoms)
    (hbc : mol'.bondCounts =
      listModify (listModify mol.bondCounts x (· + d)) y (· + d))
    (hx : mol.getBondCount x + d ≤ (mol.getAtom x).capQ)
    (hy : mol.getBondCount y + d ≤ (mol.getAtom y).capQ)
    (hinv : CapInv mol) : CapInv mol' := by
  constructor
  · rw [hbc, hatoms, listModify_length, listModify_length]
    exact hinv.len_eq
  · intro i hi
    have hi' : i < mol.length := by
      simpa [MolecularGraph.length, hatoms] using hi
    have hibc : i < mol.bondCounts.length := by
      rw [hinv.len_eq]
      exact hi'
    have hgA : mol'.getAtom i = mol.getAtom i := by
      simp [MolecularGraph.getAtom, hatoms]
    rw [hgA]
    unfold MolecularGraph.getBondCount
    rw [hbc]
    by_cases hix : i = x
    · subst hix
      rw [listModify_getD_ne _ y i _ _ hxy,
        listModify_getD_lt _ i _ _ hibc]
      exact hx
    · by_cases hiy : i = y
      · subst hiy
        rw [listModify_getD_lt _ i _ _
            (by rw [listModify_length]; exact hibc),
          listModify_getD_ne _ x i _ _ hix]
        exact hy
      · rw [listModify_getD_ne _ y i _ _ hiy,
          listModify_getD_ne _ x i _ _ hix]
        exact hinv.cap_le i hi'

theorem formRingStep_cap (st st' : MolecularGraph × List Nat)
    (e : RingEntry) (hord : e.left ≤ e.right)
    (h : formRingStep st e = .ok st') (hinv : CapInv st.1) :
    CapInv st'.1 := by
  by_cases hlr : e.left = e.right
  · simp only [formRingStep, if_pos hlr] at h
    rw [← Except.ok.inj h]
    exact hinv
  · have hlt : e.left < e.right := lt_of_le_of_ne hord hlr
    by_cases hfree : (st.1.getAtom e.left).capQ - st.1.getBondCount e.left ≤ 0 ∨
        (st.1.getAtom e.right).capQ - st.1.getBondCount e.right ≤ 0
    · simp only [formRingStep, if_neg hlr, if_pos hfree] at h
      rw [← Except.ok.inj h]
      exact hinv
    · have hfo1 : min (min (HQ.ofNat e.order)
            ((st.1.getAtom e.left).capQ - st.1.getBondCount e.left))
            ((st.1.getAtom e.right).capQ - st.1.getBondCount e.right) ≤
          (st.1.getAtom e.left).capQ - st.1.getBondCount e.left :=
        HQ.le_trans' _ _ _ (HQ.min_le_left _ _) (HQ.min_le_right _ _)
      have hfo2 : min (min (HQ.ofNat e.order)
            ((st.1.getAtom e.left).capQ - st.1.getBondCount e.left))
            ((st.1.getAtom e.right).capQ - st.1.getBondCount e.right) ≤
          (st.1.getAtom e.right).capQ - st.1.getBondCount e.right :=
        HQ.min_le_right _ _
      by_cases hbond : st.1.hasBond e.left e.right = true
      · cases hdb : st.1.getDirBond e.left e.right with
        | error err =>
          simp only [formRingStep, if_neg hlr, if_neg hfree, if_pos hbond,
            hdb] at h
          simp at h
        | ok existing =>
          cases hub : st.1.updateBondOrder e.left e.right
              (min (min (min (HQ.ofNat e.order)
                  ((st.1.getAtom e.left).capQ - st.1.getBondCount e.left))
                  ((st.1.getAtom e.right).capQ - st.1.getBondCount e.right) +
                existing.order) 3) with
          | error err =>
            simp only [formRingStep, if_neg hlr, if_neg hfree, if_pos hbond,
              hdb, hub] at h
            simp at h
          | ok mol2 =>
            simp only [formRingStep, if_neg hlr, if_neg hfree, if_pos hbond,
              hdb, hub] at h
            have hst : st'.1 = mol2 :=
              (congrArg Prod.fst (Except.ok.inj h)).symm
            obtain ⟨hatoms, bond, hbg, hbcOr⟩ :=
              updateBondOrder_ok_spec st.1 e.left e.right _ mol2 hub
            have hnotgt : ¬ e.left > e.right := by omega
            rw [if_neg hnotgt] at hbg hbcOr
            have hbe : bond = existing := by
              have hge := getDirBond_ok _ _ _ _ hdb
              rw [hge] at hbg
              exact (Option.some.inj hbg).symm
            subst hbe
            rw [hst]
            rcases hbcOr with hbc | hbc
            · exact capInv_congr _ _ hatoms hbc hinv
            · refine capInv_modify2 st.1 mol2 e.left e.right _ (by omega)
                hatoms hbc ?_ ?_ hinv
              · have hno : min (min (min (HQ.ofNat e.order)
                      ((st.1.getAtom e.left).capQ - st.1.getBondCount e.left))
                      ((st.1.getAtom e.right).capQ -
                        st.1.getBondCount e.right) +
                    bond.order) 3 ≤
                    min (min (HQ.ofNat e.order)
                      ((st.1.getAtom e.left).capQ - st.1.getBondCount e.left))
                      ((st.1.getAtom e.right).capQ -
                        st.1.getBondCount e.right) +
                    bond.order := HQ.min_le_left _ _
                rw [HQ.le_iff, HQ.add_twice, HQ.sub_twice]
                rw [HQ.le_iff, HQ.add_twice] at hno
                rw [HQ.le_iff, HQ.sub_twice] at hfo1
                omega
              · have hno : min (min (min (HQ.ofNat e.order)
                      ((st.1.getAtom e.left).capQ - st.1.getBondCount e.left))
                      ((st.1.getAtom e.right).capQ -
                        st.1.getBondCount e.right) +
                    bond.order) 3 ≤
                    min (min (HQ.ofNat e.order)
                      ((st.1.getAtom e.left).capQ - st.1.getBondCount e.left))
                      ((st.1.getAtom e.right).capQ -
                        st.1.getBondCount e.right) +
                    bond.order := HQ.min_le_left _ _
                rw [HQ.le_iff, HQ.add_twice, HQ.sub_twice]
                rw [HQ.le_iff, HQ.add_twice] at hno
                rw [HQ.le_iff, HQ.sub_twice] at hfo2
                omega
      · simp only [formRingStep, if_neg hlr, if_neg hfree, if_neg hbond] at h
        have hst : st'.1 = st.1.addRingBond e.left e.right
            (min (min (HQ.ofNat e.order)
              ((st.1.getAtom e.left).capQ - st.1.getBondCount e.left))
              ((st.1.getAtom e.right).capQ - st.1.getBondCount e.right))
            e.stereo e.stereo (some (st.2.getD e.left 0))
            (some (st.2.getD e.right 0)) :=
          (congrArg Prod.fst (Except.ok.inj h)).symm
        obtain ⟨hatoms, hbc⟩ := addRingBond_spec st.1 e.left e.right
          (min (min (HQ.ofNat e.order)
            ((st.1.getAtom e.left).capQ - st.1.getBondCount e.left))
            ((st.1.getAtom e.right).capQ - st.1.getBondCount e.right))
          e.stereo e.stereo (some (st.2.getD e.left 0))
          (some (st.2.getD e.right 0))
        rw [hst]
        refine capInv_modify2 st.1 _ e.left e.right _ (by omega)
          hatoms hbc ?_ ?_ hinv
        · rw [HQ.le_iff, HQ.add_twice]
          rw [HQ.le_iff, HQ.sub_twice] at hfo1
          omega
        · rw [HQ.le_iff, HQ.add_twice]
          rw [HQ.le_iff, HQ.sub_twice] at hfo2
          omega

theorem foldlM_formRingStep_cap (rings : List RingEntry) :
    ∀ st st', List.foldlM formRingStep st rings = .ok st' →
      (∀ e ∈ rings, e.left ≤ e.right) → CapInv st.1 → CapInv st'.1 := by
  induction rings with
  | nil =>
    intro st st' h _ hinv
    rw [← Except.ok.inj h]
    exact hinv
  | cons e es ih =>
    intro st st' h hord hinv
    rw [List.foldlM_cons] at h
    cases hs : formRingStep st e with
    | error err =>
      rw [hs] at h
      have h2 : Except.error err = Except.ok st' := h
      exact absurd h2 (by simp)
    | ok st1 =>
      rw [hs] at h
      have h2 : List.foldlM formRingStep st1 es = .ok st' := h
      exact ih st1 st' h2
        (fun x hx => hord x (List.mem_cons_of_mem _ hx))
        (formRingStep_cap st st1 e (hord e (List.mem_cons_self _ _)) hs hinv)

theorem formRingsBilocally_cap (mol : MolecularGraph)
    (rings : List RingEntry) (mol' : MolecularGraph)
    (h : formRingsBilocally mol rings = .ok mol')
    (hord : ∀ e ∈ rings, e.left ≤ e.right) (hinv : CapInv mol) :
    CapInv mol' := by
  unfold formRingsBilocally at h
  by_cases hir : hasInvalidRings rings = true
  · rw [if_pos hir] at h
    rw [← Except.ok.inj h]
    exact hinv
  · rw [if_neg hir] at h
    simp only [formRingsLenient] at h
    cases hf : List.foldlM formRingStep
        (mol, List.replicate mol.length 0) rings with
    | error err => rw [hf] at h; simp at h
    | ok stf =>
      rw [hf] at h
      have h2 : Except.ok stf.1 = Except.ok mol' := h
      rw [← Except.ok.inj h2]
      exact foldlM_formRingStep_cap rings _ _ hf hord hinv

theorem getD_append_singleton_le {k : Nat} (bc : List HQ) (n : Nat) :
    (bc ++ [0]).getD k 0 ≤ bc.getD k 0 + HQ.ofNat n := by
  by_cases hk1 : k < bc.length
  · rw [getD_append_lt _ _ _ _ hk1, HQ.le_iff, HQ.add_twice, HQ.ofNat_twice]
    omega
  · rw [List.getD_append_right _ _ _ _ (by omega),
      List.getD_eq_default _ _ (by omega : bc.length ≤ k)]
    have h0 : ([(0 : HQ)] : List HQ).getD (k - bc.length) 0 = 0 := by
      cases hkk : k - bc.length with
      | zero => rfl
      | succ m => rfl
    rw [h0, HQ.le_iff, HQ.add_twice, HQ.ofNat_twice, HQ.zero_twice]
    omega

theorem capPost_addAtom (mol : MolecularGraph) (atom : Atom) (mk : Bool)
    (prevAtom : Option PrevAtom) (n : Nat)
    (hinv : CapInv mol) (hcap : 0 ≤ atom.bondingCapacity) :
    CapPost prevAtom n mol (mol.addAtom atom mk).1 := by
  refine ⟨⟨?_, ?_⟩, ?_, ?_, ?_, ?_⟩
  · rw [addAtom_bondCounts, addAtom_atoms]
    simp [hinv.len_eq]
  · intro i hi
    rw [MolecularGraph.length, addAtom_atoms, List.length_append] at hi
    simp only [List.length_singleton] at hi
    unfold MolecularGraph.getAtom MolecularGraph.getBondCount
    rw [addAtom_bondCounts, addAtom_atoms]
    by_cases hilt : i < mol.atoms.length
    · rw [getD_append_lt _ _ _ _ hilt,
        getD_append_lt _ _ _ _ (by rw [hinv.len_eq]; exact hilt)]
      exact hinv.cap_le i hilt
    · have hieq : i = mol.atoms.length := by omega
      subst hieq
      rw [getD_append_len]
      rw [show mol.atoms.length = mol.bondCounts.length from
        hinv.len_eq.symm, getD_append_len]
      rw [HQ.le_iff, HQ.zero_twice]
      unfold Atom.capQ
      rw [HQ.ofInt_twice]
      omega
  · rw [MolecularGraph.length, MolecularGraph.length, addAtom_atoms]
    simp
  · intro i hi
    unfold MolecularGraph.getAtom
    rw [addAtom_atoms, getD_append_lt _ _ _ _ hi]
  · intro j hj _
    unfold MolecularGraph.getBondCount
    rw [addAtom_bondCounts,
      getD_append_lt _ _ _ _ (by rw [hinv.len_eq]; exact hj)]
  · intro k _
    unfold MolecularGraph.getBondCount
    rw [addAtom_bondCounts]
    exact getD_append_singleton_le mol.bondCounts n

theorem processAtomSymbol_cap (symbol : Chars) (bi : Nat × Option Char)
    (atom : Atom) (h : processAtomSymbol symbol = some (bi, atom)) :
    0 ≤ atom.bondingCapacity := by
  unfold processAtomSymbol at h
  cases hp : processAtomSelfiesNoCache symbol with
  | none => rw [hp] at h; simp at h
  | some v =>
    rw [hp] at h
    by_cases hc : v.2.bondingCapacity < 0
    · rw [show v = (v.1, v.2) from rfl] at h
      simp only [if_pos hc] at h
      simp at h
    · rw [show v = (v.1, v.2) from rfl] at h
      simp only [if_neg hc] at h
      have h2 := Option.some.inj h
      simp only [Prod.mk.injEq] at h2
      rw [← h2.2]
      omega

theorem HQ.eq_of_twice (a b : HQ) (h : a.twice = b.twice) : a = b := by
  cases a
  cases b
  cases h
  rfl

theorem deriveAtomStep_cap (mol : MolecularGraph) (state : DState)
    (prevAtom : Option PrevAtom) (bondInfo : Nat × Option Char)
    (atom : Atom) (mol' : MolecularGraph) (ns : DState)
    (pa' : Option PrevAtom)
    (hok : deriveAtomStep mol state prevAtom bondInfo atom =
      .ok (mol', ns, pa'))
    (hinv : CapInv mol) (hprev : PrevInv state prevAtom mol)
    (hcap : 0 ≤ atom.bondingCapacity) :
    CapPost prevAtom (stOr0 state) mol mol' ∧
    PrevInv ns pa' mol' ∧
    (∀ m, touchedIdx pa' = some m → mol.length ≤ m) := by
  have hfoc : (nextAtomState bondInfo.1 atom.bondingCapacity.toNat state).1 ≤
      atom.bondingCapacity.toNat := by
    simp only [nextAtomState]
    exact Nat.min_le_right _ _
  have hfos : (nextAtomState bondInfo.1 atom.bondingCapacity.toNat state).1 ≤
      stOr0 state := by
    simp only [nextAtomState]
    exact le_trans (Nat.min_le_left _ _) (Nat.min_le_right _ _)
  have hnsv : stOr0 (nextAtomState bondInfo.1 atom.bondingCapacity.toNat
        state).2 =
      atom.bondingCapacity.toNat -
        (nextAtomState bondInfo.1 atom.bondingCapacity.toNat state).1 := by
    simp only [nextAtomState]
    exact stOr0_ite _
  have hnewPrev : ∀ mk : Bool,
      PrevInv (nextAtomState bondInfo.1 atom.bondingCapacity.toNat state).2
        (some ⟨atom, some (mol.addAtom atom mk).2⟩)
        (mol.addAtom atom mk).1 := by
    intro mk k hk
    simp only [touchedIdx] at hk
    have hk2 : k = (mol.addAtom atom mk).2 := (Option.some.inj hk).symm
    subst hk2
    have hcount0 : (mol.addAtom atom mk).1.getBondCount
        (mol.addAtom atom mk).2 = 0 := by
      unfold MolecularGraph.getBondCount
      rw [addAtom_idx, addAtom_bondCounts,
        show mol.atoms.length = mol.bondCounts.length from hinv.len_eq.symm,
        getD_append_len]
    have hatomA : (mol.addAtom atom mk).1.getAtom
        (mol.addAtom atom mk).2 = atom := by
      unfold MolecularGraph.getAtom
      rw [addAtom_idx, addAtom_atoms, getD_append_len]
    constructor
    · rw [addAtom_idx, MolecularGraph.length, addAtom_atoms]
      simp
    · rw [hcount0, hatomA, HQ.le_iff, HQ.add_twice, HQ.zero_twice,
        HQ.ofNat_twice, hnsv]
      unfold Atom.capQ
      rw [HQ.ofInt_twice]
      omega
  have hnewHigh : ∀ mk : Bool, ∀ m,
      touchedIdx (some (⟨atom, some (mol.addAtom atom mk).2⟩ : PrevAtom)) =
        some m → mol.length ≤ m := by
    intro mk m hm2
    simp only [touchedIdx] at hm2
    rw [← Option.some.inj hm2, addAtom_idx]
    exact le_refl _
  simp only [deriveAtomStep] at hok
  by_cases hfo0 : (nextAtomState bondInfo.1 atom.bondingCapacity.toNat
      state).1 = 0
  · rw [if_pos hfo0] at hok
    by_cases hs0 : state = some 0
    · rw [if_pos hs0] at hok
      have htr := Except.ok.inj hok
      simp only [Prod.mk.injEq] at htr
      obtain ⟨hm, hn, hp⟩ := htr
      subst hm
      subst hn
      subst hp
      exact ⟨capPost_addAtom mol atom true prevAtom _ hinv hcap,
        hnewPrev true, hnewHigh true⟩
    · rw [if_neg hs0] at hok
      have htr := Except.ok.inj hok
      simp only [Prod.mk.injEq] at htr
      obtain ⟨hm, hn, hp⟩ := htr
      subst hm
      subst hn
      subst hp
      refine ⟨capPost_refl _ _ _ hinv, ?_, ?_⟩
      · intro k hk
        simp only [touchedIdx] at hk
        exact absurd hk (by simp)
      · intro m hm2
        simp only [touchedIdx] at hm2
        exact absurd hm2 (by simp)
  · rw [if_neg hfo0] at hok
    cases prevAtom with
    | none =>
      have htr := Except.ok.inj hok
      simp only [Prod.mk.injEq] at htr
      obtain ⟨hm, hn, hp⟩ := htr
      subst hm
      subst hn
      subst hp
      exact ⟨capPost_addAtom mol atom false none _ hinv hcap,
        hnewPrev false, hnewHigh false⟩
    | some p =>
      cases hpidx : p.idx with
      | none =>
        simp only [hpidx] at hok
        have htr := Except.ok.inj hok
        simp only [Prod.mk.injEq] at htr
        obtain ⟨hm, hn, hp⟩ := htr
        subst hm
        subst hn
        subst hp
        exact ⟨capPost_addAtom mol atom false (some p) _ hinv hcap,
          hnewPrev false, hnewHigh false⟩
      | some srcIdx =>
        obtain ⟨hsrclt, hsrcle⟩ := hprev srcIdx (by simp [touchedIdx, hpidx])
        have hlt : srcIdx < mol.atoms.length := hsrclt
        simp only [hpidx] at hok
        rw [addAtom_idx, min_eq_left (le_of_lt hlt),
          max_eq_right (le_of_lt hlt)] at hok
        cases hab : (mol.addAtom atom false).1.addBond srcIdx
            mol.atoms.length
            (HQ.ofNat (nextAtomState bondInfo.1
              atom.bondingCapacity.toNat state).1) bondInfo.2 with
        | error err =>
          simp only [hab] at hok
          simp at hok
        | ok mol2 =>
          simp only [hab] at hok
          have htr := Except.ok.inj hok
          simp only [Prod.mk.injEq] at htr
          obtain ⟨hm, hn, hp⟩ := htr
          subst hm
          subst hn
          subst hp
          obtain ⟨habatoms, habbc⟩ := addBond_ok_spec
            (mol.addAtom atom false).1 srcIdx mol.atoms.length
            (HQ.ofNat (nextAtomState bondInfo.1
              atom.bondingCapacity.toNat state).1) bondInfo.2 mol2 hab
          have hinvAA : CapInv (mol.addAtom atom false).1 :=
            (capPost_addAtom mol atom false none 0 hinv hcap).1
          have hm1count : (mol.addAtom atom false).1.getBondCount srcIdx =
              mol.getBondCount srcIdx := by
            unfold MolecularGraph.getBondCount
            rw [addAtom_bondCounts,
              getD_append_lt _ _ _ _ (by rw [hinv.len_eq]; exact hlt)]
          have hm1atom : (mol.addAtom atom false).1.getAtom srcIdx =
              mol.getAtom srcIdx := by
            unfold MolecularGraph.getAtom
            rw [addAtom_atoms, getD_append_lt _ _ _ _ hlt]
          have hm1countN : (mol.addAtom atom false).1.getBondCount
              mol.atoms.length = 0 := by
            unfold MolecularGraph.getBondCount
            rw [addAtom_bondCounts,
              show mol.atoms.length = mol.bondCounts.length from
                hinv.len_eq.symm, getD_append_len]
          have hm1atomN : (mol.addAtom atom false).1.getAtom
              mol.atoms.length = atom := by
            unfold MolecularGraph.getAtom
            rw [addAtom_atoms, getD_append_len]
          have hinv2 : CapInv mol2 := by
            refine capInv_modify2 (mol.addAtom atom false).1 mol2 srcIdx
              mol.atoms.length _ (by omega) habatoms habbc ?_ ?_ hinvAA
            · rw [hm1count, hm1atom, HQ.le_iff, HQ.add_twice,
                HQ.ofNat_twice]
              rw [HQ.le_iff, HQ.add_twice, HQ.ofNat_twice] at hsrcle
              omega
            · rw [hm1countN, hm1atomN, HQ.le_iff, HQ.add_twice,
                HQ.zero_twice, HQ.ofNat_twice]
              unfold Atom.capQ
              rw [HQ.ofInt_twice]
              omega
          have hc1 : mol2.getBondCount srcIdx = mol.getBondCount srcIdx +
              HQ.ofNat (nextAtomState bondInfo.1
                atom.bondingCapacity.toNat state).1 := by
            unfold MolecularGraph.getBondCount
            rw [habbc,
              listModify_getD_ne _ mol.atoms.length srcIdx _ _ (by omega),
              listModify_getD_lt _ _ _ _ (by
                rw [addAtom_bondCounts, List.length_append, hinv.len_eq]
                simp
                omega)]
            rw [show (mol.addAtom atom false).1.bondCounts.getD srcIdx 0 =
              mol.getBondCount srcIdx from hm1count]
            rfl
          have hc2 : mol2.getBondCount mol.atoms.length =
              HQ.ofNat (nextAtomState bondInfo.1
                atom.bondingCapacity.toNat state).1 := by
            unfold MolecularGraph.getBondCount
            rw [habbc,
              listModify_getD_lt _ _ _ _ (by
                rw [listModify_length, addAtom_bondCounts,
                  List.length_append, hinv.len_eq]
                simp),
              listModify_getD_ne _ srcIdx mol.atoms.length _ _ (by omega)]
            rw [show (mol.addAtom atom false).1.bondCounts.getD
              mol.atoms.length 0 = 0 from hm1countN]
            exact HQ.eq_of_twice _ _ (by
              rw [HQ.add_twice, HQ.zero_twice]
              omega)
          have hc3 : ∀ j, j < mol.atoms.length → j ≠ srcIdx →
              mol2.getBondCount j = mol.getBondCount j := by
            intro j hj hjs
            unfold MolecularGraph.getBondCount
            rw [habbc, listModify_getD_ne _ _ _ _ _ (by omega),
              listModify_getD_ne _ _ _ _ _ hjs, addAtom_bondCounts,
              getD_append_lt _ _ _ _ (by rw [hinv.len_eq]; exact hj)]
          have hatom2 : ∀ i, i < mol.atoms.length →
              mol2.getAtom i = mol.getAtom i := by
            intro i hi
            unfold MolecularGraph.getAtom
            rw [habatoms, addAtom_atoms, getD_append_lt _ _ _ _ hi]
          have hatomN : mol2.getAtom mol.atoms.length = atom := by
            unfold MolecularGraph.getAtom
            rw [habatoms, addAtom_atoms, getD_append_len]
          have hlen2 : mol2.length = mol.atoms.length + 1 := by
            rw [MolecularGraph.length, habatoms, addAtom_atoms,
              List.length_append]
            rfl
          refine ⟨⟨hinv2, ?_, hatom2, ?_, ?_⟩, ?_, ?_⟩
          · rw [hlen2]
            exact Nat.le_add_right _ 1
          · intro j hj htj
            have hjs : j ≠ srcIdx := by
              intro he
              exact htj (by simp [touchedIdx, hpidx, he])
            exact hc3 j hj hjs
          · intro k hk
            have hks : k = srcIdx := by
              simp only [touchedIdx, hpidx] at hk
              exact (Option.some.inj hk).symm
            subst hks
            rw [hc1, HQ.le_iff, HQ.add_twice, HQ.add_twice,
              HQ.ofNat_twice, HQ.ofNat_twice]
            omega
          · intro k hk
            simp only [touchedIdx] at hk
            have hk2 : k = mol.atoms.length := (Option.some.inj hk).symm
            subst hk2
            constructor
            · rw [hlen2]
              simp
            · rw [hc2, hatomN, HQ.le_iff, HQ.add_twice, HQ.ofNat_twice,
                HQ.ofNat_twice, hnsv]
              unfold Atom.capQ
              rw [HQ.ofInt_twice]
              omega
          · intro m hm2
            simp only [touchedIdx] at hm2
            rw [← Option.some.inj hm2]
            exact le_refl _

/-- The ring-queue extension performed by a ring symbol (the
`let rings := match prevAtom ...` block of the Ring case), factored out
for the invariant proofs. -/
def ringAppend (prevAtom : Option PrevAtom) (rings : List RingEntry)
    (Q ro : Nat) (stc : Option Char) : List RingEntry :=
  match prevAtom with
  | some p =>
    match p.idx with
    | some pidx => rings ++ [⟨pidx - (Q + 1), pidx, ro, stc⟩]
    | none => rings
  | none => rings

theorem prevInv_mono (s1 s2 : DState) (prevAtom : Option PrevAtom)
    (mol : MolecularGraph) (hle : stOr0 s1 ≤ stOr0 s2)
    (h : PrevInv s2 prevAtom mol) : PrevInv s1 prevAtom mol := by
  intro k hk
  obtain ⟨h1, h2⟩ := h k hk
  refine ⟨h1, ?_⟩
  rw [HQ.le_iff, HQ.add_twice, HQ.ofNat_twice] at h2 ⊢
  omega

theorem deriveMol_cap (fuel : Nat) :
    ∀ (syms : List Chars) (maxD : Option Nat) (nD : Nat) (state : DState)
      (prevAtom : Option PrevAtom) (mol : MolecularGraph)
      (rings : List RingEntry) (r : DeriveRes),
      deriveMol fuel syms maxD nD state prevAtom mol rings = .ok r →
      CapInv mol → PrevInv state prevAtom mol →
      (∀ e ∈ rings, e.left ≤ e.right) →
      CapPost prevAtom (stOr0 state) mol r.mol ∧
      (∀ e ∈ r.rings, e.left ≤ e.right) := by
  induction fuel with
  | zero =>
    intro syms maxD nD state prevAtom mol rings r hok hinv hprev hord
    simp [deriveMol] at hok
  | succ fuel ih =>
    intro syms maxD nD state prevAtom mol rings r hok hinv hprev hord
    by_cases hBudget : budgetReached maxD nD = true
    · simp only [deriveMol, if_pos hBudget] at hok
      have htr := Except.ok.inj hok
      exact ⟨by rw [← htr]; exact capPost_refl _ _ _ hinv,
        by rw [← htr]; exact hord⟩
    · cases syms with
      | nil =>
        simp only [deriveMol, if_neg hBudget] at hok
        have htr := Except.ok.inj hok
        exact ⟨by rw [← htr]; exact capPost_refl _ _ _ hinv,
          by rw [← htr]; exact hord⟩
      | cons symbol rest =>
        simp only [deriveMol, if_neg hBudget] at hok
        by_cases hB : containsSub symbol ("Branch".toList) = true
        · rw [if_pos hB] at hok
          cases hbs : processBranchSymbol symbol with
          | none =>
            simp only [hbs] at hok
            exact absurd hok (by simp)
          | some bt =>
            obtain ⟨btype, n⟩ := bt
            simp only [hbs] at hok
            cases state with
            | none =>
              exact ih rest maxD (nD + 1) none prevAtom mol rings r hok
                hinv hprev hord
            | some st =>
              replace hok : (if st ≤ 1 then
                  deriveMol fuel rest maxD (nD + 1) (some st) prevAtom mol
                    rings
                else
                  match deriveMol fuel (rest.drop n)
                      (some (getIndexFromSelfies (rest.take n) + 1)) 0
                      (some (nextBranchState btype st).1) prevAtom mol
                      rings with
                  | .error e => .error e
                  | .ok inner =>
                    deriveMol fuel inner.rest maxD
                      (nD + 1 + n + inner.nDerived)
                      (nextBranchState btype st).2 prevAtom inner.mol
                      inner.rings) = .ok r := hok
              by_cases hst1 : st ≤ 1
              · rw [if_pos hst1] at hok
                exact ih rest maxD (nD + 1) (some st) prevAtom mol rings r
                  hok hinv hprev hord
              · rw [if_neg hst1] at hok
                have hb1 : (nextBranchState btype st).1 ≤ st - 1 := by
                  simp only [nextBranchState]
                  exact Nat.min_le_left _ _
                have hb2 : stOr0 (nextBranchState btype st).2 =
                    st - (nextBranchState btype st).1 := by
                  simp only [nextBranchState]
                  exact stOr0_ite _
                cases hinner : deriveMol fuel (rest.drop n)
                    (some (getIndexFromSelfies (rest.take n) + 1)) 0
                    (some (nextBranchState btype st).1) prevAtom mol
                    rings with
                | error e =>
                  rw [hinner] at hok
                  exact absurd hok (by simp)
                | ok inner =>
                  rw [hinner] at hok
                  replace hok : deriveMol fuel inner.rest maxD
                      (nD + 1 + n + inner.nDerived)
                      (nextBranchState btype st).2 prevAtom inner.mol
                      inner.rings = .ok r := hok
                  have hprevInner : PrevInv
                      (some (nextBranchState btype st).1) prevAtom mol :=
                    prevInv_mono _ _ _ _ (by simp only [stOr0]; omega)
                      hprev
                  obtain ⟨hpostI, hordI⟩ := ih _ _ _ _ _ _ _ _ hinner hinv
                    hprevInner hord
                  simp only [stOr0] at hpostI
                  have hprevCont : PrevInv (nextBranchState btype st).2
                      prevAtom inner.mol := by
                    intro k hk
                    obtain ⟨hk1, hk2⟩ := hprev k hk
                    obtain ⟨hCI, hlenI, hatomsI, hstabI, hboundI⟩ := hpostI
                    refine ⟨lt_of_lt_of_le hk1 hlenI, ?_⟩
                    have hbnd := hboundI k hk
                    rw [hatomsI k hk1]
                    rw [HQ.le_iff, HQ.add_twice, HQ.ofNat_twice] at hk2
                    rw [HQ.le_iff, HQ.add_twice, HQ.ofNat_twice] at hbnd
                    rw [HQ.le_iff, HQ.add_twice, HQ.ofNat_twice]
                    rw [hb2]
                    simp only [stOr0] at hk2
                    omega
                  obtain ⟨hpostC, hordC⟩ := ih _ _ _ _ _ _ _ _ hok
                    hpostI.1 hprevCont hordI
                  rw [hb2] at hpostC
                  constructor
                  · simp only [stOr0]
                    exact capPost_comp prevAtom
                      (nextBranchState btype st).1
                      (st - (nextBranchState btype st).1) st _ _ _
                      (by omega) hpostI hpostC
                  · exact hordC
        · rw [if_neg hB] at hok
          by_cases hR : containsSub symbol ("Ring".toList) = true
          · rw [if_pos hR] at hok
            cases hrs : processRingSymbol symbol with
            | none =>
              simp only [hrs] at hok
              exact absurd hok (by simp)
            | some v =>
              obtain ⟨rt, n, stereo⟩ := v
              simp only [hrs] at hok
              cases state with
              | none =>
                exact ih rest maxD (nD + 1) none prevAtom mol rings r hok
                  hinv hprev hord
              | some st =>
                replace hok : (if st = 0 then
                    deriveMol fuel rest maxD (nD + 1) (some st) prevAtom
                      mol rings
                  else
                    deriveMol fuel (rest.drop n) maxD (nD + 1 + n)
                      (nextRingState rt st).2 prevAtom mol
                      (ringAppend prevAtom rings
                        (getIndexFromSelfies (rest.take n))
                        (nextRingState rt st).1 stereo.1)) = .ok r := hok
                by_cases hst0 : st = 0
                · rw [if_pos hst0] at hok
                  exact ih rest maxD (nD + 1) (some st) prevAtom mol rings
                    r hok hinv hprev hord
                · rw [if_neg hst0] at hok
                  have hr2 : stOr0 (nextRingState rt st).2 =
                      st - (nextRingState rt st).1 := by
                    simp only [nextRingState]
                    exact stOr0_ite _
                  have hord' : ∀ e ∈ ringAppend prevAtom rings
                      (getIndexFromSelfies (rest.take n))
                      (nextRingState rt st).1 stereo.1,
                      e.left ≤ e.right := by
                    unfold ringAppend
                    cases prevAtom with
                    | none => exact hord
                    | some p =>
                      cases hpidx : p.idx with
                      | none =>
                        simp only [hpidx]
                        exact hord
                      | some pidx =>
                        simp only [hpidx]
                        intro e he
                        rcases List.mem_append.mp he with h | h
                        · exact hord e h
                        · have he2 := List.mem_singleton.mp h
                          subst he2
                          exact Nat.sub_le _ _
                  have hprevR : PrevInv (nextRingState rt st).2 prevAtom
                      mol :=
                    prevInv_mono _ _ _ _
                      (by rw [hr2]; simp only [stOr0]; omega) hprev
                  obtain ⟨hpostC, hordC⟩ := ih _ _ _ _ _ _ _ _ hok hinv
                    hprevR hord'
                  rw [hr2] at hpostC
                  constructor
                  · simp only [stOr0]
                    exact capPost_mono prevAtom _ _ _ _ (Nat.sub_le _ _)
                      hpostC
                  · exact hordC
          · rw [if_neg hR] at hok
            by_cases hE : containsSub symbol ("eps".toList) = true
            · rw [if_pos hE] at hok
              have hle0 : stOr0 (if state = some 0 then (some 0 : DState)
                  else none) ≤ stOr0 state := by
                by_cases hs0 : state = some 0
                · rw [if_pos hs0, hs0]
                · rw [if_neg hs0]
                  simp [stOr0]
              have hprev' : PrevInv
                  (if state = some 0 then (some 0 : DState) else none)
                  prevAtom mol :=
                prevInv_mono _ _ _ _ hle0 hprev
              obtain ⟨hpostC, hordC⟩ := ih _ _ _ _ _ _ _ _ hok hinv hprev'
                hord
              exact ⟨capPost_mono prevAtom _ _ _ _ hle0 hpostC, hordC⟩
            · rw [if_neg hE] at hok
              cases has : processAtomSymbol symbol with
              | none =>
                simp only [has] at hok
                exact absurd hok (by simp)
              | some v =>
                obtain ⟨bi, atom⟩ := v
                simp only [has] at hok
                cases hstep : deriveAtomStep mol state prevAtom bi atom with
                | error e =>
                  simp only [hstep] at hok
                  exact absurd hok (by simp)
                | ok trip =>
                  obtain ⟨mol2, ns2, pa2⟩ := trip
                  simp only [hstep] at hok
                  have hcap2 := processAtomSymbol_cap symbol bi atom has
                  obtain ⟨hstepPost, hstepPrev, hstepHigh⟩ :=
                    deriveAtomStep_cap mol state prevAtom bi atom mol2 ns2
                      pa2 hstep hinv hprev hcap2
                  obtain ⟨hpostC, hordC⟩ := ih _ _ _ _ _ _ _ _ hok
                    hstepPost.1 hstepPrev hord
                  refine ⟨capPost_comp_shift prevAtom pa2 (stOr0 state)
                    (stOr0 ns2) mol mol2 r.mol
                    (fun k hk => (hprev k hk).1) hstepHigh hstepPost
                    hpostC, hordC⟩

theorem decodeFragment_cap (acc acc' : MolecularGraph × List RingEntry)
    (f : List Char) (h : decodeFragment acc f = .ok acc')
    (hinv : CapInv acc.1) (hord : ∀ e ∈ acc.2, e.left ≤ e.right) :
    CapInv acc'.1 ∧ (∀ e ∈ acc'.2, e.left ≤ e.right) := by
  unfold decodeFragment at h
  cases ht : tokenizeSelfies f with
  | error e =>
    simp only [ht] at h
    exact absurd (show (Except.error e :
      Except DecErr (MolecularGraph × List RingEntry)) = .ok acc' from h)
      (by simp)
  | ok toks =>
    simp only [ht] at h
    cases hd : deriveMol (toks.length + 1) toks none 0 (some 0) none acc.1
        acc.2 with
    | error e =>
      simp only [hd] at h
      exact absurd (show (Except.error e :
        Except DecErr (MolecularGraph × List RingEntry)) = .ok acc' from h)
        (by simp)
    | ok r =>
      simp only [hd] at h
      have h2 : Except.ok ((r.mol, r.rings) :
          MolecularGraph × List RingEntry) = .ok acc' := h
      obtain ⟨hpost, hordR⟩ := deriveMol_cap (toks.length + 1) toks none 0
        (some 0) none acc.1 acc.2 r hd hinv
        (fun k hk => absurd hk (by simp [touchedIdx])) hord
      rw [← Except.ok.inj h2]
      exact ⟨hpost.1, hordR⟩

theorem decodeFragments_cap (fs : List (List Char)) :
    ∀ acc acc', decodeFragments acc fs = .ok acc' →
      CapInv acc.1 → (∀ e ∈ acc.2, e.left ≤ e.right) →
      CapInv acc'.1 ∧ (∀ e ∈ acc'.2, e.left ≤ e.right) := by
  induction fs with
  | nil =>
    intro acc acc' h hinv hord
    have h2 : Except.ok acc = .ok acc' := h
    rw [← Except.ok.inj h2]
    exact ⟨hinv, hord⟩
  | cons f fs ihf =>
    intro acc acc' h hinv hord
    simp only [decodeFragments] at h
    by_cases hf : f = []
    · rw [if_pos hf] at h
      exact ihf acc acc' h hinv hord
    · rw [if_neg hf] at h
      cases hdf : decodeFragment acc f with
      | error e =>
        simp only [hdf] at h
        exact absurd (show (Except.error e :
          Except DecErr (MolecularGraph × List RingEntry)) = .ok acc'
          from h) (by simp)
      | ok acc1 =>
        simp only [hdf] at h
        obtain ⟨hinv1, hord1⟩ := decodeFragment_cap acc acc1 f hdf hinv
          hord
        exact ihf acc1 acc' h hinv1 hord1

theorem decoderCore_cap (s : List Char) (mol : MolecularGraph)
    (h : decoderCore s = .ok mol) :
    ∀ i, i < mol.length → mol.getBondCount i ≤ (mol.getAtom i).capQ := by
  unfold decoderCore at h
  cases hd : decodeFragments ({}, []) (splitOnDot s) with
  | error e =>
    simp only [hd] at h
    exact absurd (show (Except.error e :
      Except DecErr MolecularGraph) = .ok mol from h) (by simp)
  | ok acc =>
    simp only [hd] at h
    have h2 : formRingsBilocally acc.1 acc.2 = .ok mol := h
    have hinv0 : CapInv ({} : MolecularGraph) :=
      ⟨rfl, fun i hi => absurd hi (Nat.not_lt_zero i)⟩
    obtain ⟨hinvA, hordA⟩ := decodeFragments_cap (splitOnDot s) ({}, [])
      acc hd hinv0 (fun e he => absurd he (List.not_mem_nil e))
    exact (formRingsBilocally_cap acc.1 acc.2 mol h2 hordA hinvA).cap_le

/-- Claim C2: the bonding-capacity invariant.  During derivation, from
any graph satisfying the basic invariant with a state within the
previous atom's free capacity and a well-ordered ring queue, every atom
of the resulting graph has a bond count within its bonding capacity;
and after deferred ring resolution, every atom of every decoder output
graph satisfies `bondCount(atom) ≤ bondingCapacity(atom)`. -/
theorem claim_C2_capacity :
    (∀ (fuel : Nat) (syms : List Chars) (maxD : Option Nat) (nD : Nat)
        (state : DState) (prevAtom : Option PrevAtom)
        (mol : MolecularGraph) (rings : List RingEntry) (r : DeriveRes),
        deriveMol fuel syms maxD nD state prevAtom mol rings = .ok r →
        CapInv mol → PrevInv state prevAtom mol →
        (∀ e ∈ rings, e.left ≤ e.right) →
        ∀ i, i < r.mol.length →
          r.mol.getBondCount i ≤ (r.mol.getAtom i).capQ) ∧
    (∀ (s : List Char) (mol : MolecularGraph), decoderCore s = .ok mol →
        ∀ i, i < mol.length →
          mol.getBondCount i ≤ (mol.getAtom i).capQ) := by
  constructor
  · intro fuel syms maxD nD state prevAtom mol rings r hok hinv hprev hord
    exact (deriveMol_cap fuel syms maxD nD state prevAtom mol rings r hok
      hinv hprev hord).1.1.cap_le
  · exact decoderCore_cap

/-- The decoder output graph for the SELFIES string `"[C]"`. -/
def c2mol : MolecularGraph :=
  { roots := [0],
    atoms := [{ element := ['C'], isAromatic := false }],
    bondDict := [],
    adjList := [[]],
    bondCounts := [0],
    ringBondFlags := [false],
    delocalSubgraph := [] }

/-- Claim C2, witness: both halves applied at concrete inputs — the
one-symbol derivation of `"[C]"` from the empty graph, and the decoder
output for `"[C]"`. -/
theorem claim_C2_capacity_witness :
    deriveMol 2 [("[C]".toList)] none 0 (some 0) none {} [] =
      .ok ⟨c2mol, [], [], 1⟩ ∧
    decoderCore ("[C]".toList) = .ok c2mol ∧
    c2mol.getBondCount 0 ≤ (c2mol.getAtom 0).capQ := by
  refine ⟨by decide, by decide, ?_⟩
  exact claim_C2_capacity.1 2 [("[C]".toList)] none 0 (some 0) none {} []
    ⟨c2mol, [], [], 1⟩ (by decide)
    ⟨rfl, fun i hi => absurd hi (Nat.not_lt_zero i)⟩
    (fun k hk => absurd hk (by simp [touchedIdx]))
    (fun e he => absurd he (List.not_mem_nil e)) 0 (by decide)

/-! ## Claim C1: decoder totality over the semantic robust alphabet -/

/-- `Set.prototype.add` over an insertion-ordered list of symbols. -/
def setAdd (s : List Chars) (x : Chars) : List Chars :=
  if x ∈ s then s else s ++ [x]

/-- The `bonds` table of `getSemanticRobustAlphabet`
(src/decoder.ts): bond prefix and multiplicity. -/
def robustBonds : List (Chars × Int) :=
  [([], 1), (['='], 2), (['#'], 3)]

/-- The regex `^\[([=#]?)([A-Z][a-z]?)\]$` of `getSemanticRobustAlphabet`:
an optional bond character followed by a one- or two-letter element. -/
def idxSymbolParse (symbol : Chars) : Option (Chars × Chars) :=
  match symbol with
  | [] => none
  | c0 :: rest =>
    if c0 = '[' then
      let bondChar : Chars :=
        if rest.head? = some '=' then ['=']
        else if rest.head? = some '#' then ['#'] else []
      let rest2 := if bondChar = [] then rest else rest.tail
      match rest2 with
      | c1 :: rest3 =>
        if c1.isUpper then
          match rest3 with
          | [c2] => if c2 = ']' then some (bondChar, [c1]) else none
          | [c2, c3] =>
            if c2.isLower ∧ c3 = ']' then some (bondChar, [c1, c2])
            else none
          | _ => none
        else none
      | [] => none
    else none

/-- `currentConstraints[atom] ?? currentConstraints['?']` under the
default constraints. -/
def constraintLookup (atom : Chars) : Int :=
  (assocGet atom DEFAULT_CONSTRAINTS).getD
    ((assocGet ("?".toList) DEFAULT_CONSTRAINTS).getD 0)

/-- The `getSemanticRobustAlphabet` function of src/decoder.ts under the
default semantic constraints: atom symbols whose bond multiplicity fits
the constraint table, the ring and branch symbol families, and the
index-alphabet symbols that satisfy the constraints. -/
def getSemanticRobustAlphabet : List Chars :=
  let s1 := DEFAULT_CONSTRAINTS.foldl (fun acc kv =>
    robustBonds.foldl (fun acc bv =>
      if bv.2 > kv.2 ∨ kv.1 = ("?".toList) then acc
      else setAdd acc ('[' :: (bv.1 ++ kv.1 ++ [']']))) acc) []
  let s2 := [1, 2, 3].foldl (fun acc i =>
    let dI := Char.ofNat (48 + i)
    let acc := setAdd acc ('[' :: ("Ring".toList ++ [dI, ']']))
    let acc := setAdd acc ('[' :: '=' :: ("Ring".toList ++ [dI, ']']))
    let acc := setAdd acc ('[' :: ("Branch".toList ++ [dI, ']']))
    let acc := setAdd acc ('[' :: '=' :: ("Branch".toList ++ [dI, ']']))
    setAdd acc ('[' :: '#' :: ("Branch".toList ++ [dI, ']']))) s1
  INDEX_ALPHABET.foldl (fun acc symbol =>
    match idxSymbolParse symbol with
    | some bv =>
      let multiplicity : Int :=
        if bv.1 = ['='] then 2 else if bv.1 = ['#'] then 3 else 1
      if multiplicity ≤ constraintLookup bv.2 then setAdd acc symbol
      else acc
    | none => setAdd acc symbol) s2

/-- Boolean body check behind `WFSymP`: non-empty, ends in `]`, and
clean before that. -/
def wfBodyB : Chars → Bool
  | [] => false
  | [c] => c = ']'
  | c :: c2 :: rest =>
    !(c = '[' || c = ']' || c = '.') && wfBodyB (c2 :: rest)

/-- Boolean form of `WFSymP`. -/
def wfSymB (t : Chars) : Bool :=
  match t with
  | [] => false
  | c :: rest => c = '[' && wfBodyB rest

theorem wfBodyB_wf : ∀ rest, wfBodyB rest = true →
    ∃ body, rest = body ++ [']'] ∧ CleanBody body := by
  intro rest
  induction rest with
  | nil => simp [wfBodyB]
  | cons c rest ih =>
    cases rest with
    | nil =>
      intro h
      simp only [wfBodyB, decide_eq_true_eq] at h
      subst h
      exact ⟨[], rfl, fun x hx => absurd hx (List.not_mem_nil x)⟩
    | cons c2 rest2 =>
      intro h
      simp only [wfBodyB, Bool.and_eq_true] at h
      obtain ⟨hc, hb⟩ := h
      obtain ⟨body, hbody, hclean⟩ := ih hb
      refine ⟨c :: body, by rw [List.cons_append, ← hbody], ?_⟩
      intro x hx
      rcases List.mem_cons.mp hx with rfl | hx
      · simp only [Bool.not_eq_eq_eq_not, Bool.not_true, Bool.or_eq_false_iff,
          decide_eq_false_iff_not] at hc
        intro hcon
        rcases hcon with h1 | h1 | h1
        · exact hc.1.1 h1
        · exact hc.1.2 h1
        · exact hc.2 h1
      · exact hclean x hx

theorem wfSymB_wf (t : Chars) (h : wfSymB t = true) : WFSymP t := by
  cases t with
  | nil => simp [wfSymB] at h
  | cons c rest =>
    simp only [wfSymB, Bool.and_eq_true, decide_eq_true_eq] at h
    obtain ⟨hc, hb⟩ := h
    subst hc
    obtain ⟨body, hbody, hclean⟩ := wfBodyB_wf rest hb
    exact ⟨body, by rw [hbody], hclean⟩

/-- Symbol-level soundness check for the derivation loop: well-formed
bracket token and a successful classification in the symbol caches. -/
def robustOkB (t : Chars) : Bool :=
  wfSymB t &&
  (if containsSub t ("Branch".toList) then (processBranchSymbol t).isSome
   else if containsSub t ("Ring".toList) then
     match processRingSymbol t with
     | some v => decide (1 ≤ v.1)
     | none => false
   else if containsSub t ("eps".toList) then true
   else (processAtomSymbol t).isSome)

set_option maxRecDepth 4096 in
theorem robustAlphabet_ok :
    ∀ t ∈ getSemanticRobustAlphabet, robustOkB t = true := by decide

/-- Quantities and stored bonds of a decoder graph: every bond count is
an integer (even `twice`), every stored bond has an integral order of at
least 1, and every ring bond is stored in both orientations. -/
structure DictInv (mol : MolecularGraph) : Prop where
  count_even : ∀ i, (mol.getBondCount i).twice % 2 = 0
  ord_ok : ∀ p bond, assocGet p mol.bondDict = some bond →
    1 ≤ bond.order ∧ bond.order.twice % 2 = 0
  rev_ok : ∀ p bond, assocGet p mol.bondDict = some bond →
    bond.ringBond = true →
    (assocGet ((p.2, p.1) : Nat × Nat) mol.bondDict).isSome = true

/-- Every recorded ring triple is ordered and asks for at least a
single bond. -/
def RingsOK (rings : List RingEntry) : Prop :=
  ∀ e ∈ rings, e.left ≤ e.right ∧ 1 ≤ e.order

theorem listModify_ge {α : Type} (l : List α) (x : Nat) (f : α → α)
    (h : l.length ≤ x) : listModify l x f = l := by
  unfold listModify
  cases hg : l.get? x with
  | none => rfl
  | some v =>
    rw [List.get?_eq_getElem?] at hg
    rw [List.getElem?_eq_none_iff.mpr h] at hg
    exact absurd hg (by simp)

theorem count_even_modify (bc : List HQ) (x : Nat) (d : HQ)
    (hd2 : d.twice % 2 = 0)
    (h : ∀ i, ((bc.getD i 0).twice) % 2 = 0) :
    ∀ i, (((listModify bc x (· + d)).getD i 0).twice) % 2 = 0 := by
  intro i
  by_cases hlt : x < bc.length
  · by_cases hix : i = x
    · subst hix
      rw [listModify_getD_lt _ _ _ _ hlt, HQ.add_twice]
      have := h i
      omega
    · rw [listModify_getD_ne _ _ _ _ _ hix]
      exact h i
  · rw [listModify_ge _ _ _ (by omega)]
    exact h i

theorem assocGet_assocSet_isSome {α β : Type} [DecidableEq α]
    (k k' : α) (v : β) (m : List (α × β))
    (h : (assocGet k' m).isSome = true) :
    (assocGet k' (assocSet k v m)).isSome = true := by
  by_cases he : k' = k
  · subst he
    rw [assocGet_assocSet_self]
    rfl
  · rw [assocGet_assocSet_ne _ _ he]
    exact h

theorem HQ.min_choice (a b : HQ) : min a b = a ∨ min a b = b := by
  rw [HQ.min_def]
  split
  · exact Or.inl rfl
  · exact Or.inr rfl

theorem addBond_ok_dict (mol : MolecularGraph) (src dst : Nat)
    (order : HQ) (stereo : Option Char) (mol' : MolecularGraph)
    (h : mol.addBond src dst order stereo = .ok mol') :
    mol'.bondDict = assocSet ((src, dst) : Nat × Nat)
      ⟨src, dst, order, stereo, false⟩ mol.bondDict := by
  simp only [MolecularGraph.addBond] at h
  by_cases hge : src ≥ dst
  · rw [if_pos hge] at h
    simp at h
  · rw [if_neg hge] at h
    by_cases har : order = HQ.aromatic
    · rw [if_pos har] at h
      rw [← Except.ok.inj h]
      rfl
    · rw [if_neg har] at h
      rw [← Except.ok.inj h]
      rfl

theorem addRingBond_dict (mol : MolecularGraph) (a b : Nat) (order : HQ)
    (s1 s2 : Option Char) (p1 p2 : Option Nat) :
    (mol.addRingBond a b order s1 s2 p1 p2).bondDict =
      assocSet ((b, a) : Nat × Nat) ⟨b, a, order, s2, true⟩
        (assocSet ((a, b) : Nat × Nat) ⟨a, b, order, s1, true⟩
          mol.bondDict) := by
  simp only [MolecularGraph.addRingBond]
  by_cases har : order = HQ.aromatic
  · rw [if_pos har]
    rfl
  · rw [if_neg har]
    rfl

theorem dictInv_addAtom (mol : MolecularGraph) (atom : Atom) (mk : Bool)
    (h : DictInv mol) : DictInv (mol.addAtom atom mk).1 := by
  refine ⟨?_, ?_, ?_⟩
  · intro i
    unfold MolecularGraph.getBondCount
    rw [addAtom_bondCounts]
    by_cases hi : i < mol.bondCounts.length
    · rw [getD_append_lt _ _ _ _ hi]
      exact h.count_even i
    · by_cases hieq : i = mol.bondCounts.length
      · subst hieq
        rw [getD_append_len]
        decide
      · rw [List.getD_append_right _ _ _ _ (by omega)]
        have h0 : ([(0 : HQ)] : List HQ).getD
            (i - mol.bondCounts.length) 0 = 0 := by
          cases hkk : i - mol.bondCounts.length with
          | zero => omega
          | succ m => rfl
        rw [h0]
        decide
  · intro p bond hb
    exact h.ord_ok p bond hb
  · intro p bond hb hr
    exact h.rev_ok p bond hb hr

theorem assocGet_keyMap (d : List ((Nat × Nat) × DirectedBond))
    (a b : Nat) (newOrder : HQ) (q : Nat × Nat) :
    assocGet q (d.map (fun e =>
      if e.1 = ((a, b) : Nat × Nat) then
        (e.1, { e.2 with order := newOrder })
      else e)) =
      (assocGet q d).map (fun bond =>
        if q = ((a, b) : Nat × Nat) then { bond with order := newOrder }
        else bond) := by
  induction d with
  | nil => rfl
  | cons kv rest ih =>
    obtain ⟨k0, v0⟩ := kv
    simp only [List.map_cons]
    by_cases h1 : k0 = (a, b)
    · rw [if_pos h1]
      by_cases hk : k0 = q
      · have hq : q = (a, b) := hk ▸ h1
        simp only [assocGet, if_pos hk, if_pos hq, Option.map_some']
      · simp only [assocGet, if_neg hk]
        exact ih
    · rw [if_neg h1]
      by_cases hk : k0 = q
      · have hq : ¬ q = (a, b) := by rw [← hk]; exact h1
        simp only [assocGet, if_pos hk, Option.map_some', if_neg hq]
      · simp only [assocGet, if_neg hk]
        exact ih

theorem assocGet_keyMap_some (d : List ((Nat × Nat) × DirectedBond))
    (a b : Nat) (newOrder : HQ) (q : Nat × Nat) (bond' : DirectedBond)
    (h : assocGet q (d.map (fun e =>
      if e.1 = ((a, b) : Nat × Nat) then
        (e.1, { e.2 with order := newOrder })
      else e)) = some bond') :
    ∃ bond, assocGet q d = some bond ∧
      bond'.ringBond = bond.ringBond ∧
      (bond'.order = bond.order ∨ bond'.order = newOrder) := by
  rw [assocGet_keyMap] at h
  cases hg : assocGet q d with
  | none =>
    rw [hg] at h
    simp at h
  | some bond0 =>
    rw [hg] at h
    simp only [Option.map_some'] at h
    by_cases hq : q = (a, b)
    · rw [if_pos hq] at h
      exact ⟨bond0, rfl, by rw [← Option.some.inj h],
        Or.inr (by rw [← Option.some.inj h])⟩
    · rw [if_neg hq] at h
      exact ⟨bond0, rfl, by rw [← Option.some.inj h],
        Or.inl (by rw [← Option.some.inj h])⟩

theorem assocGet_keyMap_isSome (d : List ((Nat × Nat) × DirectedBond))
    (a b : Nat) (newOrder : HQ) (q : Nat × Nat) :
    (assocGet q (d.map (fun e =>
      if e.1 = ((a, b) : Nat × Nat) then
        (e.1, { e.2 with order := newOrder })
      else e))).isSome = (assocGet q d).isSome := by
  rw [assocGet_keyMap]
  cases assocGet q d <;> rfl

theorem dictInv_addBond (mol : MolecularGraph) (src dst : Nat) (fo : Nat)
    (stereo : Option Char) (mol' : MolecularGraph)
    (h : mol.addBond src dst (HQ.ofNat fo) stereo = .ok mol')
    (hfo : 1 ≤ fo) (hd : DictInv mol) : DictInv mol' := by
  have hdict := addBond_ok_dict mol src dst (HQ.ofNat fo) stereo mol' h
  have hbc := (addBond_ok_spec mol src dst (HQ.ofNat fo) stereo mol' h).2
  refine ⟨?_, ?_, ?_⟩
  · intro i
    unfold MolecularGraph.getBondCount
    rw [hbc]
    exact count_even_modify _ dst _ (by rw [HQ.ofNat_twice]; omega)
      (count_even_modify _ src _ (by rw [HQ.ofNat_twice]; omega)
        (fun j => hd.count_even j)) i
  · intro p bond hb
    rw [hdict] at hb
    by_cases hp : p = (src, dst)
    · subst hp
      rw [assocGet_assocSet_self] at hb
      rw [← Option.some.inj hb]
      constructor
      · rw [HQ.le_iff, HQ.ofNat_twice,
          show ((1 : HQ)).twice = 2 from by decide]
        omega
      · rw [HQ.ofNat_twice]
        omega
    · rw [assocGet_assocSet_ne _ _ hp] at hb
      exact hd.ord_ok p bond hb
  · intro p bond hb hr
    rw [hdict] at hb ⊢
    by_cases hp : p = (src, dst)
    · subst hp
      rw [assocGet_assocSet_self] at hb
      rw [← Option.some.inj hb] at hr
      simp at hr
    · rw [assocGet_assocSet_ne _ _ hp] at hb
      exact assocGet_assocSet_isSome _ _ _ _ (hd.rev_ok p bond hb hr)

theorem dictInv_atomStep (mol : MolecularGraph) (state : DState)
    (prevAtom : Option PrevAtom) (bondInfo : Nat × Option Char)
    (atom : Atom) (mol' : MolecularGraph) (ns : DState)
    (pa' : Option PrevAtom)
    (hok : deriveAtomStep mol state prevAtom bondInfo atom =
      .ok (mol', ns, pa'))
    (hd : DictInv mol) : DictInv mol' := by
  simp only [deriveAtomStep] at hok
  by_cases hfo0 : (nextAtomState bondInfo.1 atom.bondingCapacity.toNat
      state).1 = 0
  · rw [if_pos hfo0] at hok
    by_cases hs0 : state = some 0
    · rw [if_pos hs0] at hok
      have htr := Except.ok.inj hok
      simp only [Prod.mk.injEq] at htr
      rw [← htr.1]
      exact dictInv_addAtom mol atom true hd
    · rw [if_neg hs0] at hok
      have htr := Except.ok.inj hok
      simp only [Prod.mk.injEq] at htr
      rw [← htr.1]
      exact hd
  · rw [if_neg hfo0] at hok
    cases prevAtom with
    | none =>
      have htr := Except.ok.inj hok
      simp only [Prod.mk.injEq] at htr
      rw [← htr.1]
      exact dictInv_addAtom mol atom false hd
    | some p =>
      cases hpidx : p.idx with
      | none =>
        simp only [hpidx] at hok
        have htr := Except.ok.inj hok
        simp only [Prod.mk.injEq] at htr
        rw [← htr.1]
        exact dictInv_addAtom mol atom false hd
      | some srcIdx =>
        simp only [hpidx] at hok
        cases hab : (mol.addAtom atom false).1.addBond
            (min srcIdx (mol.addAtom atom false).2)
            (max srcIdx (mol.addAtom atom false).2)
            (HQ.ofNat (nextAtomState bondInfo.1
              atom.bondingCapacity.toNat state).1) bondInfo.2 with
        | error e =>
          simp only [hab] at hok
          simp at hok
        | ok mol2 =>
          simp only [hab] at hok
          have htr := Except.ok.inj hok
          simp only [Prod.mk.injEq] at htr
          rw [← htr.1]
          exact dictInv_addBond _ _ _ _ _ _ hab (by omega)
            (dictInv_addAtom mol atom false hd)

theorem dictInv_addRingBond (mol : MolecularGraph) (a b : Nat)
    (order : HQ) (s1 s2 : Option Char) (p1 p2 : Option Nat)
    (hor : 1 ≤ order) (hev : order.twice % 2 = 0) (hab : a ≠ b)
    (hd : DictInv mol) :
    DictInv (mol.addRingBond a b order s1 s2 p1 p2) := by
  have hdict := addRingBond_dict mol a b order s1 s2 p1 p2
  have hbc := (addRingBond_spec mol a b order s1 s2 p1 p2).2
  refine ⟨?_, ?_, ?_⟩
  · intro i
    unfold MolecularGraph.getBondCount
    rw [hbc]
    exact count_even_modify _ b _ hev
      (count_even_modify _ a _ hev (fun j => hd.count_even j)) i
  · intro p bond hb
    rw [hdict] at hb
    by_cases hba : p = (b, a)
    · subst hba
      rw [assocGet_assocSet_self] at hb
      rw [← Option.some.inj hb]
      exact ⟨hor, hev⟩
    · rw [assocGet_assocSet_ne _ _ hba] at hb
      by_cases hab2 : p = (a, b)
      · subst hab2
        rw [assocGet_assocSet_self] at hb
        rw [← Option.some.inj hb]
        exact ⟨hor, hev⟩
      · rw [assocGet_assocSet_ne _ _ hab2] at hb
        exact hd.ord_ok p bond hb
  · intro p bond hb hr
    rw [hdict] at hb ⊢
    by_cases hba : p = (b, a)
    · subst hba
      rw [show ((((b, a) : Nat × Nat).2, ((b, a) : Nat × Nat).1) :
        Nat × Nat) = ((a, b) : Nat × Nat) from rfl]
      rw [assocGet_assocSet_ne _ _
        (fun hc => hab (congrArg Prod.fst hc))]
      rw [assocGet_assocSet_self]
      rfl
    · by_cases hab2 : p = (a, b)
      · subst hab2
        rw [show ((((a, b) : Nat × Nat).2, ((a, b) : Nat × Nat).1) :
          Nat × Nat) = ((b, a) : Nat × Nat) from rfl]
        rw [assocGet_assocSet_self]
        rfl
      · rw [assocGet_assocSet_ne _ _ hba,
          assocGet_assocSet_ne _ _ hab2] at hb
        exact assocGet_assocSet_isSome _ _ _ _
          (assocGet_assocSet_isSome _ _ _ _ (hd.rev_ok p bond hb hr))

theorem dictInv_updateBondOrder (mol : MolecularGraph) (a b : Nat)
    (newOrder : HQ) (mol' : MolecularGraph)
    (h : mol.updateBondOrder a b newOrder = .ok mol')
    (hev : newOrder.twice % 2 = 0)
    (hd : DictInv mol) : DictInv mol' := by
  by_cases hv : ¬(1 ≤ newOrder ∧ newOrder ≤ 3)
  · simp only [MolecularGraph.updateBondOrder, if_pos hv] at h
    simp at h
  · simp only [MolecularGraph.updateBondOrder, if_neg hv] at h
    cases hg : assocGet (if a > b then ((b, a) : Nat × Nat) else (a, b))
        mol.bondDict with
    | none =>
      simp only [hg] at h
      simp at h
    | some aToB =>
      have hordB := hd.ord_ok _ aToB hg
      by_cases heq : newOrder = aToB.order
      · simp only [hg, if_pos heq] at h
        rw [← Except.ok.inj h]
        exact hd
      · have hdev : (newOrder - aToB.order).twice % 2 = 0 := by
          rw [HQ.sub_twice]
          omega
        by_cases hrb : aToB.ringBond = true
        · cases hg2 : assocGet
              ((if a > b then ((b, a) : Nat × Nat) else (a, b)).2,
               (if a > b then ((b, a) : Nat × Nat) else (a, b)).1)
              mol.bondDict with
          | none =>
            simp only [hg, if_neg heq, if_pos hrb, hg2] at h
            simp at h
          | some rev =>
            simp only [hg, if_neg heq, if_pos hrb, hg2] at h
            rw [← Except.ok.inj h]
            refine ⟨?_, ?_, ?_⟩
            · intro i
              unfold MolecularGraph.getBondCount
              exact count_even_modify _ _ _ hdev
                (count_even_modify _ _ _ hdev
                  (fun j => hd.count_even j)) i
            · intro p bond hb
              have hb1 : assocGet p ((mol.bondDict.map (fun e =>
                  if e.1 = (((if a > b then ((b, a) : Nat × Nat)
                      else (a, b)).1,
                    (if a > b then ((b, a) : Nat × Nat)
                      else (a, b)).2) : Nat × Nat) then
                    (e.1, { e.2 with order := newOrder })
                  else e)).map (fun e =>
                  if e.1 = (((if a > b then ((b, a) : Nat × Nat)
                      else (a, b)).2,
                    (if a > b then ((b, a) : Nat × Nat)
                      else (a, b)).1) : Nat × Nat) then
                    (e.1, { e.2 with order := newOrder })
                  else e)) = some bond := hb
              obtain ⟨bond1, hbg1, hrb1, hor1⟩ :=
                assocGet_keyMap_some _ _ _ _ _ _ hb1
              obtain ⟨bond0, hbg0, hrb0, hor0⟩ :=
                assocGet_keyMap_some _ _ _ _ _ _ hbg1
              have hb0 := hd.ord_ok p bond0 hbg0
              have h1le : 1 ≤ newOrder := (not_not.mp hv).1
              constructor
              · rcases hor1 with h1 | h1
                · rcases hor0 with h0 | h0
                  · rw [h1, h0]
                    exact hb0.1
                  · rw [h1, h0]
                    exact h1le
                · rw [h1]
                  exact h1le
              · rcases hor1 with h1 | h1
                · rcases hor0 with h0 | h0
                  · rw [h1, h0]
                    exact hb0.2
                  · rw [h1, h0]
                    exact hev
                · rw [h1]
                  exact hev
            · intro p bond hb hr
              have hb1 : assocGet p ((mol.bondDict.map (fun e =>
                  if e.1 = (((if a > b then ((b, a) : Nat × Nat)
                      else (a, b)).1,
                    (if a > b then ((b, a) : Nat × Nat)
                      else (a, b)).2) : Nat × Nat) then
                    (e.1, { e.2 with order := newOrder })
                  else e)).map (fun e =>
                  if e.1 = (((if a > b then ((b, a) : Nat × Nat)
                      else (a, b)).2,
                    (if a > b then ((b, a) : Nat × Nat)
                      else (a, b)).1) : Nat × Nat) then
                    (e.1, { e.2 with order := newOrder })
                  else e)) = some bond := hb
              obtain ⟨bond1, hbg1, hrb1, hor1⟩ :=
                assocGet_keyMap_some _ _ _ _ _ _ hb1
              obtain ⟨bond0, hbg0, hrb0, hor0⟩ :=
                assocGet_keyMap_some _ _ _ _ _ _ hbg1
              have hrev := hd.rev_ok p bond0 hbg0
                (by rw [← hrb0, ← hrb1]; exact hr)
              show (assocGet ((p.2, p.1) : Nat × Nat)
                ((mol.bondDict.map _).map _)).isSome = true
              rw [assocGet_keyMap_isSome, assocGet_keyMap_isSome]
              exact hrev
        · simp only [hg, if_neg heq, if_neg hrb] at h
          rw [← Except.ok.inj h]
          refine ⟨?_, ?_, ?_⟩
          · intro i
            unfold MolecularGraph.getBondCount
            exact count_even_modify _ _ _ hdev
              (count_even_modify _ _ _ hdev
                (fun j => hd.count_even j)) i
          · intro p bond hb
            have hb1 : assocGet p (mol.bondDict.map (fun e =>
                if e.1 = (((if a > b then ((b, a) : Nat × Nat)
                    else (a, b)).1,
                  (if a > b then ((b, a) : Nat × Nat)
                    else (a, b)).2) : Nat × Nat) then
                  (e.1, { e.2 with order := newOrder })
                else e)) = some bond := hb
            obtain ⟨bond0, hbg0, hrb0, hor0⟩ :=
              assocGet_keyMap_some _ _ _ _ _ _ hb1
            have hb0 := hd.ord_ok p bond0 hbg0
            have h1le : 1 ≤ newOrder := (not_not.mp hv).1
            constructor
            · rcases hor0 with h0 | h0
              · rw [h0]
                exact hb0.1
              · rw [h0]
                exact h1le
            · rcases hor0 with h0 | h0
              · rw [h0]
                exact hb0.2
              · rw [h0]
                exact hev
          · intro p bond hb hr
            have hb1 : assocGet p (mol.bondDict.map (fun e =>
                if e.1 = (((if a > b then ((b, a) : Nat × Nat)
                    else (a, b)).1,
                  (if a > b then ((b, a) : Nat × Nat)
                    else (a, b)).2) : Nat × Nat) then
                  (e.1, { e.2 with order := newOrder })
                else e)) = some bond := hb
            obtain ⟨bond0, hbg0, hrb0, hor0⟩ :=
              assocGet_keyMap_some _ _ _ _ _ _ hb1
            have hrev := hd.rev_ok p bond0 hbg0 (by rw [← hrb0]; exact hr)
            show (assocGet ((p.2, p.1) : Nat × Nat)
              (mol.bondDict.map _)).isSome = true
            rw [assocGet_keyMap_isSome]
            exact hrev

theorem formRingStep_total (st : MolecularGraph × List Nat)
    (e : RingEntry) (he : e.left ≤ e.right ∧ 1 ≤ e.order)
    (hinv : CapInv st.1) (hd : DictInv st.1) :
    ∃ st', formRingStep st e = .ok st' ∧ CapInv st'.1 ∧ DictInv st'.1 := by
  by_cases hlr : e.left = e.right
  · exact ⟨st, by simp only [formRingStep, if_pos hlr], hinv, hd⟩
  · have hlt : e.left < e.right := lt_of_le_of_ne he.1 hlr
    by_cases hfree : (st.1.getAtom e.left).capQ -
        st.1.getBondCount e.left ≤ 0 ∨
        (st.1.getAtom e.right).capQ - st.1.getBondCount e.right ≤ 0
    · exact ⟨st, by simp only [formRingStep, if_neg hlr, if_pos hfree],
        hinv, hd⟩
    · have hfL : ¬ ((st.1.getAtom e.left).capQ -
          st.1.getBondCount e.left ≤ 0) := fun hc => hfree (Or.inl hc)
      have hfR : ¬ ((st.1.getAtom e.right).capQ -
          st.1.getBondCount e.right ≤ 0) := fun hc => hfree (Or.inr hc)
      have hLev : ((st.1.getAtom e.left).capQ.twice -
          (st.1.getBondCount e.left).twice) % 2 = 0 := by
        have h1 := hd.count_even e.left
        unfold Atom.capQ
        rw [HQ.ofInt_twice]
        omega
      have hRev : ((st.1.getAtom e.right).capQ.twice -
          (st.1.getBondCount e.right).twice) % 2 = 0 := by
        have h1 := hd.count_even e.right
        unfold Atom.capQ
        rw [HQ.ofInt_twice]
        omega
      rw [HQ.le_iff, HQ.zero_twice] at hfL hfR
      rw [HQ.sub_twice] at hfL hfR
      have hfoeven : ((min (min (HQ.ofNat e.order)
          ((st.1.getAtom e.left).capQ - st.1.getBondCount e.left))
          ((st.1.getAtom e.right).capQ -
            st.1.getBondCount e.right))).twice % 2 = 0 := by
        rcases HQ.min_choice (min (HQ.ofNat e.order)
            ((st.1.getAtom e.left).capQ - st.1.getBondCount e.left))
            ((st.1.getAtom e.right).capQ -
              st.1.getBondCount e.right) with h | h
        · rw [h]
          rcases HQ.min_choice (HQ.ofNat e.order)
              ((st.1.getAtom e.left).capQ -
                st.1.getBondCount e.left) with h2 | h2
          · rw [h2, HQ.ofNat_twice]
            omega
          · rw [h2, HQ.sub_twice]
            exact hLev
        · rw [h, HQ.sub_twice]
          exact hRev
      have hfo1ge : 1 ≤ min (min (HQ.ofNat e.order)
          ((st.1.getAtom e.left).capQ - st.1.getBondCount e.left))
          ((st.1.getAtom e.right).capQ -
            st.1.getBondCount e.right) := by
        have h1t : ((1 : HQ)).twice = 2 := by decide
        rcases HQ.min_choice (min (HQ.ofNat e.order)
            ((st.1.getAtom e.left).capQ - st.1.getBondCount e.left))
            ((st.1.getAtom e.right).capQ -
              st.1.getBondCount e.right) with h | h
        · rw [HQ.le_iff, h]
          rcases HQ.min_choice (HQ.ofNat e.order)
              ((st.1.getAtom e.left).capQ -
                st.1.getBondCount e.left) with h2 | h2
          · rw [h2, HQ.ofNat_twice, h1t]
            have := he.2
            omega
          · rw [h2, h1t, HQ.sub_twice]
            omega
        · rw [HQ.le_iff, h, h1t, HQ.sub_twice]
          omega
      by_cases hbond : st.1.hasBond e.left e.right = true
      · have hsome : (assocGet ((e.left, e.right) : Nat × Nat)
            st.1.bondDict).isSome = true := by
          simp only [MolecularGraph.hasBond] at hbond
          rw [if_neg (by omega : ¬ e.left > e.right)] at hbond
          exact hbond
        obtain ⟨existing, hgd⟩ := Option.isSome_iff_exists.mp hsome
        have hdb : st.1.getDirBond e.left e.right = .ok existing := by
          unfold MolecularGraph.getDirBond
          rw [hgd]
        have hordE := hd.ord_ok _ existing hgd
        have hno1 : 1 ≤ min (min (min (HQ.ofNat e.order)
            ((st.1.getAtom e.left).capQ - st.1.getBondCount e.left))
            ((st.1.getAtom e.right).capQ - st.1.getBondCount e.right) +
              existing.order) 3 := by
          have h1t : ((1 : HQ)).twice = 2 := by decide
          have h3t : ((3 : HQ)).twice = 6 := by decide
          rcases HQ.min_choice (min (min (HQ.ofNat e.order)
              ((st.1.getAtom e.left).capQ - st.1.getBondCount e.left))
              ((st.1.getAtom e.right).capQ - st.1.getBondCount e.right) +
                existing.order) 3 with h | h
          · rw [HQ.le_iff, h, HQ.add_twice, h1t]
            rw [HQ.le_iff, h1t] at hfo1ge
            have := hordE.1
            rw [HQ.le_iff, h1t] at this
            omega
          · rw [HQ.le_iff, h, h1t, h3t]
            omega
        have hno3 : min (min (min (HQ.ofNat e.order)
            ((st.1.getAtom e.left).capQ - st.1.getBondCount e.left))
            ((st.1.getAtom e.right).capQ - st.1.getBondCount e.right) +
              existing.order) 3 ≤ 3 := HQ.min_le_right _ _
        have hnoev : ((min (min (min (HQ.ofNat e.order)
            ((st.1.getAtom e.left).capQ - st.1.getBondCount e.left))
            ((st.1.getAtom e.right).capQ - st.1.getBondCount e.right) +
              existing.order) 3)).twice % 2 = 0 := by
          have h3t : ((3 : HQ)).twice = 6 := by decide
          rcases HQ.min_choice (min (min (HQ.ofNat e.order)
              ((st.1.getAtom e.left).capQ - st.1.getBondCount e.left))
              ((st.1.getAtom e.right).capQ - st.1.getBondCount e.right) +
                existing.order) 3 with h | h
          · rw [h, HQ.add_twice]
            have := hordE.2
            omega
          · rw [h, h3t]
            omega
        cases hu : st.1.updateBondOrder e.left e.right
            (min (min (min (HQ.ofNat e.order)
              ((st.1.getAtom e.left).capQ - st.1.getBondCount e.left))
              ((st.1.getAtom e.right).capQ - st.1.getBondCount e.right) +
                existing.order) 3) with
        | error err =>
          exfalso
          simp only [MolecularGraph.updateBondOrder] at hu
          rw [if_neg (not_not_intro ⟨hno1, hno3⟩)] at hu
          rw [show (if e.left > e.right then
              ((e.right, e.left) : Nat × Nat) else (e.left, e.right)) =
            ((e.left, e.right) : Nat × Nat) from if_neg (by omega)] at hu
          simp only [hgd] at hu
          by_cases heqo : min (min (min (HQ.ofNat e.order)
              ((st.1.getAtom e.left).capQ - st.1.getBondCount e.left))
              ((st.1.getAtom e.right).capQ - st.1.getBondCount e.right) +
                existing.order) 3 = existing.order
          · rw [if_pos heqo] at hu
            simp at hu
          · rw [if_neg heqo] at hu
            by_cases hrbE : existing.ringBond = true
            · rw [if_pos hrbE] at hu
              have hrev := hd.rev_ok _ existing hgd hrbE
              obtain ⟨revb, hrevb⟩ := Option.isSome_iff_exists.mp hrev
              simp only [hrevb] at hu
              simp at hu
            · rw [if_neg hrbE] at hu
              simp at hu
        | ok mol2 =>
          have hstep : formRingStep st e = .ok (mol2, st.2) := by
            simp only [formRingStep, if_neg hlr, if_neg hfree,
              if_pos hbond, hdb, hu]
          exact ⟨(mol2, st.2), hstep,
            formRingStep_cap st (mol2, st.2) e he.1 hstep hinv,
            dictInv_updateBondOrder st.1 e.left e.right _ mol2 hu hnoev hd⟩
      · have hstep : formRingStep st e = .ok
            (st.1.addRingBond e.left e.right
              (min (min (HQ.ofNat e.order)
                ((st.1.getAtom e.left).capQ - st.1.getBondCount e.left))
                ((st.1.getAtom e.right).capQ -
                  st.1.getBondCount e.right))
              e.stereo e.stereo (some (st.2.getD e.left 0))
              (some (st.2.getD e.right 0)),
            listModify (listModify st.2 e.left (· + 1)) e.right
              (· + 1)) := by
          simp only [formRingStep, if_neg hlr, if_neg hfree, if_neg hbond]
        refine ⟨_, hstep, formRingStep_cap st _ e he.1 hstep hinv, ?_⟩
        exact dictInv_addRingBond st.1 e.left e.right _ e.stereo e.stereo
          _ _ hfo1ge hfoeven (by omega) hd

theorem foldlM_formRingStep_total (rings : List RingEntry) :
    ∀ st, RingsOK rings → CapInv st.1 → DictInv st.1 →
      ∃ st', List.foldlM formRingStep st rings = .ok st' ∧
        CapInv st'.1 ∧ DictInv st'.1 := by
  induction rings with
  | nil =>
    intro st _ hinv hd
    exact ⟨st, rfl, hinv, hd⟩
  | cons e es ih =>
    intro st hok hinv hd
    obtain ⟨st1, hs, hinv1, hd1⟩ := formRingStep_total st e
      (hok e (List.mem_cons_self _ _)) hinv hd
    obtain ⟨st', hs', hinv', hd'⟩ := ih st1
      (fun x hx => hok x (List.mem_cons_of_mem _ hx)) hinv1 hd1
    refine ⟨st', ?_, hinv', hd'⟩
    rw [List.foldlM_cons, hs]
    exact hs'

theorem formRingsBilocally_total (mol : MolecularGraph)
    (rings : List RingEntry) (hok : RingsOK rings)
    (hinv : CapInv mol) (hd : DictInv mol) :
    ∃ mol', formRingsBilocally mol rings = .ok mol' := by
  unfold formRingsBilocally
  by_cases hir : hasInvalidRings rings = true
  · rw [if_pos hir]
    exact ⟨mol, rfl⟩
  · rw [if_neg hir]
    simp only [formRingsLenient]
    obtain ⟨st', hs, _, _⟩ := foldlM_formRingStep_total rings
      (mol, List.replicate mol.length 0) hok hinv hd
    rw [hs]
    exact ⟨st'.1, rfl⟩

theorem deriveAtomStep_total (mol : MolecularGraph) (state : DState)
    (prevAtom : Option PrevAtom) (bondInfo : Nat × Option Char)
    (atom : Atom) (hprev : PrevInv state prevAtom mol) :
    ∃ out, deriveAtomStep mol state prevAtom bondInfo atom = .ok out := by
  simp only [deriveAtomStep]
  by_cases hfo0 : (nextAtomState bondInfo.1 atom.bondingCapacity.toNat
      state).1 = 0
  · rw [if_pos hfo0]
    by_cases hs0 : state = some 0
    · rw [if_pos hs0]
      exact ⟨_, rfl⟩
    · rw [if_neg hs0]
      exact ⟨_, rfl⟩
  · rw [if_neg hfo0]
    cases prevAtom with
    | none => exact ⟨_, rfl⟩
    | some p =>
      cases hpidx : p.idx with
      | none =>
        simp only [hpidx]
        exact ⟨_, rfl⟩
      | some srcIdx =>
        simp only [hpidx]
        obtain ⟨hsrclt, _⟩ := hprev srcIdx (by simp [touchedIdx, hpidx])
        have hlt : srcIdx < mol.atoms.length := hsrclt
        rw [addAtom_idx, min_eq_left (le_of_lt hlt),
          max_eq_right (le_of_lt hlt)]
        have hok : ∃ m2, (mol.addAtom atom false).1.addBond srcIdx
            mol.atoms.length
            (HQ.ofNat (nextAtomState bondInfo.1
              atom.bondingCapacity.toNat state).1) bondInfo.2 =
            .ok m2 := by
          simp only [MolecularGraph.addBond]
          rw [if_neg (by omega : ¬ srcIdx ≥ mol.atoms.length)]
          by_cases har : HQ.ofNat (nextAtomState bondInfo.1
              atom.bondingCapacity.toNat state).1 = HQ.aromatic
          · rw [if_pos har]
            exact ⟨_, rfl⟩
          · rw [if_neg har]
            exact ⟨_, rfl⟩
        obtain ⟨m2, hm2⟩ := hok
        exact ⟨_, by simp only [hm2]; rfl⟩

theorem deriveMol_total (fuel : Nat) :
    ∀ (syms : List Chars) (maxD : Option Nat) (nD : Nat) (state : DState)
      (prevAtom : Option PrevAtom) (mol : MolecularGraph)
      (rings : List RingEntry),
      syms.length < fuel →
      (∀ t ∈ syms, robustOkB t = true) →
      CapInv mol → PrevInv state prevAtom mol → DictInv mol →
      RingsOK rings →
      ∃ r, deriveMol fuel syms maxD nD state prevAtom mol rings = .ok r ∧
        r.rest.Sublist syms ∧ DictInv r.mol ∧ RingsOK r.rings := by
  induction fuel with
  | zero =>
    intro syms maxD nD state prevAtom mol rings hlen
    omega
  | succ fuel ih =>
    intro syms maxD nD state prevAtom mol rings hlen hsyms hinv hprev hd hrk
    by_cases hBudget : budgetReached maxD nD = true
    · refine ⟨⟨mol, rings, syms, nD⟩, ?_, List.Sublist.refl _, hd, hrk⟩
      simp only [deriveMol, if_pos hBudget]
    · cases syms with
      | nil =>
        refine ⟨⟨mol, rings, [], nD⟩, ?_, List.nil_sublist _, hd, hrk⟩
        simp only [deriveMol, if_neg hBudget]
      | cons symbol rest =>
        have hsym := hsyms symbol (List.mem_cons_self _ _)
        have hrest : ∀ t ∈ rest, robustOkB t = true :=
          fun t ht => hsyms t (List.mem_cons_of_mem _ ht)
        have hlenr : rest.length < fuel := by
          simp only [List.length_cons] at hlen
          omega
        simp only [robustOkB, Bool.and_eq_true] at hsym
        obtain ⟨hwfs, hclass⟩ := hsym
        have hordR : ∀ e ∈ rings, e.left ≤ e.right :=
          fun e he => (hrk e he).1
        by_cases hB : containsSub symbol ("Branch".toList) = true
        · rw [if_pos hB] at hclass
          obtain ⟨bt, hbs⟩ := Option.isSome_iff_exists.mp hclass
          obtain ⟨btype, n⟩ := bt
          cases state with
          | none =>
            obtain ⟨r, hr, hsub, hdr, hrkr⟩ := ih rest maxD (nD + 1) none
              prevAtom mol rings hlenr hrest hinv hprev hd hrk
            refine ⟨r, ?_,
              hsub.trans (List.sublist_cons_self _ _), hdr, hrkr⟩
            simp only [deriveMol, if_neg hBudget, if_pos hB, hbs]
            exact hr
          | some st =>
            by_cases hst1 : st ≤ 1
            · obtain ⟨r, hr, hsub, hdr, hrkr⟩ := ih rest maxD (nD + 1)
                (some st) prevAtom mol rings hlenr hrest hinv hprev hd hrk
              refine ⟨r, ?_,
                hsub.trans (List.sublist_cons_self _ _), hdr, hrkr⟩
              simp only [deriveMol, if_neg hBudget, if_pos hB, hbs,
                if_pos hst1]
              exact hr
            · have hb1 : (nextBranchState btype st).1 ≤ st - 1 := by
                simp only [nextBranchState]
                exact Nat.min_le_left _ _
              have hb2 : stOr0 (nextBranchState btype st).2 =
                  st - (nextBranchState btype st).1 := by
                simp only [nextBranchState]
                exact stOr0_ite _
              have hprevInner : PrevInv
                  (some (nextBranchState btype st).1) prevAtom mol :=
                prevInv_mono _ _ _ _ (by simp only [stOr0]; omega) hprev
              have hlend : (rest.drop n).length < fuel :=
                lt_of_le_of_lt (List.drop_sublist n rest).length_le hlenr
              have hdmem : ∀ t ∈ rest.drop n, robustOkB t = true :=
                fun t ht => hrest t ((List.drop_sublist n rest).subset ht)
              obtain ⟨inner, hinner, hsubI, hdI, hrkI⟩ := ih (rest.drop n)
                (some (getIndexFromSelfies (rest.take n) + 1)) 0
                (some (nextBranchState btype st).1) prevAtom mol rings
                hlend hdmem hinv hprevInner hd hrk
              obtain ⟨hpostI, hordI⟩ := deriveMol_cap fuel _ _ _ _ _ _ _ _
                hinner hinv hprevInner hordR
              simp only [stOr0] at hpostI
              have hprevCont : PrevInv (nextBranchState btype st).2
                  prevAtom inner.mol := by
                intro k hk
                obtain ⟨hk1, hk2⟩ := hprev k hk
                obtain ⟨hCI, hlenI, hatomsI, hstabI, hboundI⟩ := hpostI
                refine ⟨lt_of_lt_of_le hk1 hlenI, ?_⟩
                have hbnd := hboundI k hk
                rw [hatomsI k hk1]
                rw [HQ.le_iff, HQ.add_twice, HQ.ofNat_twice] at hk2
                rw [HQ.le_iff, HQ.add_twice, HQ.ofNat_twice] at hbnd
                rw [HQ.le_iff, HQ.add_twice, HQ.ofNat_twice]
                rw [hb2]
                simp only [stOr0] at hk2
                omega
              have hlenc : inner.rest.length < fuel :=
                lt_of_le_of_lt (hsubI.trans
                  (List.drop_sublist n rest)).length_le hlenr
              have hcmem : ∀ t ∈ inner.rest, robustOkB t = true :=
                fun t ht => hrest t ((hsubI.trans
                  (List.drop_sublist n rest)).subset ht)
              obtain ⟨r, hr, hsubC, hdr, hrkr⟩ := ih inner.rest maxD
                (nD + 1 + n + inner.nDerived)
                (nextBranchState btype st).2 prevAtom inner.mol
                inner.rings hlenc hcmem hpostI.1 hprevCont hdI hrkI
              refine ⟨r, ?_, ?_, hdr, hrkr⟩
              · simp only [deriveMol, if_neg hBudget, if_pos hB, hbs,
                  if_neg hst1, hinner]
                exact hr
              · exact (hsubC.trans ((hsubI.trans
                  (List.drop_sublist n rest)).trans
                  (List.sublist_cons_self _ _)))
        · rw [if_neg hB] at hclass
          by_cases hR : containsSub symbol ("Ring".toList) = true
          · rw [if_pos hR] at hclass
            cases hrs : processRingSymbol symbol with
            | none =>
              rw [hrs] at hclass
              simp at hclass
            | some v =>
              rw [hrs] at hclass
              obtain ⟨rt, n, stereo⟩ := v
              have hrt : 1 ≤ rt := by
                simpa using hclass
              cases state with
              | none =>
                obtain ⟨r, hr, hsub, hdr, hrkr⟩ := ih rest maxD (nD + 1)
                  none prevAtom mol rings hlenr hrest hinv hprev hd hrk
                refine ⟨r, ?_,
                  hsub.trans (List.sublist_cons_self _ _), hdr, hrkr⟩
                simp only [deriveMol, if_neg hBudget, if_neg hB,
                  if_pos hR, hrs]
                exact hr
              | some st =>
                by_cases hst0 : st = 0
                · obtain ⟨r, hr, hsub, hdr, hrkr⟩ := ih rest maxD (nD + 1)
                    (some st) prevAtom mol rings hlenr hrest hinv hprev hd
                    hrk
                  refine ⟨r, ?_,
                    hsub.trans (List.sublist_cons_self _ _), hdr, hrkr⟩
                  simp only [deriveMol, if_neg hBudget, if_neg hB,
                    if_pos hR, hrs, if_pos hst0]
                  exact hr
                · have hr2 : stOr0 (nextRingState rt st).2 =
                      st - (nextRingState rt st).1 := by
                    simp only [nextRingState]
                    exact stOr0_ite _
                  have hr1 : (nextRingState rt st).1 = min rt st := rfl
                  have hrkA : RingsOK (ringAppend prevAtom rings
                      (getIndexFromSelfies (rest.take n))
                      (nextRingState rt st).1 stereo.1) := by
                    unfold ringAppend
                    cases prevAtom with
                    | none => exact hrk
                    | some p =>
                      cases hpidx : p.idx with
                      | none =>
                        simp only [hpidx]
                        exact hrk
                      | some pidx =>
                        simp only [hpidx]
                        intro e he
                        rcases List.mem_append.mp he with h | h
                        · exact hrk e h
                        · have he2 := List.mem_singleton.mp h
                          subst he2
                          refine ⟨Nat.sub_le _ _, ?_⟩
                          rw [hr1]
                          exact le_min hrt (by omega)
                  have hprevR : PrevInv (nextRingState rt st).2 prevAtom
                      mol :=
                    prevInv_mono _ _ _ _
                      (by rw [hr2]; simp only [stOr0]; omega) hprev
                  have hlend : (rest.drop n).length < fuel :=
                    lt_of_le_of_lt (List.drop_sublist n rest).length_le
                      hlenr
                  have hdmem : ∀ t ∈ rest.drop n, robustOkB t = true :=
                    fun t ht => hrest t ((List.drop_sublist n rest).subset
                      ht)
                  obtain ⟨r, hr, hsub, hdr, hrkr⟩ := ih (rest.drop n) maxD
                    (nD + 1 + n) (nextRingState rt st).2 prevAtom mol
                    (ringAppend prevAtom rings
                      (getIndexFromSelfies (rest.take n))
                      (nextRingState rt st).1 stereo.1)
                    hlend hdmem hinv hprevR hd hrkA
                  refine ⟨r, ?_,
                    (hsub.trans (List.drop_sublist n rest)).trans
                      (List.sublist_cons_self _ _), hdr, hrkr⟩
                  have hrEq : deriveMol fuel (rest.drop n) maxD
                      (nD + 1 + n) (nextRingState rt st).2 prevAtom mol
                      (ringAppend prevAtom rings
                        (getIndexFromSelfies (rest.take n))
                        (nextRingState rt st).1 stereo.1) = .ok r := hr
                  simp only [deriveMol, if_neg hBudget, if_neg hB,
                    if_pos hR, hrs, if_neg hst0]
                  exact hrEq
          · rw [if_neg hR] at hclass
            by_cases hE : containsSub symbol ("eps".toList) = true
            · have hle0 : stOr0 (if state = some 0 then (some 0 : DState)
                  else none) ≤ stOr0 state := by
                by_cases hs0 : state = some 0
                · rw [if_pos hs0, hs0]
                · rw [if_neg hs0]
                  simp [stOr0]
              have hprev' : PrevInv
                  (if state = some 0 then (some 0 : DState) else none)
                  prevAtom mol :=
                prevInv_mono _ _ _ _ hle0 hprev
              obtain ⟨r, hr, hsub, hdr, hrkr⟩ := ih rest maxD (nD + 1)
                (if state = some 0 then (some 0 : DState) else none)
                prevAtom mol rings hlenr hrest hinv hprev' hd hrk
              refine ⟨r, ?_,
                hsub.trans (List.sublist_cons_self _ _), hdr, hrkr⟩
              simp only [deriveMol, if_neg hBudget, if_neg hB, if_neg hR,
                if_pos hE]
              exact hr
            · rw [if_neg hE] at hclass
              obtain ⟨v, hv⟩ := Option.isSome_iff_exists.mp hclass
              obtain ⟨bi, atom⟩ := v
              obtain ⟨out, hstep⟩ := deriveAtomStep_total mol state
                prevAtom bi atom hprev
              obtain ⟨mol2, ns2, pa2⟩ := out
              have hcap2 := processAtomSymbol_cap symbol bi atom hv
              obtain ⟨hstepPost, hstepPrev, hstepHigh⟩ :=
                deriveAtomStep_cap mol state prevAtom bi atom mol2 ns2
                  pa2 hstep hinv hprev hcap2
              have hd2 : DictInv mol2 :=
                dictInv_atomStep mol state prevAtom bi atom mol2 ns2 pa2
                  hstep hd
              obtain ⟨r, hr, hsub, hdr, hrkr⟩ := ih rest maxD (nD + 1)
                ns2 pa2 mol2 rings hlenr hrest hstepPost.1 hstepPrev hd2
                hrk
              refine ⟨r, ?_,
                hsub.trans (List.sublist_cons_self _ _), hdr, hrkr⟩
              simp only [deriveMol, if_neg hBudget, if_neg hB, if_neg hR,
                if_neg hE, hv, hstep]
              exact hr

theorem decodeFragment_total (acc : MolecularGraph × List RingEntry)
    (g : List Chars) (hg : ∀ t ∈ g, robustOkB t = true)
    (hwf : ∀ t ∈ g, WFSymP t)
    (hinv : CapInv acc.1) (hd : DictInv acc.1) (hrk : RingsOK acc.2) :
    ∃ acc', decodeFragment acc g.flatten = .ok acc' ∧
      CapInv acc'.1 ∧ DictInv acc'.1 ∧ RingsOK acc'.2 := by
  unfold decodeFragment
  simp only [tokenizeSelfies_group g hwf]
  have hmemF : ∀ t ∈ g.filter (· ≠ nopSym), robustOkB t = true :=
    fun t ht => hg t (List.mem_of_mem_filter ht)
  obtain ⟨r, hr, hsub, hdr, hrkr⟩ := deriveMol_total
    ((g.filter (· ≠ nopSym)).length + 1) (g.filter (· ≠ nopSym)) none 0
    (some 0) none acc.1 acc.2 (by omega) hmemF hinv
    (fun k hk => absurd hk (by simp [touchedIdx])) hd hrk
  obtain ⟨hpost, hordr⟩ := deriveMol_cap _ _ _ _ _ _ _ _ _ hr hinv
    (fun k hk => absurd hk (by simp [touchedIdx]))
    (fun e he => (hrk e he).1)
  simp only [hr]
  exact ⟨(r.mol, r.rings), rfl, hpost.1, hdr, hrkr⟩

theorem decodeFragments_total (gs : List (List Chars)) :
    ∀ acc, (∀ g ∈ gs, ∀ t ∈ g, robustOkB t = true) →
      (∀ g ∈ gs, ∀ t ∈ g, WFSymP t) →
      CapInv acc.1 → DictInv acc.1 → RingsOK acc.2 →
      ∃ acc', decodeFragments acc (gs.map (fun g => g.flatten)) =
          .ok acc' ∧
        CapInv acc'.1 ∧ DictInv acc'.1 ∧ RingsOK acc'.2 := by
  induction gs with
  | nil =>
    intro acc _ _ hinv hd hrk
    exact ⟨acc, rfl, hinv, hd, hrk⟩
  | cons g gs ihg =>
    intro acc hok hwf hinv hd hrk
    simp only [List.map_cons, decodeFragments]
    by_cases hgnil : g.flatten = []
    · rw [if_pos hgnil]
      exact ihg acc (fun g' hg' => hok g' (List.mem_cons_of_mem _ hg'))
        (fun g' hg' => hwf g' (List.mem_cons_of_mem _ hg')) hinv hd hrk
    · rw [if_neg hgnil]
      obtain ⟨acc1, hfrag, hinv1, hd1, hrk1⟩ := decodeFragment_total acc
        g (hok g (List.mem_cons_self _ _)) (hwf g (List.mem_cons_self _ _))
        hinv hd hrk
      simp only [hfrag]
      exact ihg acc1 (fun g' hg' => hok g' (List.mem_cons_of_mem _ hg'))
        (fun g' hg' => hwf g' (List.mem_cons_of_mem _ hg')) hinv1 hd1 hrk1

/-- Claim C1: decoder totality.  For every finite string that is a
concatenation of symbols drawn from the semantic robust alphabet,
optionally separated by `'.'` (modelled as an item list of alphabet
symbols and dots), the decoder returns a SMILES string without raising
any error. -/
theorem claim_C1_decoder_totality (w : List TokItem)
    (hA : ∀ t, TokItem.sym t ∈ w → t ∈ getSemanticRobustAlphabet) :
    (decodeStr (flattenToks w)).isOk = true := by
  have hok : ∀ t, TokItem.sym t ∈ w → robustOkB t = true :=
    fun t ht => robustAlphabet_ok t (hA t ht)
  have hwf : WFToks w := by
    intro t ht
    refine wfSymB_wf t ?_
    have := hok t ht
    simp only [robustOkB, Bool.and_eq_true] at this
    exact this.1
  unfold decodeStr
  by_cases hnil : flattenToks w = []
  · rw [if_pos hnil]
    rfl
  · rw [if_neg hnil]
    unfold decoderCore
    rw [splitOnDot_flattenToks w hwf]
    have hgs1 : ∀ g ∈ symGroups w, ∀ t ∈ g, robustOkB t = true :=
      fun g hg t ht => hok t (symGroups_mem w g hg t ht)
    have hgs2 : ∀ g ∈ symGroups w, ∀ t ∈ g, WFSymP t :=
      fun g hg t ht => hwf t (symGroups_mem w g hg t ht)
    obtain ⟨acc, hfr, hinvA, hdA, hrkA⟩ := decodeFragments_total
      (symGroups w) ({}, []) hgs1 hgs2
      ⟨rfl, fun i hi => absurd hi (Nat.not_lt_zero i)⟩
      ⟨fun i => by
        show ((0 : HQ)).twice % 2 = 0
        decide,
       fun p bond hb => absurd hb (by simp [assocGet]),
       fun p bond hb => absurd hb (by simp [assocGet])⟩
      (fun e he => absurd he (List.not_mem_nil e))
    obtain ⟨mol', hform⟩ := formRingsBilocally_total acc.1 acc.2 hrkA
      hinvA hdA
    simp only [hfr, hform]
    rfl

set_option maxRecDepth 8192 in
/-- Claim C1, witness: the alphabet word `"[C].[=O]"` (two robust
symbols separated by a dot) decodes without error. -/
theorem claim_C1_decoder_totality_witness :
    (decodeStr (flattenToks [TokItem.sym ("[C]".toList), TokItem.dot,
      TokItem.sym ("[=O]".toList)])).isOk = true :=
  claim_C1_decoder_totality _ (by
    intro t ht
    simp only [List.mem_cons] at ht
    rcases ht with h | h | h | h
    · rw [TokItem.sym.inj h]
      decide
    · exact absurd h (by simp)
    · rw [TokItem.sym.inj h]
      decide
    · exact absurd h (List.not_mem_nil _))
